import Mathlib

/-!
# gox tokenizer: a shallow embedding of `tokenizer/tokenize.go` and `tokenizer/utils.go`

Go `byte` values are natural numbers, a `[]byte` or a Go `string` is a list of them.
Indexing and slicing are checked: an access outside the bounds, which panics in Go,
is a `Fault`.  The cursor starts at 0 and is a natural number; where the source
subtracts from it (`cursor-1`, `start-1`) the value is an integer and the access is
checked against the lower bound 0 as well (`indexInt`, `sliceInt`).  Loops carry a budget of iterations; a loop that would need more than
its budget is the fault `Fault.budget`.  The two functions of Go's `strconv` that the
tokenizer calls are a parameter of the embedding (`Strconv`); `strconv` is a model of
them, for the statements that depend on what they return.
-/

namespace Gox

/-- A Go `[]byte` or `string`: the list of its bytes. -/
abbrev Bytes := List Nat

/-- The bytes of an ASCII string constant of the source. -/
def str (s : String) : Bytes := s.toList.map Char.toNat

/-- What stops a run abnormally: a Go run-time panic, or an exhausted loop budget. -/
inductive Fault where
  | indexOutOfRange
  | sliceOutOfRange
  | budget
deriving DecidableEq

deriving instance DecidableEq for Except

/-- The Go expression `s[i]`. -/
def index (s : Bytes) (i : Nat) : Except Fault Nat :=
  match s[i]? with
  | some b => .ok b
  | none => .error .indexOutOfRange

/-- The Go expression `s[lo:hi]` (for a slice whose capacity is its length). -/
def slice (s : Bytes) (lo hi : Nat) : Except Fault Bytes :=
  if lo ≤ hi ∧ hi ≤ s.length then .ok ((s.drop lo).take (hi - lo)) else .error .sliceOutOfRange

/-- The Go expression `s[i]` for an index `i` of type `int` that may be negative: below 0,
as from the length on, it is a panic. -/
def indexInt (s : Bytes) (i : Int) : Except Fault Nat :=
  if i < 0 then .error .indexOutOfRange else index s i.toNat

/-- The Go expression `s[lo:hi]` for bounds of type `int` that may be negative. -/
def sliceInt (s : Bytes) (lo hi : Int) : Except Fault Bytes :=
  if lo < 0 ∨ hi < 0 then .error .sliceOutOfRange else slice s lo.toNat hi.toNat

/-- The Go expression `s[lo:]`. -/
def sliceFrom (s : Bytes) (lo : Nat) : Except Fault Bytes :=
  slice s lo s.length

/-- Go's `bytes.Index(s, []byte{b})` for a one-byte separator: the position of the first
`b` in `s`; `none` stands for the result `-1`. -/
def bytesIndex : Bytes → Nat → Option Nat
  | [], _ => none
  | x :: xs, b => if x = b then some 0 else (bytesIndex xs b).map (· + 1)

/-- Go's `strings.Contains(s, ".")`. -/
def containsDot (s : Bytes) : Bool := (bytesIndex s 46).isSome

/-- Go's conversion `string(b)` of a byte `b`: an integer converted to a string gives the
UTF-8 encoding of the code point with that number, two bytes from 0x80 on. -/
def byteToString (b : Nat) : Bytes :=
  if b < 128 then [b] else [192 + b / 64, 128 + b % 64]

/-- The two functions of Go's standard package `strconv` that the tokenizer calls.
They are not part of the repository, so the tokenizer is embedded over any pair of them:
`ParseFloat s` is `strconv.ParseFloat(s, 64)`, with `none` for a non-nil error, and
`FormatFloat f` is `strconv.FormatFloat(f, 'f', -1, 64)`. -/
structure Strconv where
  Float64 : Type
  ParseFloat : Bytes → Option Float64
  FormatFloat : Float64 → Bytes

inductive TokenType where
  | EOF | LEFT_PAREN | RIGHT_PAREN | LEFT_BRACE | RIGHT_BRACE | COMMA | DOT | MINUS | PLUS
  | SEMICOLON | STAR | EQUAL | EQUAL_EQUAL | BANG | BANG_EQUAL | LESS | LESS_EQUAL | GREATER
  | GREATER_EQUAL | SLASH | STRING | NUMBER | IDENTIFIER
  | AND | CLASS | ELSE | FALSE | FOR | FUN | IF | NIL | OR | PRINT | RETURN | SUPER | THIS
  | TRUE | VAR | WHILE
deriving DecidableEq

/-- The struct `Token`; the field `literal` is an `interface{}` that holds `nil` or a string. -/
structure Token where
  tokenType : TokenType
  tokenTypeName : String
  lexeme : Bytes
  literal : Option Bytes
deriving DecidableEq

open TokenType in
/-- The map `tokens`, as the list of its entries. -/
def tokensTable : List (TokenType × Token) :=
  [ (EOF, ⟨EOF, "EOF", str "", none⟩),
    (LEFT_PAREN, ⟨LEFT_PAREN, "LEFT_PAREN", str "(", none⟩),
    (RIGHT_PAREN, ⟨RIGHT_PAREN, "RIGHT_PAREN", str ")", none⟩),
    (LEFT_BRACE, ⟨LEFT_BRACE, "LEFT_BRACE", str "\x7b", none⟩),
    (RIGHT_BRACE, ⟨RIGHT_BRACE, "RIGHT_BRACE", str "\x7d", none⟩),
    (COMMA, ⟨COMMA, "COMMA", str ",", none⟩),
    (DOT, ⟨DOT, "DOT", str ".", none⟩),
    (MINUS, ⟨MINUS, "MINUS", str "-", none⟩),
    (PLUS, ⟨PLUS, "PLUS", str "+", none⟩),
    (SEMICOLON, ⟨SEMICOLON, "SEMICOLON", str ";", none⟩),
    (STAR, ⟨STAR, "STAR", str "*", none⟩),
    (EQUAL, ⟨EQUAL, "EQUAL", str "=", none⟩),
    (EQUAL_EQUAL, ⟨EQUAL_EQUAL, "EQUAL_EQUAL", str "==", none⟩),
    (BANG, ⟨BANG, "BANG", str "!", none⟩),
    (BANG_EQUAL, ⟨BANG_EQUAL, "BANG_EQUAL", str "!=", none⟩),
    (LESS, ⟨LESS, "LESS", str "<", none⟩),
    (LESS_EQUAL, ⟨LESS_EQUAL, "LESS_EQUAL", str "<=", none⟩),
    (GREATER, ⟨GREATER, "GREATER", str ">", none⟩),
    (GREATER_EQUAL, ⟨GREATER_EQUAL, "GREATER_EQUAL", str ">=", none⟩),
    (SLASH, ⟨SLASH, "SLASH", str "/", none⟩),
    (STRING, ⟨STRING, "STRING", str "", some (str "")⟩),
    (NUMBER, ⟨NUMBER, "NUMBER", str "", some (str "")⟩),
    (IDENTIFIER, ⟨IDENTIFIER, "IDENTIFIER", str "", none⟩),
    (AND, ⟨AND, "AND", str "and", none⟩),
    (CLASS, ⟨CLASS, "CLASS", str "class", none⟩),
    (ELSE, ⟨ELSE, "ELSE", str "else", none⟩),
    (FALSE, ⟨FALSE, "FALSE", str "false", none⟩),
    (FOR, ⟨FOR, "FOR", str "for", none⟩),
    (FUN, ⟨FUN, "FUN", str "fun", none⟩),
    (IF, ⟨IF, "IF", str "if", none⟩),
    (NIL, ⟨NIL, "NIL", str "nil", none⟩),
    (OR, ⟨OR, "OR", str "or", none⟩),
    (PRINT, ⟨PRINT, "PRINT", str "print", none⟩),
    (RETURN, ⟨RETURN, "RETURN", str "return", none⟩),
    (SUPER, ⟨SUPER, "SUPER", str "super", none⟩),
    (THIS, ⟨THIS, "THIS", str "this", none⟩),
    (TRUE, ⟨TRUE, "TRUE", str "true", none⟩),
    (VAR, ⟨VAR, "VAR", str "var", none⟩),
    (WHILE, ⟨WHILE, "WHILE", str "while", none⟩) ]

/-- The zero value of `Token`, which a Go map lookup gives for a key the map does not hold. -/
def zeroToken : Token := ⟨TokenType.EOF, "", [], none⟩

/-- The Go expression `tokens[k]`. -/
def tokens (k : TokenType) : Token := (tokensTable.lookup k).getD zeroToken

/-- The map `reserved`, as the list of its entries. -/
def reservedTable : List (Bytes × Token) :=
  [ (str "and", tokens .AND),
    (str "class", tokens .CLASS),
    (str "else", tokens .ELSE),
    (str "false", tokens .FALSE),
    (str "for", tokens .FOR),
    (str "fun", tokens .FUN),
    (str "if", tokens .IF),
    (str "nil", tokens .NIL),
    (str "or", tokens .OR),
    (str "print", tokens .PRINT),
    (str "return", tokens .RETURN),
    (str "super", tokens .SUPER),
    (str "this", tokens .THIS),
    (str "true", tokens .TRUE),
    (str "var", tokens .VAR),
    (str "while", tokens .WHILE) ]

/-- The Go expression `reserved[s]` in its two-result form: `none` when `ok` is false. -/
def reserved (s : Bytes) : Option Token := reservedTable.lookup s

/-- The struct `LexingError`. -/
structure LexingError where
  line : Nat
  message : String
  lexeme : Bytes
deriving DecidableEq

/-- The method `Token.String` (lines 124-130): `%s` and `%v` print the text of a string
as it is. -/
def Token.String (t : Token) : Bytes :=
  match t.literal with
  | none => str t.tokenTypeName ++ str " " ++ t.lexeme ++ str " null"
  | some literal => str t.tokenTypeName ++ str " " ++ t.lexeme ++ str " " ++ literal

/-- The function `formatFloat` of `utils.go`. -/
def formatFloat (sc : Strconv) (num : sc.Float64) : Bytes :=
  let formatted := sc.FormatFloat num
  if !containsDot formatted then formatted ++ str ".0" else formatted

/-- The function `matchEqualVariants`; the result is the pair `(cursor, tokens)`. -/
def matchEqualVariants (tokens : List Token) (fileContents : Bytes) (cursor : Nat)
    (singleToken dualToken : Token) : Except Fault (Nat × List Token) :=
  if cursor < fileContents.length then
    match index fileContents cursor with
    | .error e => .error e
    | .ok b =>
      if b = 61 then .ok (cursor + 1, tokens ++ [dualToken])
      else .ok (cursor, tokens ++ [singleToken])
  else .ok (cursor, tokens ++ [singleToken])

/-- The variables of `Tokenize` that its scan loop reads and writes. -/
structure ScanState where
  cursor : Nat
  currentLine : Nat
  parsedTokens : List Token
  errors : List LexingError
deriving DecidableEq

/-- One pass of the inner loop of the number branch (lines 236-249) at `cursor` with the
flag `dotSeen`: `none` when the loop ends here (its condition is false, or the `break` is
taken), else the cursor and the flag after the pass. -/
def numberPass (fileContents : Bytes) (cursor : Nat) (dotSeen : Bool) :
    Except Fault (Option (Nat × Bool)) :=
  if cursor < fileContents.length then
    match index fileContents cursor with
    | .error e => .error e
    | .ok b =>
      if (48 ≤ b ∧ b ≤ 57) ∨ b = 46 then
        if b = 46 ∧ dotSeen = true then .ok none
        else .ok (some (cursor + 1, if b = 46 then true else dotSeen))
      else .ok none
  else .ok none

/-- The inner loop of the number branch (lines 236-249), from `cursor` with the flag
`dotSeen`; the result is the pair `(cursor, dotSeen)` at the end of the loop. -/
def numberLoop (fileContents : Bytes) : Nat → Nat → Bool → Except Fault (Nat × Bool)
  | 0, cursor, dotSeen =>
    match numberPass fileContents cursor dotSeen with
    | .error e => .error e
    | .ok none => .ok (cursor, dotSeen)
    | .ok (some _) => .error .budget
  | budget + 1, cursor, dotSeen =>
    match numberPass fileContents cursor dotSeen with
    | .error e => .error e
    | .ok none => .ok (cursor, dotSeen)
    | .ok (some (cursor, dotSeen)) => numberLoop fileContents budget cursor dotSeen

/-- The condition of the inner loop of the identifier branch (lines 275-279). -/
def identifierCond (fileContents : Bytes) (cursor : Nat) : Except Fault Bool :=
  if cursor < fileContents.length then
    match index fileContents cursor with
    | .error e => .error e
    | .ok b =>
      .ok (decide ((97 ≤ b ∧ b ≤ 122) ∨ (65 ≤ b ∧ b ≤ 90) ∨ (48 ≤ b ∧ b ≤ 57) ∨ b = 95))
  else .ok false

/-- The inner loop of the identifier branch (lines 275-281); the result is `cursor` at the
end of the loop. -/
def identifierLoop (fileContents : Bytes) : Nat → Nat → Except Fault Nat
  | 0, cursor =>
    match identifierCond fileContents cursor with
    | .error e => .error e
    | .ok false => .ok cursor
    | .ok true => .error .budget
  | budget + 1, cursor =>
    match identifierCond fileContents cursor with
    | .error e => .error e
    | .ok false => .ok cursor
    | .ok true => identifierLoop fileContents budget (cursor + 1)

/-- The statement `parsedTokens = append(parsedTokens, t)` at the end of an iteration that
leaves the cursor at `cursor`. -/
def emit (st : ScanState) (cursor : Nat) (t : Token) : ScanState :=
  { st with cursor := cursor, parsedTokens := st.parsedTokens ++ [t] }

/-- The statement `errors = append(errors, e)` at the end of an iteration that leaves the
cursor at `cursor`.  The source also prints `e` to the standard error stream. -/
def report (st : ScanState) (cursor : Nat) (e : LexingError) : ScanState :=
  { st with cursor := cursor, errors := st.errors ++ [e] }

/-- The string branch of the scan loop (lines 213-231); `cursor` is the position after the
opening quote.  The low bound `start-1` of the slice with the quotes is an integer, and
the slice is a fault when it is negative. -/
def scanString (fileContents : Bytes) (st : ScanState) (cursor : Nat) :
    Except Fault ScanState :=
  let start := cursor
  match sliceFrom fileContents start with
  | .error e => .error e
  | .ok tail =>
    match bytesIndex tail 34 with
    | none =>
      .ok (report st fileContents.length ⟨st.currentLine + 1, "Unterminated string", str ""⟩)
    | some end_ =>
      match slice fileContents start (start + end_) with
      | .error e => .error e
      | .ok value =>
        match sliceInt fileContents ((start : Int) - 1) ((start : Int) + end_ + 1) with
        | .error e => .error e
        | .ok valueWithQuotes =>
          .ok (emit st (cursor + end_ + 1)
            { tokens .STRING with lexeme := valueWithQuotes, literal := some value })

/-- The number branch of the scan loop (lines 233-271); `cursor` is the position after the
first digit.  The values `start` and `cursor - 1` are of Go's type `int` and are used as
they are, so a negative one is a fault; the statement `cursor--` comes after the read of
`fileContents[cursor-1]` has succeeded, where `cursor` is at least 1. -/
def scanNumber (sc : Strconv) (fileContents : Bytes) (st : ScanState) (cursor : Nat) :
    Except Fault ScanState :=
  let start : Int := (cursor : Int) - 1
  match numberLoop fileContents (fileContents.length - cursor) cursor false with
  | .error e => .error e
  | .ok (cursor, _) =>
    match indexInt fileContents ((cursor : Int) - 1) with
    | .error e => .error e
    | .ok last =>
      let cursor := if last = 46 then cursor - 1 else cursor
      match sliceInt fileContents start cursor with
      | .error e => .error e
      | .ok lexeme =>
        match sc.ParseFloat lexeme with
        | none => .ok (report st cursor ⟨st.currentLine + 1, "Invalid number", lexeme⟩)
        | some num =>
          .ok (emit st cursor
            { tokens .NUMBER with lexeme := lexeme, literal := some (formatFloat sc num) })

/-- The identifier branch of the scan loop (lines 273-293); `cursor` is the position after
the first letter.  The value `start` is an integer, and the slice from it is a fault when
it is negative. -/
def scanIdentifier (fileContents : Bytes) (st : ScanState) (cursor : Nat) :
    Except Fault ScanState :=
  let start : Int := (cursor : Int) - 1
  match identifierLoop fileContents (fileContents.length - cursor) cursor with
  | .error e => .error e
  | .ok cursor =>
    match sliceInt fileContents start cursor with
    | .error e => .error e
    | .ok text =>
      match reserved text with
      | some token => .ok (emit st cursor token)
      | none => .ok (emit st cursor { tokens .IDENTIFIER with lexeme := text })

/-- One iteration of the scan loop of `Tokenize` (lines 162-298), entered with
`cursor < len(fileContents)`. -/
def scanStep (sc : Strconv) (fileContents : Bytes) (st : ScanState) : Except Fault ScanState :=
  match index fileContents st.cursor with
  | .error e => .error e
  | .ok token =>
    let cursor := st.cursor + 1
    if token = 10 then .ok { st with cursor := cursor, currentLine := st.currentLine + 1 }
    else if token = 32 ∨ token = 13 ∨ token = 9 then .ok { st with cursor := cursor }
    else if token = 40 then .ok (emit st cursor (tokens .LEFT_PAREN))
    else if token = 41 then .ok (emit st cursor (tokens .RIGHT_PAREN))
    else if token = 123 then .ok (emit st cursor (tokens .LEFT_BRACE))
    else if token = 125 then .ok (emit st cursor (tokens .RIGHT_BRACE))
    else if token = 44 then .ok (emit st cursor (tokens .COMMA))
    else if token = 46 then .ok (emit st cursor (tokens .DOT))
    else if token = 45 then .ok (emit st cursor (tokens .MINUS))
    else if token = 43 then .ok (emit st cursor (tokens .PLUS))
    else if token = 59 then .ok (emit st cursor (tokens .SEMICOLON))
    else if token = 42 then .ok (emit st cursor (tokens .STAR))
    else if token = 61 then
      match matchEqualVariants st.parsedTokens fileContents cursor
          (tokens .EQUAL) (tokens .EQUAL_EQUAL) with
      | .error e => .error e
      | .ok (cursor, parsedTokens) => .ok { st with cursor := cursor, parsedTokens := parsedTokens }
    else if token = 33 then
      match matchEqualVariants st.parsedTokens fileContents cursor
          (tokens .BANG) (tokens .BANG_EQUAL) with
      | .error e => .error e
      | .ok (cursor, parsedTokens) => .ok { st with cursor := cursor, parsedTokens := parsedTokens }
    else if token = 60 then
      match matchEqualVariants st.parsedTokens fileContents cursor
          (tokens .LESS) (tokens .LESS_EQUAL) with
      | .error e => .error e
      | .ok (cursor, parsedTokens) => .ok { st with cursor := cursor, parsedTokens := parsedTokens }
    else if token = 62 then
      match matchEqualVariants st.parsedTokens fileContents cursor
          (tokens .GREATER) (tokens .GREATER_EQUAL) with
      | .error e => .error e
      | .ok (cursor, parsedTokens) => .ok { st with cursor := cursor, parsedTokens := parsedTokens }
    else if token = 47 then
      if cursor < fileContents.length then
        match index fileContents cursor with
        | .error e => .error e
        | .ok next =>
          if next = 47 then
            match sliceFrom fileContents cursor with
            | .error e => .error e
            | .ok tail =>
              match bytesIndex tail 10 with
              | none => .ok { st with cursor := fileContents.length }
              | some newLineCursor => .ok { st with cursor := cursor + newLineCursor }
          else .ok (emit st cursor (tokens .SLASH))
      else .ok (emit st cursor (tokens .SLASH))
    else if token = 34 then scanString fileContents st cursor
    else if 48 ≤ token ∧ token ≤ 57 then scanNumber sc fileContents st cursor
    else if (97 ≤ token ∧ token ≤ 122) ∨ (65 ≤ token ∧ token ≤ 90) ∨ token = 95 then
      scanIdentifier fileContents st cursor
    else .ok (report st cursor ⟨st.currentLine + 1, "Unexpected character", byteToString token⟩)

/-- The scan loop of `Tokenize` (line 161): iterate while `cursor < len(fileContents)`. -/
def scanLoop (sc : Strconv) (fileContents : Bytes) : Nat → ScanState → Except Fault ScanState
  | 0, st => if st.cursor < fileContents.length then .error .budget else .ok st
  | budget + 1, st =>
    if st.cursor < fileContents.length then
      match scanStep sc fileContents st with
      | .error e => .error e
      | .ok st => scanLoop sc fileContents budget st
    else .ok st

/-- What `Tokenize` gives back: the token slice, whether the `error` result is non-nil, and
the local slice `errors`, each element of which the source prints to the standard error
stream when it is appended. -/
structure Scanned where
  tokens : List Token
  failed : Bool
  errors : List LexingError
deriving DecidableEq

/-- The function `Tokenize`.  The scan loop advances the cursor in every iteration, so a
budget of `len(fileContents)` iterations is enough for it. -/
def Tokenize (sc : Strconv) (fileContents : Bytes) : Except Fault Scanned :=
  match scanLoop sc fileContents fileContents.length ⟨0, 0, [], []⟩ with
  | .error e => .error e
  | .ok st =>
    let parsedTokens := st.parsedTokens ++ [tokens .EOF]
    if st.errors.length > 0 then .ok ⟨parsedTokens, true, st.errors⟩
    else .ok ⟨parsedTokens, false, st.errors⟩

/-! ## Vocabulary of the proofs -/

/-- Moving the first component of a result by the length of a prefix. -/
def shiftPair {α : Type} (p : Nat) : Except Fault (Nat × α) → Except Fault (Nat × α)
  | .ok (c, a) => .ok (p + c, a)
  | .error e => .error e

/-- Moving the cursor a loop returns by the length of a prefix. -/
def shiftCursor (p : Nat) : Except Fault Nat → Except Fault Nat
  | .ok c => .ok (p + c)
  | .error e => .error e

/-- An error seen from a text that starts `l` lines earlier. -/
def shiftError (l : Nat) (e : LexingError) : LexingError := { e with line := l + e.line }

/-- The scan state `st` of a text, seen from a longer text that has `p` more bytes and `l`
more newlines in front of it, and from a scan that has already produced the tokens `ts`
and the errors `es`. -/
def frame (p l : Nat) (ts : List Token) (es : List LexingError) (st : ScanState) : ScanState :=
  ⟨p + st.cursor, l + st.currentLine, ts ++ st.parsedTokens, es ++ st.errors.map (shiftError l)⟩

/-- The function `frame` on the result of a step. -/
def frameResult (p l : Nat) (ts : List Token) (es : List LexingError) :
    Except Fault ScanState → Except Fault ScanState
  | .ok st => .ok (frame p l ts es st)
  | .error e => .error e

/-- The result `r` of an iteration from `st` is a state that `st` advances to, with the
cursor beyond `c`. -/
def AdvanceFrom (fc : Bytes) (st : ScanState) (c : Nat) (r : Except Fault ScanState) : Prop :=
  ∃ st1, r = .ok st1 ∧ ∃ c1, c < c1 ∧ c1 ≤ fc.length ∧
    (st1 = { st with cursor := c1, currentLine := st.currentLine + 1 } ∨
     st1 = { st with cursor := c1 } ∨
     (∃ t, t.tokenType ≠ .EOF ∧ st1 = emit st c1 t) ∨
     (∃ e, e.line = st.currentLine + 1 ∧ st1 = report st c1 e))

/-- The scan of a whole text: the scan loop of `Tokenize` from its initial state. -/
def scan (sc : Strconv) (fc : Bytes) : Except Fault ScanState :=
  scanLoop sc fc fc.length ⟨0, 0, [], []⟩

/-- An input made up only of whitespace bytes (space, tab, carriage return, newline) and
line comments: `//` and then any bytes but a newline, up to a newline or the end of input. -/
inductive Blank : Bytes → Prop where
  | nil : Blank []
  | space (b : Nat) (rest : Bytes) :
      b = 32 ∨ b = 9 ∨ b = 13 ∨ b = 10 → Blank rest → Blank (b :: rest)
  | comment (c rest : Bytes) :
      (∀ x ∈ c, x ≠ 10) → (rest = [] ∨ ∃ r, rest = 10 :: r) → Blank rest →
      Blank (47 :: 47 :: (c ++ rest))

/-- The four operators with an `=` variant: the byte, the single-character token and the
combined token. -/
def equalVariants : List (Nat × Token × Token) :=
  [ (61, ⟨.EQUAL, "EQUAL", str "=", none⟩, ⟨.EQUAL_EQUAL, "EQUAL_EQUAL", str "==", none⟩),
    (33, ⟨.BANG, "BANG", str "!", none⟩, ⟨.BANG_EQUAL, "BANG_EQUAL", str "!=", none⟩),
    (60, ⟨.LESS, "LESS", str "<", none⟩, ⟨.LESS_EQUAL, "LESS_EQUAL", str "<=", none⟩),
    (62, ⟨.GREATER, "GREATER", str ">", none⟩,
      ⟨.GREATER_EQUAL, "GREATER_EQUAL", str ">=", none⟩) ]

/-- The bytes that the scan loop handles before its `default` case: whitespace, the
punctuation and operator bytes, the slash and the quote. -/
def switchBytes : List Nat :=
  [10, 32, 13, 9, 40, 41, 123, 125, 44, 46, 45, 43, 59, 42, 61, 33, 60, 62, 47, 34]

/-- The bytes an identifier goes on with: ASCII letters, digits and the underscore. -/
def identifierByte (b : Nat) : Prop :=
  (97 ≤ b ∧ b ≤ 122) ∨ (65 ≤ b ∧ b ≤ 90) ∨ (48 ≤ b ∧ b ≤ 57) ∨ b = 95

instance identifierByte_decidable (b : Nat) : Decidable (identifierByte b) := by
  unfold identifierByte
  infer_instance

/-- The sixteen reserved spellings with the kind and the display name of their keyword. -/
def keywords : List (Bytes × TokenType × String) :=
  [ (str "and", .AND, "AND"), (str "class", .CLASS, "CLASS"), (str "else", .ELSE, "ELSE"),
    (str "false", .FALSE, "FALSE"), (str "for", .FOR, "FOR"), (str "fun", .FUN, "FUN"),
    (str "if", .IF, "IF"), (str "nil", .NIL, "NIL"), (str "or", .OR, "OR"),
    (str "print", .PRINT, "PRINT"), (str "return", .RETURN, "RETURN"),
    (str "super", .SUPER, "SUPER"), (str "this", .THIS, "THIS"), (str "true", .TRUE, "TRUE"),
    (str "var", .VAR, "VAR"), (str "while", .WHILE, "WHILE") ]

/-- An ASCII digit. -/
def digitByte (b : Nat) : Prop := 48 ≤ b ∧ b ≤ 57

instance digitByte_decidable (b : Nat) : Decidable (digitByte b) := by
  unfold digitByte
  infer_instance

/-- The result `r` of an iteration from `st`, when it is a state, has the tokens of `st`
and at most one more, which satisfies `Q`. -/
def EmitsOnly (Q : Token → Prop) (st : ScanState) (r : Except Fault ScanState) : Prop :=
  ∀ st1, r = .ok st1 →
    st1.parsedTokens = st.parsedTokens ∨ ∃ t, Q t ∧ st1.parsedTokens = st.parsedTokens ++ [t]

/-- The ten punctuation bytes with their token. -/
def punctuation : List (Nat × Token) :=
  [ (40, ⟨.LEFT_PAREN, "LEFT_PAREN", str "(", none⟩),
    (41, ⟨.RIGHT_PAREN, "RIGHT_PAREN", str ")", none⟩),
    (123, ⟨.LEFT_BRACE, "LEFT_BRACE", str "\x7b", none⟩),
    (125, ⟨.RIGHT_BRACE, "RIGHT_BRACE", str "\x7d", none⟩),
    (44, ⟨.COMMA, "COMMA", str ",", none⟩),
    (46, ⟨.DOT, "DOT", str ".", none⟩),
    (45, ⟨.MINUS, "MINUS", str "-", none⟩),
    (43, ⟨.PLUS, "PLUS", str "+", none⟩),
    (59, ⟨.SEMICOLON, "SEMICOLON", str ";", none⟩),
    (42, ⟨.STAR, "STAR", str "*", none⟩) ]

/-- The shape of a number lexeme: one or more digits, or one or more digits, one dot and
one or more digits. -/
def NumberShape (l : Bytes) : Prop :=
  ∃ ds1 ds2, ds1 ≠ [] ∧ (∀ x ∈ ds1, digitByte x) ∧ (∀ x ∈ ds2, digitByte x) ∧
    (l = ds1 ∨ (ds2 ≠ [] ∧ l = ds1 ++ 46 :: ds2))

/-- The number lexeme `l` cannot go on into the text `post` that follows it: `post` does
not start with a digit, and starts with a dot only if `l` holds a dot already or no digit
follows that dot. -/
def NumberEnd (l post : Bytes) : Prop :=
  (∀ x, post.head? = some x → ¬ digitByte x) ∧
  (post.head? = some 46 → 46 ∈ l ∨ ∀ x, post.tail.head? = some x → ¬ digitByte x)

/-- The bytes `run` that the number loop consumes when it starts with the flag `flag` and
ends with the flag `d`. -/
def RunShape (flag d : Bool) (run : Bytes) : Prop :=
  (d = flag ∧ ∀ x ∈ run, digitByte x) ∨
  (flag = false ∧ d = true ∧
    ∃ a b, run = a ++ 46 :: b ∧ (∀ x ∈ a, digitByte x) ∧ ∀ x ∈ b, digitByte x)

/-- The text `post` at which the number loop stops with the flag `d`. -/
def RunStop (d : Bool) (post : Bytes) : Prop :=
  ∀ x, post.head? = some x → ¬ digitByte x ∧ (x = 46 → d = true)

/-- What one iteration from the start of the text `s` has done when it ends in the state
`st1`: the cursor is inside `s` and beyond its start; the iteration has produced nothing,
or one token whose lexeme is the text up to the cursor, or one error of line 1; a number
lexeme has the shape of a number and cannot go on into the text after the cursor. -/
def HeadStep (s : Bytes) (st1 : ScanState) : Prop :=
  0 < st1.cursor ∧ st1.cursor ≤ s.length ∧
  ((st1.parsedTokens = [] ∧ st1.errors = []) ∨
   (∃ t, st1.parsedTokens = [t] ∧ st1.errors = [] ∧ t.lexeme = s.take st1.cursor ∧
      (t.tokenType = .NUMBER →
        NumberShape t.lexeme ∧ NumberEnd t.lexeme (s.drop st1.cursor))) ∨
   (∃ e, st1.parsedTokens = [] ∧ st1.errors = [e] ∧
      (e.message = "Invalid number" →
        e.lexeme = s.take st1.cursor ∧ NumberShape e.lexeme ∧
          NumberEnd e.lexeme (s.drop st1.cursor))))

/-- The text that is each gap of `gaps` followed by the lexeme of `lexemes` at the same
position, one pair after the other. -/
def weave : List Bytes → List Bytes → Bytes
  | g :: gaps, l :: lexemes => g ++ l ++ weave gaps lexemes
  | _, _ => []

/-- The lexeme `l` has the shape of a number, stands in the text `fc`, and cannot go on
into the text that follows it there. -/
def NumberIn (fc l : Bytes) : Prop :=
  NumberShape l ∧ ∃ pre post, fc = pre ++ l ++ post ∧ NumberEnd l post

/-- The error `e` is about the construct that starts at the head of the text `s`: an
unrecognised byte, the first digit of a number, or the opening quote of a string that has
no closing quote. -/
def Offends (s : Bytes) (e : LexingError) : Prop :=
  ∃ b rest, s = b :: rest ∧
    ((e.message = "Unexpected character" ∧ e.lexeme = byteToString b ∧ b ∉ switchBytes ∧
        ¬ identifierByte b) ∨
     (e.message = "Invalid number" ∧ digitByte b ∧ e.lexeme <+: s) ∨
     (e.message = "Unterminated string" ∧ b = 34 ∧ 34 ∉ rest))

/-- The lines of one iteration from the start of the text `s` that ends in the state
`st1`: an error has line 1 and is about the head of `s`; the line counter is 1 after the
single byte newline, and else it is 0 and the bytes up to the cursor hold no newline,
unless they are the lexeme of a `STRING` token or the cursor is at the end of `s`. -/
def LineStep (s : Bytes) (st1 : ScanState) : Prop :=
  (st1.errors = [] ∨ ∃ e, st1.errors = [e] ∧ e.line = 1 ∧ Offends s e) ∧
  ((st1.currentLine = 1 ∧ st1.cursor = 1 ∧ s.head? = some 10) ∨
   (st1.currentLine = 0 ∧
     (10 ∉ s.take st1.cursor ∨
      (∃ t, st1.parsedTokens = [t] ∧ t.tokenType = .STRING ∧ t.lexeme = s.take st1.cursor) ∨
      st1.cursor = s.length)))

/-- The error `e` has the line of the offset `p` of the text `fc`, one more than the
number of newlines before `p`, and is about the construct that starts at `p`. -/
def ErrorAt (fc : Bytes) (e : LexingError) (p : Nat) : Prop :=
  e.line = 1 + (fc.take p).count 10 ∧ Offends (fc.drop p) e

/-- The token `t` is what the iteration of the scan loop that is entered with the cursor at
the offset `p` of `fc` appends, whatever the rest of the state; the iteration leaves the
cursor at `q`, and the bytes of `fc` from `p` up to `q` are the lexeme of `t`. -/
def EmittedAt (sc : Strconv) (fc : Bytes) (t : Token) (p q : Nat) : Prop :=
  p < q ∧ q ≤ fc.length ∧ fc.drop p = t.lexeme ++ fc.drop q ∧
  t.lexeme = (fc.drop p).take (q - p) ∧
  ∀ st : ScanState, st.cursor = p →
    ∃ st1, scanStep sc fc st = .ok st1 ∧ st1.cursor = q ∧
      st1.parsedTokens = st.parsedTokens ++ [t]

/-- The iteration of the scan loop that is entered with the cursor at the offset `p` of
`fc` appends no token, whatever the rest of the state, and leaves the cursor at `q`. -/
def SkippedAt (sc : Strconv) (fc : Bytes) (p q : Nat) : Prop :=
  p < q ∧ q ≤ fc.length ∧
  ∀ st : ScanState, st.cursor = p →
    ∃ st1, scanStep sc fc st = .ok st1 ∧ st1.cursor = q ∧ st1.parsedTokens = st.parsedTokens

/-- Iterations of the scan loop that append no token take the cursor from `p` to `q`. -/
inductive Skips (sc : Strconv) (fc : Bytes) : Nat → Nat → Prop where
  | refl (p : Nat) : Skips sc fc p p
  | step (p q r : Nat) : SkippedAt sc fc p q → Skips sc fc q r → Skips sc fc p r

/-- The iterations of the scan loop take the cursor from `p` to `q` and append exactly the
tokens `ts` in this order, each token in the iteration from the first to the second offset
of its pair in `spans`, and no token in the iterations between. -/
def Scans (sc : Strconv) (fc : Bytes) : Nat → List Token → List (Nat × Nat) → Nat → Prop
  | p, [], [], q => Skips sc fc p q
  | p, t :: ts, s :: spans, q =>
    Skips sc fc p s.1 ∧ EmittedAt sc fc t s.1 s.2 ∧ Scans sc fc s.2 ts spans q
  | _, _, _, _ => False

/-! ## A model of the two functions of Go's `strconv` -/

/-- Modelled from the spec: the values of Go's type `float64`, which `strconv` reads and
writes and which are not part of the repository.  A finite float64 that is not negative is
the number `mant * 2 ^ expo / 2 ^ 1074`, where
`mant < 2 ^ 53`, `expo ≤ 2045`, and `2 ^ 52 ≤ mant` when `0 < expo`. -/
structure Float64 where
  mant : Nat
  expo : Nat
deriving DecidableEq

/-- The number of binary digits of `n`, counted in at most `budget` halvings. -/
def bitsAux : Nat → Nat → Nat
  | 0, _ => 0
  | budget + 1, n => if n = 0 then 0 else bitsAux budget (n / 2) + 1

/-- The number of binary digits of `n`. -/
def bits (n : Nat) : Nat := bitsAux n n

/-- The decimal digits of `n` in ASCII before the digits `acc`, in at most `budget`
divisions. -/
def decimalAux : Nat → Nat → Bytes → Bytes
  | 0, _, acc => acc
  | budget + 1, n, acc =>
    if n < 10 then (48 + n) :: acc else decimalAux budget (n / 10) ((48 + n % 10) :: acc)

/-- The decimal digits of `n` in ASCII, without leading zeros. -/
def decimal (n : Nat) : Bytes := decimalAux (n + 1) n []

/-- The number that a string of ASCII digits writes. -/
def digitsValue (ds : Bytes) : Nat := ds.foldl (fun acc d => 10 * acc + (d - 48)) 0

/-- The decimal literals `digits` and `digits.digits`, read as a pair `(n, k)` that stands
for the number `n / 10 ^ k`. -/
def parseDecimal (s : Bytes) : Option (Nat × Nat) :=
  let ip := s.takeWhile (fun b => decide (digitByte b))
  match s.dropWhile (fun b => decide (digitByte b)) with
  | [] => if ip = [] then none else some (digitsValue ip, 0)
  | 46 :: fp =>
    if ip ≠ [] ∧ fp ≠ [] ∧ fp.all (fun b => decide (digitByte b)) = true then
      some (digitsValue (ip ++ fp), fp.length)
    else none
  | _ => none

/-- The integer nearest to `num / den`, the even one of two that are equally near. -/
def roundHalfEven (num den : Nat) : Nat :=
  let q := num / den
  let r := num % den
  if den < 2 * r ∨ (2 * r = den ∧ q % 2 = 1) then q + 1 else q

/-- Modelled from the spec: Go's `strconv.ParseFloat(s, 64)`, which is not part of the
repository ("the accumulated text must parse as a 64-bit floating point number"), on the
decimal literals `digits` and `digits.digits`, the only strings `Tokenize` passes to it:
the float64 nearest to the number written, the one with the even mantissa of two that are
equally near, and `none` (the error `ErrRange`) when that is beyond the largest float64.
On other strings this model says `none`. -/
def ParseFloat (s : Bytes) : Option Float64 :=
  match parseDecimal s with
  | none => none
  | some (n, k) =>
    let num := n * 2 ^ 1074
    let den := 10 ^ k
    let expo := bits (num / den) - 53
    let mant := roundHalfEven num (den * 2 ^ expo)
    let mant1 := if mant = 2 ^ 53 then 2 ^ 52 else mant
    let expo1 := if mant = 2 ^ 53 then expo + 1 else expo
    if 2045 < expo1 then none else some ⟨mant1, expo1⟩

/-- The candidate with `nd` significant digits for the shortest decimal of the number
`s / d`, which has `p` digits before the decimal point: the `nd`-digit number below it or
the one above it, when that lies in the interval from `lo / d` to `hi / d` (with its ends
when `inclusive`); the nearer of the two when both do, the even one when they are equally
near.  The result `c` stands for the number `c * 10 ^ (p - nd)`. -/
def shortestAt (s lo hi d : Nat) (inclusive : Bool) (p nd : Nat) : Option Nat :=
  let u := 10 ^ (p - nd)
  let c := s / (d * u)
  let down := c * u * d
  let up := (c + 1) * u * d
  let okdown := lo < down ∨ (inclusive = true ∧ lo = down)
  let okup := up < hi ∨ (inclusive = true ∧ up = hi)
  if okdown ∧ okup then
    if s - down < up - s then some c
    else if up - s < s - down then some (c + 1)
    else if c % 2 = 0 then some c else some (c + 1)
  else if okdown then some c
  else if okup then some (c + 1)
  else none

/-- The digits `ds` after `n - len(ds)` zeros. -/
def padLeft (n : Nat) (ds : Bytes) : Bytes := List.replicate (n - ds.length) 48 ++ ds

/-- The digits `ds` without the zeros at their end. -/
def trimRight (ds : Bytes) : Bytes := (ds.reverse.dropWhile (fun b => decide (b = 48))).reverse

/-- The first candidate of `shortestAt` with `nd`, `nd + 1`, ... significant digits, at most
`budget` of them tried: the pair of the candidate and its number of digits. -/
def shortest (s lo hi d : Nat) (inclusive : Bool) (p : Nat) : Nat → Nat → Option (Nat × Nat)
  | 0, _ => none
  | budget + 1, nd =>
    match shortestAt s lo hi d inclusive p nd with
    | some c => some (c, nd)
    | none => shortest s lo hi d inclusive p budget (nd + 1)

/-- Modelled from the spec: Go's `strconv.FormatFloat(f, 'f', -1, 64)`, which is not part
of the repository ("shortest round-trip decimal representation"), on a finite float64 that
is not negative: the decimal with the fewest significant digits (at most 17) that
`ParseFloat` reads back as `f`, the one nearest to `f` of several, written without an
exponent.  The interval of the
numbers that are read back as `f` ends half way to the next float64 on either side.  All
numbers are scaled by `10 ^ 400` and have the denominator `2 ^ 1076`. -/
def FormatFloat (f : Float64) : Bytes :=
  if f.mant = 0 then [48]
  else
    let d := 2 ^ 1076
    let s := f.mant * 2 ^ (f.expo + 2) * 10 ^ 400
    let hi := (f.mant * 2 ^ (f.expo + 2) + 2 ^ (f.expo + 1)) * 10 ^ 400
    let lo :=
      if f.mant = 2 ^ 52 ∧ 0 < f.expo then (f.mant * 2 ^ (f.expo + 2) - 2 ^ f.expo) * 10 ^ 400
      else (f.mant * 2 ^ (f.expo + 2) - 2 ^ (f.expo + 1)) * 10 ^ 400
    let inclusive := decide (f.mant % 2 = 0)
    let p := (decimal (s / d)).length
    match shortest s lo hi d inclusive p 17 1 with
    | none => []
    | some (c, nd) =>
      if 400 ≤ p - nd then decimal (c * 10 ^ (p - nd - 400))
      else
        let k := 400 - (p - nd)
        let frac := trimRight (padLeft k (decimal (c % 10 ^ k)))
        if frac = [] then decimal (c / 10 ^ k) else decimal (c / 10 ^ k) ++ 46 :: frac

/-- Modelled from the spec: the functions `strconv.ParseFloat` and `strconv.FormatFloat`
of Go's standard library, which are not part of the repository, as far as the tokenizer
uses them. -/
abbrev strconv : Strconv := ⟨Float64, ParseFloat, FormatFloat⟩

/-! ## Lemmas on the parts of the scan -/

theorem index_of_lt {s : Bytes} {i : Nat} (h : i < s.length) : ∃ b, index s i = .ok b := by
  exact ⟨s[i], by simp [index, List.getElem?_eq_getElem h]⟩

theorem index_append_right (pre s : Bytes) (i : Nat) :
    index (pre ++ s) (pre.length + i) = index s i := by
  simp [index, List.getElem?_append_right]

theorem slice_append_right (pre s : Bytes) (a b : Nat) :
    slice (pre ++ s) (pre.length + a) (pre.length + b) = slice s a b := by
  unfold slice
  have h1 : (pre.length + a ≤ pre.length + b ∧ pre.length + b ≤ (pre ++ s).length) ↔
      (a ≤ b ∧ b ≤ s.length) := by
    simp
  have h2 : pre.length + b - (pre.length + a) = b - a := by omega
  simp only [h1, h2, List.drop_append]

theorem sliceFrom_append_right (pre s : Bytes) (a : Nat) :
    sliceFrom (pre ++ s) (pre.length + a) = sliceFrom s a := by
  unfold sliceFrom
  rw [List.length_append, slice_append_right]

theorem sliceFrom_of_le {s : Bytes} {a : Nat} (h : a ≤ s.length) :
    sliceFrom s a = .ok (s.drop a) := by
  simp [sliceFrom, slice, h]

theorem slice_of_le {s : Bytes} {a b : Nat} (h1 : a ≤ b) (h2 : b ≤ s.length) :
    slice s a b = .ok ((s.drop a).take (b - a)) := by
  simp [slice, h1, h2]

theorem bytesIndex_lt {s : Bytes} {b i : Nat} (h : bytesIndex s b = some i) : i < s.length := by
  induction s generalizing i with
  | nil => simp [bytesIndex] at h
  | cons x xs ih =>
    unfold bytesIndex at h
    split at h
    · simp at h; subst h; simp
    · cases hx : bytesIndex xs b with
      | none => simp [hx] at h
      | some j =>
        simp [hx] at h
        subst h
        have := ih hx
        simp; omega

theorem numberPass_append_right (pre s : Bytes) (c : Nat) (d : Bool) :
    numberPass (pre ++ s) (pre.length + c) d =
      match numberPass s c d with
      | .error e => .error e
      | .ok none => .ok none
      | .ok (some (c', d')) => .ok (some (pre.length + c', d')) := by
  unfold numberPass
  simp only [List.length_append, Nat.add_lt_add_iff_left, index_append_right]
  by_cases hc : c < s.length
  · simp only [hc, if_true]
    cases index s c with
    | error e => rfl
    | ok b =>
      by_cases h1 : (48 ≤ b ∧ b ≤ 57) ∨ b = 46
      · by_cases h2 : b = 46 ∧ d = true
        · simp [h1, h2]
        · simp [h1, h2, Nat.add_assoc]
      · simp [h1]
  · simp [hc]

theorem numberPass_cases (s : Bytes) (c : Nat) (d : Bool) :
    numberPass s c d = .ok none ∨
      (c < s.length ∧ ∃ d', numberPass s c d = .ok (some (c + 1, d'))) := by
  unfold numberPass
  by_cases hc : c < s.length
  · obtain ⟨b, hb⟩ := index_of_lt hc
    simp only [hc, if_true, hb]
    by_cases h1 : (48 ≤ b ∧ b ≤ 57) ∨ b = 46
    · by_cases h2 : b = 46 ∧ d = true
      · left; rw [if_pos h1, if_pos h2]
      · right; exact ⟨trivial, _, by rw [if_pos h1, if_neg h2]⟩
    · left; simp only [h1, if_false]
  · left; simp only [hc, if_false]

theorem numberLoop_append_right (pre s : Bytes) (budget c : Nat) (d : Bool) :
    numberLoop (pre ++ s) budget (pre.length + c) d =
      shiftPair pre.length (numberLoop s budget c d) := by
  induction budget generalizing c d with
  | zero =>
    rw [numberLoop, numberLoop, numberPass_append_right]
    rcases numberPass s c d with e | _ | ⟨c', d'⟩ <;> rfl
  | succ n ih =>
    rw [numberLoop, numberLoop, numberPass_append_right]
    rcases numberPass s c d with e | _ | ⟨c', d'⟩
    · rfl
    · rfl
    · exact ih _ _

theorem numberLoop_total (s : Bytes) (budget c : Nat) (d : Bool) (hb : s.length - c ≤ budget) :
    ∃ c' d', numberLoop s budget c d = .ok (c', d') ∧ c ≤ c' ∧ (c ≤ s.length → c' ≤ s.length) := by
  induction budget generalizing c d with
  | zero =>
    rcases numberPass_cases s c d with h | ⟨hc, _⟩
    · exact ⟨c, d, by rw [numberLoop, h], Nat.le_refl _, fun h => h⟩
    · omega
  | succ n ih =>
    rcases numberPass_cases s c d with h | ⟨hc, d1, h⟩
    · exact ⟨c, d, by rw [numberLoop, h], Nat.le_refl _, fun h => h⟩
    · obtain ⟨c', d', h1, h2, h3⟩ := ih (c + 1) d1 (by omega)
      exact ⟨c', d', by rw [numberLoop, h]; exact h1, by omega, fun _ => h3 (by omega)⟩

theorem identifierCond_append_right (pre s : Bytes) (c : Nat) :
    identifierCond (pre ++ s) (pre.length + c) = identifierCond s c := by
  unfold identifierCond
  simp only [List.length_append, Nat.add_lt_add_iff_left, index_append_right]

theorem identifierLoop_append_right (pre s : Bytes) (budget c : Nat) :
    identifierLoop (pre ++ s) budget (pre.length + c) =
      shiftCursor pre.length (identifierLoop s budget c) := by
  induction budget generalizing c with
  | zero =>
    rw [identifierLoop, identifierLoop, identifierCond_append_right]
    rcases identifierCond s c with e | _ | _ <;> rfl
  | succ n ih =>
    rw [identifierLoop, identifierLoop, identifierCond_append_right]
    rcases identifierCond s c with e | _ | _
    · rfl
    · rfl
    · exact ih _ |> fun h => by simpa [Nat.add_assoc] using h

theorem identifierCond_cases (s : Bytes) (c : Nat) :
    identifierCond s c = .ok false ∨ (c < s.length ∧ identifierCond s c = .ok true) := by
  unfold identifierCond
  by_cases hc : c < s.length
  · obtain ⟨b, hb⟩ := index_of_lt hc
    simp only [hc, if_true, hb]
    by_cases h1 : (97 ≤ b ∧ b ≤ 122) ∨ (65 ≤ b ∧ b ≤ 90) ∨ (48 ≤ b ∧ b ≤ 57) ∨ b = 95
    · right; simp only [h1, decide_True, and_self]
    · left; simp only [h1, decide_False]
  · left; simp only [hc, if_false]

theorem identifierLoop_total (s : Bytes) (budget c : Nat) (hb : s.length - c ≤ budget) :
    ∃ c', identifierLoop s budget c = .ok c' ∧ c ≤ c' ∧ (c ≤ s.length → c' ≤ s.length) := by
  induction budget generalizing c with
  | zero =>
    rcases identifierCond_cases s c with h | ⟨hc, _⟩
    · exact ⟨c, by rw [identifierLoop, h], Nat.le_refl _, fun h => h⟩
    · omega
  | succ n ih =>
    rcases identifierCond_cases s c with h | ⟨hc, h⟩
    · exact ⟨c, by rw [identifierLoop, h], Nat.le_refl _, fun h => h⟩
    · obtain ⟨c', h1, h2, h3⟩ := ih (c + 1) (by omega)
      exact ⟨c', by rw [identifierLoop, h]; exact h1, by omega, fun _ => h3 (by omega)⟩

theorem emit_frame (p l : Nat) (ts : List Token) (es : List LexingError) (st : ScanState)
    (c : Nat) (t : Token) : emit (frame p l ts es st) (p + c) t = frame p l ts es (emit st c t) := by
  simp [emit, frame]

theorem report_frame (p l : Nat) (ts : List Token) (es : List LexingError) (st : ScanState)
    (c : Nat) (m : String) (x : Bytes) :
    report (frame p l ts es st) (p + c) ⟨(frame p l ts es st).currentLine + 1, m, x⟩ =
      frame p l ts es (report st c ⟨st.currentLine + 1, m, x⟩) := by
  simp [report, frame, shiftError, Nat.add_assoc]

theorem matchEqualVariants_frame (pre s : Bytes) (ts ts0 : List Token) (c : Nat)
    (a b : Token) :
    matchEqualVariants (ts ++ ts0) (pre ++ s) (pre.length + c) a b =
      match matchEqualVariants ts0 s c a b with
      | .error e => .error e
      | .ok (c', ts') => .ok (pre.length + c', ts ++ ts') := by
  unfold matchEqualVariants
  simp only [List.length_append, Nat.add_lt_add_iff_left, index_append_right]
  by_cases hc : c < s.length
  · simp only [hc, if_true]
    cases index s c with
    | error e => rfl
    | ok x =>
      by_cases hx : x = 61
      · simp [hx, Nat.add_assoc]
      · simp [hx]
  · simp [hc]

theorem indexInt_pred (s : Bytes) (c : Nat) (h : 0 < c) :
    indexInt s ((c : Int) - 1) = index s (c - 1) := by
  obtain ⟨n, rfl⟩ : ∃ n, c = n + 1 := ⟨c - 1, by omega⟩
  have h1 : ((n + 1 : Nat) : Int) - 1 = (n : Int) := by omega
  rw [h1]
  simp [indexInt]

theorem sliceInt_pred (s : Bytes) (c hi : Nat) (h : 0 < c) :
    sliceInt s ((c : Int) - 1) (hi : Int) = slice s (c - 1) hi := by
  obtain ⟨n, rfl⟩ : ∃ n, c = n + 1 := ⟨c - 1, by omega⟩
  have h1 : ((n + 1 : Nat) : Int) - 1 = (n : Int) := by omega
  rw [h1]
  simp [sliceInt]

theorem scanString_eq (fileContents : Bytes) (st : ScanState) (cursor : Nat)
    (h : 0 < cursor) :
    scanString fileContents st cursor =
      match sliceFrom fileContents cursor with
      | .error e => .error e
      | .ok tail =>
        match bytesIndex tail 34 with
        | none =>
          .ok (report st fileContents.length
            ⟨st.currentLine + 1, "Unterminated string", str ""⟩)
        | some end_ =>
          match slice fileContents cursor (cursor + end_) with
          | .error e => .error e
          | .ok value =>
            match slice fileContents (cursor - 1) (cursor + end_ + 1) with
            | .error e => .error e
            | .ok valueWithQuotes =>
              .ok (emit st (cursor + end_ + 1)
                { tokens .STRING with lexeme := valueWithQuotes, literal := some value }) := by
  unfold scanString
  simp only []
  cases sliceFrom fileContents cursor with
  | error e => rfl
  | ok tail =>
    simp only []
    cases bytesIndex tail 34 with
    | none => rfl
    | some end_ =>
      simp only []
      cases slice fileContents cursor (cursor + end_) with
      | error e => rfl
      | ok value =>
        have h1 : (cursor : Int) + end_ + 1 = ((cursor + end_ + 1 : Nat) : Int) := by
          push_cast
          rfl
        simp only [h1, sliceInt_pred _ _ _ h]

theorem scanString_frame (pre s : Bytes) (l : Nat) (ts : List Token) (es : List LexingError)
    (st : ScanState) (c : Nat) :
    scanString (pre ++ s) (frame pre.length l ts es st) (pre.length + (c + 1)) =
      frameResult pre.length l ts es (scanString s st (c + 1)) := by
  rw [scanString_eq _ _ _ (show 0 < pre.length + (c + 1) by omega),
    scanString_eq _ _ _ (Nat.succ_pos c)]
  simp only [sliceFrom_append_right]
  cases sliceFrom s (c + 1) with
  | error e => rfl
  | ok tail =>
    simp only []
    cases bytesIndex tail 34 with
    | none =>
      simp only [List.length_append, report_frame]
      rfl
    | some end_ =>
      have h1 : pre.length + (c + 1) + end_ = pre.length + (c + 1 + end_) := by omega
      have h2 : pre.length + (c + 1) - 1 = pre.length + c := by omega
      have h3 : pre.length + (c + 1 + end_) + 1 = pre.length + (c + 1 + end_ + 1) := by omega
      have h4 : c + 1 - 1 = c := by omega
      simp only [h1, h2, h3, h4, slice_append_right]
      cases slice s (c + 1) (c + 1 + end_) with
      | error e => rfl
      | ok value =>
        simp only []
        cases slice s c (c + 1 + end_ + 1) with
        | error e => rfl
        | ok vq =>
          simp only [emit_frame]
          rfl

theorem numberLoop_ge (s : Bytes) (budget c : Nat) (d : Bool) (c' : Nat) (d' : Bool)
    (h : numberLoop s budget c d = .ok (c', d')) : c ≤ c' := by
  induction budget generalizing c d with
  | zero =>
    rw [numberLoop] at h
    rcases numberPass_cases s c d with h1 | ⟨_, d1, h1⟩
    · rw [h1] at h
      simp only [Except.ok.injEq, Prod.mk.injEq] at h
      omega
    · rw [h1] at h
      simp at h
  | succ n ih =>
    rw [numberLoop] at h
    rcases numberPass_cases s c d with h1 | ⟨_, d1, h1⟩
    · rw [h1] at h
      simp only [Except.ok.injEq, Prod.mk.injEq] at h
      omega
    · rw [h1] at h
      have := ih (c + 1) d1 h
      omega

theorem identifierLoop_ge (s : Bytes) (budget c c' : Nat)
    (h : identifierLoop s budget c = .ok c') : c ≤ c' := by
  induction budget generalizing c with
  | zero =>
    rw [identifierLoop] at h
    rcases identifierCond_cases s c with h1 | ⟨_, h1⟩
    · rw [h1] at h
      simp only [Except.ok.injEq] at h
      omega
    · rw [h1] at h
      simp at h
  | succ n ih =>
    rw [identifierLoop] at h
    rcases identifierCond_cases s c with h1 | ⟨_, h1⟩
    · rw [h1] at h
      simp only [Except.ok.injEq] at h
      omega
    · rw [h1] at h
      have := ih (c + 1) h
      omega

theorem scanNumber_eq (sc : Strconv) (fileContents : Bytes) (st : ScanState) (cursor : Nat)
    (h : 0 < cursor) :
    scanNumber sc fileContents st cursor =
      match numberLoop fileContents (fileContents.length - cursor) cursor false with
      | .error e => .error e
      | .ok (cursor1, _) =>
        match index fileContents (cursor1 - 1) with
        | .error e => .error e
        | .ok last =>
          match slice fileContents (cursor - 1) (if last = 46 then cursor1 - 1 else cursor1) with
          | .error e => .error e
          | .ok lexeme =>
            match sc.ParseFloat lexeme with
            | none =>
              .ok (report st (if last = 46 then cursor1 - 1 else cursor1)
                ⟨st.currentLine + 1, "Invalid number", lexeme⟩)
            | some num =>
              .ok (emit st (if last = 46 then cursor1 - 1 else cursor1)
                { tokens .NUMBER with
                  lexeme := lexeme, literal := some (formatFloat sc num) }) := by
  unfold scanNumber
  simp only []
  cases hn : numberLoop fileContents (fileContents.length - cursor) cursor false with
  | error e => rfl
  | ok r =>
    obtain ⟨c1, d1⟩ := r
    have hge := numberLoop_ge _ _ _ _ _ _ hn
    simp only [indexInt_pred _ _ (show 0 < c1 by omega)]
    cases index fileContents (c1 - 1) with
    | error e => rfl
    | ok last =>
      simp only [sliceInt_pred _ _ _ h]

theorem scanIdentifier_eq (fileContents : Bytes) (st : ScanState) (cursor : Nat)
    (h : 0 < cursor) :
    scanIdentifier fileContents st cursor =
      match identifierLoop fileContents (fileContents.length - cursor) cursor with
      | .error e => .error e
      | .ok cursor1 =>
        match slice fileContents (cursor - 1) cursor1 with
        | .error e => .error e
        | .ok text =>
          match reserved text with
          | some token => .ok (emit st cursor1 token)
          | none => .ok (emit st cursor1 { tokens .IDENTIFIER with lexeme := text }) := by
  unfold scanIdentifier
  simp only []
  cases identifierLoop fileContents (fileContents.length - cursor) cursor with
  | error e => rfl
  | ok c1 =>
    simp only [sliceInt_pred _ _ _ h]

theorem scanNumber_frame (sc : Strconv) (pre s : Bytes) (l : Nat) (ts : List Token)
    (es : List LexingError) (st : ScanState) (c : Nat) :
    scanNumber sc (pre ++ s) (frame pre.length l ts es st) (pre.length + (c + 1)) =
      frameResult pre.length l ts es (scanNumber sc s st (c + 1)) := by
  rw [scanNumber_eq _ _ _ _ (show 0 < pre.length + (c + 1) by omega),
    scanNumber_eq _ _ _ _ (Nat.succ_pos c)]
  have hb : (pre ++ s).length - (pre.length + (c + 1)) = s.length - (c + 1) := by
    simp only [List.length_append]; omega
  simp only [hb, numberLoop_append_right]
  cases hn : numberLoop s (s.length - (c + 1)) (c + 1) false with
  | error e => rfl
  | ok r =>
    obtain ⟨c', d'⟩ := r
    have hge := numberLoop_ge _ _ _ _ _ _ hn
    have h1 : pre.length + c' - 1 = pre.length + (c' - 1) := by omega
    simp only [shiftPair, h1, index_append_right]
    cases index s (c' - 1) with
    | error e => rfl
    | ok last =>
      have h2 : pre.length + (c + 1) - 1 = pre.length + c := by omega
      have h3 : c + 1 - 1 = c := by omega
      have h4 : (if last = 46 then pre.length + (c' - 1) else pre.length + c') =
          pre.length + (if last = 46 then c' - 1 else c') := by
        split <;> rfl
      simp only [h2, h3, h4, slice_append_right]
      cases slice s c (if last = 46 then c' - 1 else c') with
      | error e => rfl
      | ok lexeme =>
        simp only []
        cases sc.ParseFloat lexeme with
        | none => simp only [report_frame]; rfl
        | some num => simp only [emit_frame]; rfl

theorem scanIdentifier_frame (pre s : Bytes) (l : Nat) (ts : List Token)
    (es : List LexingError) (st : ScanState) (c : Nat) :
    scanIdentifier (pre ++ s) (frame pre.length l ts es st) (pre.length + (c + 1)) =
      frameResult pre.length l ts es (scanIdentifier s st (c + 1)) := by
  rw [scanIdentifier_eq _ _ _ (show 0 < pre.length + (c + 1) by omega),
    scanIdentifier_eq _ _ _ (Nat.succ_pos c)]
  have hb : (pre ++ s).length - (pre.length + (c + 1)) = s.length - (c + 1) := by
    simp only [List.length_append]; omega
  simp only [hb, identifierLoop_append_right]
  cases hn : identifierLoop s (s.length - (c + 1)) (c + 1) with
  | error e => rfl
  | ok c' =>
    have h2 : pre.length + (c + 1) - 1 = pre.length + c := by omega
    have h3 : c + 1 - 1 = c := by omega
    simp only [shiftCursor, h2, h3, slice_append_right]
    cases slice s c c' with
    | error e => rfl
    | ok text =>
      simp only []
      cases reserved text with
      | none => simp only [emit_frame]; rfl
      | some t => simp only [emit_frame]; rfl

theorem scanStep_frame (sc : Strconv) (pre s : Bytes) (l : Nat) (ts : List Token)
    (es : List LexingError) (st : ScanState) :
    scanStep sc (pre ++ s) (frame pre.length l ts es st) =
      frameResult pre.length l ts es (scanStep sc s st) := by
  unfold scanStep
  have hc : (frame pre.length l ts es st).cursor = pre.length + st.cursor := rfl
  have hp : (frame pre.length l ts es st).parsedTokens = ts ++ st.parsedTokens := rfl
  simp only [hc, hp, index_append_right]
  cases index s st.cursor with
  | error e => rfl
  | ok token =>
    simp only [Nat.add_assoc, List.length_append, Nat.add_lt_add_iff_left, index_append_right]
    by_cases h : token = 10
    · rw [if_pos h, if_pos h]
      rfl
    rw [if_neg h, if_neg h]
    clear h
    by_cases h : token = 32 ∨ token = 13 ∨ token = 9
    · rw [if_pos h, if_pos h]
      rfl
    rw [if_neg h, if_neg h]
    clear h
    by_cases h : token = 40
    · rw [if_pos h, if_pos h]
      rw [emit_frame]; rfl
    rw [if_neg h, if_neg h]
    clear h
    by_cases h : token = 41
    · rw [if_pos h, if_pos h]
      rw [emit_frame]; rfl
    rw [if_neg h, if_neg h]
    clear h
    by_cases h : token = 123
    · rw [if_pos h, if_pos h]
      rw [emit_frame]; rfl
    rw [if_neg h, if_neg h]
    clear h
    by_cases h : token = 125
    · rw [if_pos h, if_pos h]
      rw [emit_frame]; rfl
    rw [if_neg h, if_neg h]
    clear h
    by_cases h : token = 44
    · rw [if_pos h, if_pos h]
      rw [emit_frame]; rfl
    rw [if_neg h, if_neg h]
    clear h
    by_cases h : token = 46
    · rw [if_pos h, if_pos h]
      rw [emit_frame]; rfl
    rw [if_neg h, if_neg h]
    clear h
    by_cases h : token = 45
    · rw [if_pos h, if_pos h]
      rw [emit_frame]; rfl
    rw [if_neg h, if_neg h]
    clear h
    by_cases h : token = 43
    · rw [if_pos h, if_pos h]
      rw [emit_frame]; rfl
    rw [if_neg h, if_neg h]
    clear h
    by_cases h : token = 59
    · rw [if_pos h, if_pos h]
      rw [emit_frame]; rfl
    rw [if_neg h, if_neg h]
    clear h
    by_cases h : token = 42
    · rw [if_pos h, if_pos h]
      rw [emit_frame]; rfl
    rw [if_neg h, if_neg h]
    clear h
    by_cases h : token = 61
    · rw [if_pos h, if_pos h]
      rw [matchEqualVariants_frame]
      cases matchEqualVariants st.parsedTokens s (st.cursor + 1) _ _ <;> rfl
    rw [if_neg h, if_neg h]
    clear h
    by_cases h : token = 33
    · rw [if_pos h, if_pos h]
      rw [matchEqualVariants_frame]
      cases matchEqualVariants st.parsedTokens s (st.cursor + 1) _ _ <;> rfl
    rw [if_neg h, if_neg h]
    clear h
    by_cases h : token = 60
    · rw [if_pos h, if_pos h]
      rw [matchEqualVariants_frame]
      cases matchEqualVariants st.parsedTokens s (st.cursor + 1) _ _ <;> rfl
    rw [if_neg h, if_neg h]
    clear h
    by_cases h : token = 62
    · rw [if_pos h, if_pos h]
      rw [matchEqualVariants_frame]
      cases matchEqualVariants st.parsedTokens s (st.cursor + 1) _ _ <;> rfl
    rw [if_neg h, if_neg h]
    clear h
    by_cases h : token = 47
    · rw [if_pos h, if_pos h]
      by_cases hc : st.cursor + 1 < s.length
      · rw [if_pos hc, if_pos hc]
        cases index s (st.cursor + 1) with
        | error e => rfl
        | ok next =>
          by_cases hn : next = 47
          · simp only [hn, if_true, sliceFrom_append_right]
            cases sliceFrom s (st.cursor + 1) with
            | error e => rfl
            | ok tail =>
              simp only []
              cases bytesIndex tail 10 with
              | none => rfl
              | some i => rfl
          · simp only [hn, if_false, emit_frame]; rfl
      · rw [if_neg hc, if_neg hc, emit_frame]; rfl
    rw [if_neg h, if_neg h]
    clear h
    by_cases h : token = 34
    · rw [if_pos h, if_pos h]
      exact scanString_frame _ _ _ _ _ _ _
    rw [if_neg h, if_neg h]
    clear h
    by_cases h : 48 ≤ token ∧ token ≤ 57
    · rw [if_pos h, if_pos h]
      exact scanNumber_frame _ _ _ _ _ _ _ _
    rw [if_neg h, if_neg h]
    clear h
    by_cases h : (97 ≤ token ∧ token ≤ 122) ∨ (65 ≤ token ∧ token ≤ 90) ∨ token = 95
    · rw [if_pos h, if_pos h]
      exact scanIdentifier_frame _ _ _ _ _ _ _
    rw [if_neg h, if_neg h]
    clear h
    rw [report_frame]; rfl

theorem scanLoop_frame (sc : Strconv) (pre s : Bytes) (l : Nat) (ts : List Token)
    (es : List LexingError) (budget : Nat) (st : ScanState) :
    scanLoop sc (pre ++ s) budget (frame pre.length l ts es st) =
      frameResult pre.length l ts es (scanLoop sc s budget st) := by
  induction budget generalizing st with
  | zero =>
    rw [scanLoop, scanLoop]
    have hc : (frame pre.length l ts es st).cursor = pre.length + st.cursor := rfl
    simp only [hc, List.length_append, Nat.add_lt_add_iff_left]
    split <;> rfl
  | succ n ih =>
    rw [scanLoop, scanLoop]
    have hc : (frame pre.length l ts es st).cursor = pre.length + st.cursor := rfl
    simp only [hc, List.length_append, Nat.add_lt_add_iff_left, scanStep_frame]
    split
    · cases scanStep sc s st with
      | error e => rfl
      | ok st1 => exact ih st1
    · rfl

theorem lookup_mem {α β : Type} [BEq α] [LawfulBEq α] {l : List (α × β)} {k : α} {b : β}
    (h : l.lookup k = some b) : (k, b) ∈ l := by
  obtain ⟨l1, l2, h1, _⟩ := List.lookup_eq_some_iff.1 h
  rw [h1]
  simp

theorem reserved_ne_EOF {text : Bytes} {t : Token} (h : reserved text = some t) :
    t.tokenType ≠ .EOF := by
  have hall : ∀ p ∈ reservedTable, p.2.tokenType ≠ .EOF := by decide
  exact hall _ (lookup_mem h)

theorem matchEqualVariants_spec (ts : List Token) (fc : Bytes) (c : Nat) (a b : Token)
    (hc : c ≤ fc.length) :
    ∃ c' t, matchEqualVariants ts fc c a b = .ok (c', ts ++ [t]) ∧ c ≤ c' ∧ c' ≤ fc.length ∧
      (t = a ∨ t = b) := by
  unfold matchEqualVariants
  by_cases h : c < fc.length
  · obtain ⟨x, hx⟩ := index_of_lt h
    rw [if_pos h, hx]
    by_cases h61 : x = 61
    · exact ⟨c + 1, b, by simp only [h61, if_true], by omega, by omega, Or.inr rfl⟩
    · exact ⟨c, a, by simp only [h61, if_false], by omega, by omega, Or.inl rfl⟩
  · rw [if_neg h]
    exact ⟨c, a, rfl, by omega, by omega, Or.inl rfl⟩

theorem scanString_advance (fc : Bytes) (st : ScanState) (c : Nat) (hc : c < fc.length) :
    AdvanceFrom fc st c (scanString fc st (c + 1)) := by
  rw [scanString_eq _ _ _ (Nat.succ_pos c)]
  simp only [sliceFrom_of_le (Nat.succ_le_of_lt hc)]
  cases hi : bytesIndex (fc.drop (c + 1)) 34 with
  | none =>
    exact ⟨_, rfl, fc.length, hc, Nat.le_refl _, Or.inr (Or.inr (Or.inr ⟨_, rfl, rfl⟩))⟩
  | some i =>
    have := bytesIndex_lt hi
    simp only [List.length_drop] at this
    simp only [slice_of_le (show c + 1 ≤ c + 1 + i by omega) (show c + 1 + i ≤ fc.length by omega),
      slice_of_le (show c + 1 - 1 ≤ c + 1 + i + 1 by omega)
        (show c + 1 + i + 1 ≤ fc.length by omega)]
    refine ⟨_, rfl, c + 1 + i + 1, by omega, by omega, Or.inr (Or.inr (Or.inl ⟨_, ?_, rfl⟩))⟩
    exact (by decide : (tokens TokenType.STRING).tokenType ≠ TokenType.EOF)

theorem scanNumber_advance (sc : Strconv) (fc : Bytes) (st : ScanState) (c : Nat) (token : Nat)
    (hc : c < fc.length) (htok : index fc c = .ok token) (hd : 48 ≤ token ∧ token ≤ 57) :
    AdvanceFrom fc st c (scanNumber sc fc st (c + 1)) := by
  rw [scanNumber_eq _ _ _ _ (Nat.succ_pos c)]
  obtain ⟨c1, d1, h1, h2, h3⟩ := numberLoop_total fc (fc.length - (c + 1)) (c + 1) false
    (Nat.le_refl _)
  have h4 := h3 (by omega)
  obtain ⟨last, hlast⟩ := index_of_lt (show c1 - 1 < fc.length by omega)
  simp only [h1, hlast]
  have hcur : c < (if last = 46 then c1 - 1 else c1) ∧
      (if last = 46 then c1 - 1 else c1) ≤ fc.length := by
    by_cases h46 : last = 46
    · rw [if_pos h46]
      have : c1 ≠ c + 1 := by
        intro heq
        rw [heq, Nat.add_sub_cancel, htok] at hlast
        simp only [Except.ok.injEq] at hlast
        omega
      omega
    · rw [if_neg h46]; omega
  simp only [slice_of_le (show c + 1 - 1 ≤ (if last = 46 then c1 - 1 else c1) by omega) hcur.2]
  cases sc.ParseFloat _ with
  | none => exact ⟨_, rfl, _, hcur.1, hcur.2, Or.inr (Or.inr (Or.inr ⟨_, rfl, rfl⟩))⟩
  | some num =>
    refine ⟨_, rfl, _, hcur.1, hcur.2, Or.inr (Or.inr (Or.inl ⟨_, ?_, rfl⟩))⟩
    exact (by decide : (tokens TokenType.NUMBER).tokenType ≠ TokenType.EOF)

theorem scanIdentifier_advance (fc : Bytes) (st : ScanState) (c : Nat) (hc : c < fc.length) :
    AdvanceFrom fc st c (scanIdentifier fc st (c + 1)) := by
  rw [scanIdentifier_eq _ _ _ (Nat.succ_pos c)]
  obtain ⟨c1, h1, h2, h3⟩ := identifierLoop_total fc (fc.length - (c + 1)) (c + 1)
    (Nat.le_refl _)
  have h4 := h3 (by omega)
  simp only [h1, slice_of_le (show c + 1 - 1 ≤ c1 by omega) h4]
  cases hr : reserved _ with
  | none =>
    refine ⟨_, rfl, c1, by omega, h4, Or.inr (Or.inr (Or.inl ⟨_, ?_, rfl⟩))⟩
    exact (by decide : (tokens TokenType.IDENTIFIER).tokenType ≠ TokenType.EOF)
  | some t =>
    exact ⟨_, rfl, c1, by omega, h4, Or.inr (Or.inr (Or.inl ⟨t, reserved_ne_EOF hr, rfl⟩))⟩

theorem scanStep_advance (sc : Strconv) (fc : Bytes) (st : ScanState)
    (hlt : st.cursor < fc.length) : AdvanceFrom fc st st.cursor (scanStep sc fc st) := by
  unfold scanStep
  obtain ⟨token, htok⟩ := index_of_lt hlt
  rw [htok]
  simp only []
  by_cases h : token = 10
  · rw [if_pos h]
    exact ⟨_, rfl, st.cursor + 1, by omega, by omega, Or.inl rfl⟩
  rw [if_neg h]
  clear h
  by_cases h : token = 32 ∨ token = 13 ∨ token = 9
  · rw [if_pos h]
    exact ⟨_, rfl, st.cursor + 1, by omega, by omega, Or.inr (Or.inl rfl)⟩
  rw [if_neg h]
  clear h
  by_cases h : token = 40
  · rw [if_pos h]
    exact ⟨_, rfl, st.cursor + 1, by omega, by omega, Or.inr (Or.inr (Or.inl ⟨_, by decide, rfl⟩))⟩
  rw [if_neg h]
  clear h
  by_cases h : token = 41
  · rw [if_pos h]
    exact ⟨_, rfl, st.cursor + 1, by omega, by omega, Or.inr (Or.inr (Or.inl ⟨_, by decide, rfl⟩))⟩
  rw [if_neg h]
  clear h
  by_cases h : token = 123
  · rw [if_pos h]
    exact ⟨_, rfl, st.cursor + 1, by omega, by omega, Or.inr (Or.inr (Or.inl ⟨_, by decide, rfl⟩))⟩
  rw [if_neg h]
  clear h
  by_cases h : token = 125
  · rw [if_pos h]
    exact ⟨_, rfl, st.cursor + 1, by omega, by omega, Or.inr (Or.inr (Or.inl ⟨_, by decide, rfl⟩))⟩
  rw [if_neg h]
  clear h
  by_cases h : token = 44
  · rw [if_pos h]
    exact ⟨_, rfl, st.cursor + 1, by omega, by omega, Or.inr (Or.inr (Or.inl ⟨_, by decide, rfl⟩))⟩
  rw [if_neg h]
  clear h
  by_cases h : token = 46
  · rw [if_pos h]
    exact ⟨_, rfl, st.cursor + 1, by omega, by omega, Or.inr (Or.inr (Or.inl ⟨_, by decide, rfl⟩))⟩
  rw [if_neg h]
  clear h
  by_cases h : token = 45
  · rw [if_pos h]
    exact ⟨_, rfl, st.cursor + 1, by omega, by omega, Or.inr (Or.inr (Or.inl ⟨_, by decide, rfl⟩))⟩
  rw [if_neg h]
  clear h
  by_cases h : token = 43
  · rw [if_pos h]
    exact ⟨_, rfl, st.cursor + 1, by omega, by omega, Or.inr (Or.inr (Or.inl ⟨_, by decide, rfl⟩))⟩
  rw [if_neg h]
  clear h
  by_cases h : token = 59
  · rw [if_pos h]
    exact ⟨_, rfl, st.cursor + 1, by omega, by omega, Or.inr (Or.inr (Or.inl ⟨_, by decide, rfl⟩))⟩
  rw [if_neg h]
  clear h
  by_cases h : token = 42
  · rw [if_pos h]
    exact ⟨_, rfl, st.cursor + 1, by omega, by omega, Or.inr (Or.inr (Or.inl ⟨_, by decide, rfl⟩))⟩
  rw [if_neg h]
  clear h
  by_cases h : token = 61
  · rw [if_pos h]
    obtain ⟨c, t, h1, h2, h3, h4⟩ := matchEqualVariants_spec st.parsedTokens fc (st.cursor + 1) _ _ (by omega)
    rw [h1]
    refine ⟨_, rfl, c, by omega, h3, Or.inr (Or.inr (Or.inl ⟨t, ?_, rfl⟩))⟩
    rcases h4 with h4 | h4 <;> rw [h4] <;> decide
  rw [if_neg h]
  clear h
  by_cases h : token = 33
  · rw [if_pos h]
    obtain ⟨c, t, h1, h2, h3, h4⟩ := matchEqualVariants_spec st.parsedTokens fc (st.cursor + 1) _ _ (by omega)
    rw [h1]
    refine ⟨_, rfl, c, by omega, h3, Or.inr (Or.inr (Or.inl ⟨t, ?_, rfl⟩))⟩
    rcases h4 with h4 | h4 <;> rw [h4] <;> decide
  rw [if_neg h]
  clear h
  by_cases h : token = 60
  · rw [if_pos h]
    obtain ⟨c, t, h1, h2, h3, h4⟩ := matchEqualVariants_spec st.parsedTokens fc (st.cursor + 1) _ _ (by omega)
    rw [h1]
    refine ⟨_, rfl, c, by omega, h3, Or.inr (Or.inr (Or.inl ⟨t, ?_, rfl⟩))⟩
    rcases h4 with h4 | h4 <;> rw [h4] <;> decide
  rw [if_neg h]
  clear h
  by_cases h : token = 62
  · rw [if_pos h]
    obtain ⟨c, t, h1, h2, h3, h4⟩ := matchEqualVariants_spec st.parsedTokens fc (st.cursor + 1) _ _ (by omega)
    rw [h1]
    refine ⟨_, rfl, c, by omega, h3, Or.inr (Or.inr (Or.inl ⟨t, ?_, rfl⟩))⟩
    rcases h4 with h4 | h4 <;> rw [h4] <;> decide
  rw [if_neg h]
  clear h
  by_cases h : token = 47
  · rw [if_pos h]
    by_cases hc : st.cursor + 1 < fc.length
    · rw [if_pos hc]
      obtain ⟨next, hnext⟩ := index_of_lt hc
      rw [hnext]
      by_cases hn : next = 47
      · simp only [hn, if_true, sliceFrom_of_le (Nat.le_of_lt hc)]
        cases hi : bytesIndex (fc.drop (st.cursor + 1)) 10 with
        | none => exact ⟨_, rfl, fc.length, by omega, Nat.le_refl _, Or.inr (Or.inl rfl)⟩
        | some i =>
          have := bytesIndex_lt hi
          simp only [List.length_drop] at this
          exact ⟨_, rfl, st.cursor + 1 + i, by omega, by omega, Or.inr (Or.inl rfl)⟩
      · simp only [hn, if_false]
        exact ⟨_, rfl, st.cursor + 1, by omega, by omega, Or.inr (Or.inr (Or.inl ⟨_, by decide, rfl⟩))⟩
    · rw [if_neg hc]
      exact ⟨_, rfl, st.cursor + 1, by omega, by omega, Or.inr (Or.inr (Or.inl ⟨_, by decide, rfl⟩))⟩
  rw [if_neg h]
  clear h
  by_cases h : token = 34
  · rw [if_pos h]
    exact scanString_advance fc st st.cursor hlt
  rw [if_neg h]
  clear h
  by_cases h : 48 ≤ token ∧ token ≤ 57
  · rw [if_pos h]
    exact scanNumber_advance sc fc st st.cursor token hlt htok h
  rw [if_neg h]
  clear h
  by_cases h : (97 ≤ token ∧ token ≤ 122) ∨ (65 ≤ token ∧ token ≤ 90) ∨ token = 95
  · rw [if_pos h]
    exact scanIdentifier_advance fc st st.cursor hlt
  rw [if_neg h]
  clear h
  exact ⟨_, rfl, st.cursor + 1, by omega, by omega, Or.inr (Or.inr (Or.inr ⟨_, rfl, rfl⟩))⟩

theorem AdvanceFrom.cursor {fc : Bytes} {st : ScanState} {c : Nat} {st1 : ScanState}
    (h : AdvanceFrom fc st c (.ok st1)) : c < st1.cursor ∧ st1.cursor ≤ fc.length := by
  obtain ⟨st2, h0, c1, h1, h2, h3⟩ := h
  simp only [Except.ok.injEq] at h0
  subst h0
  rcases h3 with h3 | h3 | ⟨t, _, h3⟩ | ⟨e, _, h3⟩ <;> rw [h3] <;> exact ⟨h1, h2⟩

theorem scanStep_cursor {sc : Strconv} {fc : Bytes} {st st1 : ScanState}
    (hlt : st.cursor < fc.length) (h : scanStep sc fc st = .ok st1) :
    st.cursor < st1.cursor ∧ st1.cursor ≤ fc.length := by
  have := scanStep_advance sc fc st hlt
  rw [h] at this
  exact this.cursor

theorem scanStep_total (sc : Strconv) (fc : Bytes) (st : ScanState)
    (hlt : st.cursor < fc.length) : ∃ st1, scanStep sc fc st = .ok st1 := by
  obtain ⟨st1, h, _⟩ := scanStep_advance sc fc st hlt
  exact ⟨st1, h⟩

/-- One more iteration in the budget changes nothing once the budget covers the bytes left. -/
theorem scanLoop_budget_succ (sc : Strconv) (fc : Bytes) (budget : Nat) (st : ScanState)
    (hb : fc.length - st.cursor ≤ budget) :
    scanLoop sc fc (budget + 1) st = scanLoop sc fc budget st := by
  induction budget generalizing st with
  | zero =>
    have : ¬ st.cursor < fc.length := by omega
    rw [scanLoop, scanLoop, if_neg this, if_neg this]
  | succ n ih =>
    rw [scanLoop, scanLoop.eq_2 sc fc st n]
    by_cases hlt : st.cursor < fc.length
    · rw [if_pos hlt, if_pos hlt]
      cases hs : scanStep sc fc st with
      | error e => rfl
      | ok st1 =>
        have := scanStep_cursor hlt hs
        exact ih st1 (by omega)
    · rw [if_neg hlt, if_neg hlt]

theorem scanLoop_budget (sc : Strconv) (fc : Bytes) (b1 b2 : Nat) (st : ScanState)
    (h1 : fc.length - st.cursor ≤ b1) (h2 : fc.length - st.cursor ≤ b2) :
    scanLoop sc fc b1 st = scanLoop sc fc b2 st := by
  have key : ∀ k b, fc.length - st.cursor ≤ b →
      scanLoop sc fc (b + k) st = scanLoop sc fc b st := by
    intro k
    induction k with
    | zero => intro b _; rfl
    | succ k ih =>
      intro b hb
      rw [← Nat.add_assoc, scanLoop_budget_succ sc fc (b + k) st (by omega)]
      exact ih b hb
  have e1 := key (b1 - (fc.length - st.cursor)) (fc.length - st.cursor) (Nat.le_refl _)
  have e2 := key (b2 - (fc.length - st.cursor)) (fc.length - st.cursor) (Nat.le_refl _)
  rw [show fc.length - st.cursor + (b1 - (fc.length - st.cursor)) = b1 by omega] at e1
  rw [show fc.length - st.cursor + (b2 - (fc.length - st.cursor)) = b2 by omega] at e2
  rw [e1, e2]

/-- An iteration of the loop may be taken out of the budget. -/
theorem scanLoop_step (sc : Strconv) (fc : Bytes) (budget : Nat) (st st1 : ScanState)
    (hb : fc.length - st.cursor ≤ budget) (hlt : st.cursor < fc.length)
    (hs : scanStep sc fc st = .ok st1) :
    scanLoop sc fc budget st = scanLoop sc fc budget st1 := by
  have hc := scanStep_cursor hlt hs
  obtain ⟨n, rfl⟩ : ∃ n, budget = n + 1 := ⟨budget - 1, by omega⟩
  rw [scanLoop, if_pos hlt, hs]
  exact (scanLoop_budget_succ sc fc n st1 (by omega)).symm

/-- A loop invariant that every iteration keeps holds at the end of the loop, and the loop
does end, with the cursor at the end of the input. -/
theorem scanLoop_invariant (sc : Strconv) (fc : Bytes) (P : ScanState → Prop)
    (hstep : ∀ st st1, P st → st.cursor < fc.length → scanStep sc fc st = .ok st1 → P st1)
    (budget : Nat) (st : ScanState) (hb : fc.length - st.cursor ≤ budget) (h0 : P st) :
    ∃ st1, scanLoop sc fc budget st = .ok st1 ∧ P st1 ∧ fc.length ≤ st1.cursor := by
  induction budget generalizing st with
  | zero =>
    have : ¬ st.cursor < fc.length := by omega
    exact ⟨st, by rw [scanLoop, if_neg this], h0, by omega⟩
  | succ n ih =>
    by_cases hlt : st.cursor < fc.length
    · obtain ⟨st1, hs⟩ := scanStep_total sc fc st hlt
      have hc := scanStep_cursor hlt hs
      obtain ⟨st2, h2, h3, h4⟩ := ih st1 (by omega) (hstep st st1 h0 hlt hs)
      exact ⟨st2, by rw [scanLoop, if_pos hlt, hs]; exact h2, h3, h4⟩
    · exact ⟨st, by rw [scanLoop, if_neg hlt], h0, by omega⟩

theorem frame_zero (p l : Nat) (ts : List Token) (es : List LexingError) :
    frame p l ts es ⟨0, 0, [], []⟩ = ⟨p, l, ts, es⟩ := by
  simp [frame]

/-- When the first iteration on `pre ++ rest` consumes exactly `pre`, the scan of
`pre ++ rest` is that iteration followed by the scan of `rest`. -/
theorem scan_append (sc : Strconv) (pre rest : Bytes) (l : Nat) (ts : List Token)
    (es : List LexingError)
    (h : scanStep sc (pre ++ rest) ⟨0, 0, [], []⟩ = .ok ⟨pre.length, l, ts, es⟩) :
    scan sc (pre ++ rest) = frameResult pre.length l ts es (scan sc rest) := by
  have hlt : (0 : Nat) < (pre ++ rest).length := by
    rcases Nat.eq_zero_or_pos (pre ++ rest).length with h0 | h0
    · rw [List.length_eq_zero] at h0
      rw [h0] at h
      simp [scanStep, index] at h
    · exact h0
  unfold scan
  rw [scanLoop_step sc _ _ _ _ (by simp) hlt h, ← frame_zero pre.length l ts es, scanLoop_frame]
  congr 1
  apply scanLoop_budget
  · simp
  · simp

theorem Tokenize_eq (sc : Strconv) (fc : Bytes) :
    Tokenize sc fc =
      match scan sc fc with
      | .error e => .error e
      | .ok st => .ok ⟨st.parsedTokens ++ [tokens .EOF], decide (st.errors ≠ []), st.errors⟩ := by
  unfold Tokenize scan
  cases scanLoop sc fc fc.length ⟨0, 0, [], []⟩ with
  | error e => rfl
  | ok st =>
    simp only []
    cases h : st.errors with
    | nil => simp
    | cons e es => simp

theorem scan_total (sc : Strconv) (fc : Bytes) :
    ∃ st, scan sc fc = .ok st ∧ (∀ t ∈ st.parsedTokens, t.tokenType ≠ .EOF) ∧
      fc.length ≤ st.cursor := by
  apply scanLoop_invariant sc fc (fun st => ∀ t ∈ st.parsedTokens, t.tokenType ≠ .EOF)
  · intro st st1 hP hlt hs
    have hadv := scanStep_advance sc fc st hlt
    rw [hs] at hadv
    obtain ⟨st2, h0, c1, _, _, h3⟩ := hadv
    simp only [Except.ok.injEq] at h0
    subst h0
    rcases h3 with h3 | h3 | ⟨t, ht, h3⟩ | ⟨e, _, h3⟩
    · rw [h3]; exact hP
    · rw [h3]; exact hP
    · rw [h3]
      intro t1 ht1
      simp only [emit, List.mem_append, List.mem_singleton] at ht1
      rcases ht1 with ht1 | ht1
      · exact hP t1 ht1
      · rw [ht1]; exact ht
    · rw [h3]; exact hP
  · simp
  · intro t ht
    simp at ht

theorem index_zero (b : Nat) (s : Bytes) : index (b :: s) 0 = .ok b := by
  simp [index]

theorem index_succ (b : Nat) (s : Bytes) (i : Nat) : index (b :: s) (i + 1) = index s i := by
  simp [index]

theorem bytesIndex_append_cons (c r : Bytes) (b : Nat) (h : ∀ x ∈ c, x ≠ b) :
    bytesIndex (c ++ b :: r) b = some c.length := by
  induction c with
  | nil => simp [bytesIndex]
  | cons x xs ih =>
    have hx : x ≠ b := h x (by simp)
    have := ih (fun y hy => h y (by simp [hy]))
    simp [bytesIndex, hx, this]

theorem bytesIndex_none (c : Bytes) (b : Nat) (h : ∀ x ∈ c, x ≠ b) : bytesIndex c b = none := by
  induction c with
  | nil => simp [bytesIndex]
  | cons x xs ih =>
    have hx : x ≠ b := h x (by simp)
    have := ih (fun y hy => h y (by simp [hy]))
    simp [bytesIndex, hx, this]

/-- When the first iteration on `pre ++ rest` consumes exactly `pre`, the result of
`Tokenize` on `pre ++ rest` is that iteration followed by the result on `rest`. -/
theorem Tokenize_append (sc : Strconv) (pre rest : Bytes) (l : Nat) (ts : List Token)
    (es : List LexingError)
    (h : scanStep sc (pre ++ rest) ⟨0, 0, [], []⟩ = .ok ⟨pre.length, l, ts, es⟩) :
    Tokenize sc (pre ++ rest) =
      match Tokenize sc rest with
      | .error e => .error e
      | .ok r =>
        .ok ⟨ts ++ r.tokens, decide (es ≠ []) || r.failed, es ++ r.errors.map (shiftError l)⟩ := by
  rw [Tokenize_eq, Tokenize_eq, scan_append sc pre rest l ts es h]
  cases scan sc rest with
  | error e => rfl
  | ok st =>
    simp only [frameResult, frame, List.append_assoc]
    congr 2
    cases es <;> cases st.errors <;> simp

theorem scanStep_space (sc : Strconv) (b : Nat) (rest : Bytes)
    (hb : b = 32 ∨ b = 9 ∨ b = 13 ∨ b = 10) :
    scanStep sc (b :: rest) ⟨0, 0, [], []⟩ = .ok ⟨1, if b = 10 then 1 else 0, [], []⟩ := by
  rcases hb with h | h | h | h <;> subst h <;> simp [scanStep, index_zero]

theorem scanStep_comment (sc : Strconv) (c rest : Bytes) (hc : ∀ x ∈ c, x ≠ 10)
    (hr : rest = [] ∨ ∃ r, rest = 10 :: r) :
    scanStep sc (47 :: 47 :: (c ++ rest)) ⟨0, 0, [], []⟩ = .ok ⟨c.length + 2, 0, [], []⟩ := by
  have h1 : 1 ≤ (47 :: 47 :: (c ++ rest)).length := by simp
  have h2 : sliceFrom (47 :: 47 :: (c ++ rest)) 1 = .ok (47 :: (c ++ rest)) := by
    rw [sliceFrom_of_le h1]; rfl
  have hc1 : ∀ x ∈ 47 :: c, x ≠ 10 := by
    intro x hx
    simp only [List.mem_cons] at hx
    rcases hx with hx | hx
    · omega
    · exact hc x hx
  rcases hr with hr | ⟨r, hr⟩
  · subst hr
    simp only [List.append_nil] at h2 ⊢
    have h3 : bytesIndex (47 :: c) 10 = none := bytesIndex_none _ _ hc1
    simp [scanStep, index_zero, index_succ, h2, h3]
  · subst hr
    have h3 : bytesIndex (47 :: (c ++ 10 :: r)) 10 = some (c.length + 1) :=
      bytesIndex_append_cons (47 :: c) r 10 hc1
    simp [scanStep, index_zero, index_succ, h2, h3]
    omega

theorem Tokenize_total (sc : Strconv) (fc : Bytes) : ∃ r, Tokenize sc fc = .ok r := by
  obtain ⟨st, h1, _, _⟩ := scan_total sc fc
  exact ⟨_, by rw [Tokenize_eq, h1]⟩

theorem map_shiftError_zero (es : List LexingError) : es.map (shiftError 0) = es := by
  induction es with
  | nil => rfl
  | cons e es ih => simp [shiftError, ih]

theorem slice_prefix (pre s rest : Bytes) :
    slice (pre ++ (s ++ rest)) pre.length (pre.length + s.length) = .ok s := by
  have h : pre.length + s.length ≤ (pre ++ (s ++ rest)).length := by
    simp only [List.length_append]; omega
  rw [slice_of_le (Nat.le_add_right _ _) h]
  simp

theorem scanStep_string (sc : Strconv) (s rest : Bytes) (h : ∀ x ∈ s, x ≠ 34) :
    scanStep sc (34 :: (s ++ 34 :: rest)) ⟨0, 0, [], []⟩ =
      .ok ⟨s.length + 2, 0, [⟨.STRING, "STRING", 34 :: (s ++ [34]), some s⟩], []⟩ := by
  have h1 : sliceFrom (34 :: (s ++ 34 :: rest)) 1 = .ok (s ++ 34 :: rest) := by
    rw [sliceFrom_of_le (by simp)]; rfl
  have h2 : slice (34 :: (s ++ 34 :: rest)) 1 (1 + s.length) = .ok s :=
    slice_prefix [34] s (34 :: rest)
  have h3 : slice (34 :: (s ++ 34 :: rest)) 0 (1 + s.length + 1) = .ok (34 :: (s ++ [34])) := by
    have := slice_prefix [] (34 :: (s ++ [34])) rest
    simp only [List.nil_append, List.length_nil, Nat.zero_add, List.length_cons,
      List.length_append, List.length_singleton, List.cons_append, List.append_assoc,
      List.singleton_append] at this
    rw [show 1 + s.length + 1 = s.length + 1 + 1 by omega]
    exact this
  have h4 : tokens .STRING = ⟨.STRING, "STRING", [], some []⟩ := by decide
  simp [scanStep, scanString_eq, index_zero, h1, h2, h3, bytesIndex_append_cons s rest 34 h, emit,
    h4]
  omega

theorem scanStep_unterminated (sc : Strconv) (r : Bytes) (h : ∀ x ∈ r, x ≠ 34) :
    scanStep sc (34 :: r) ⟨0, 0, [], []⟩ =
      .ok ⟨r.length + 1, 0, [], [⟨1, "Unterminated string", []⟩]⟩ := by
  have h1 : sliceFrom (34 :: r) 1 = .ok r := by
    rw [sliceFrom_of_le (by simp)]; rfl
  simp [scanStep, scanString_eq, index_zero, h1, bytesIndex_none r 34 h, report, str]

theorem Tokenize_cons_token (sc : Strconv) (pre rest : Bytes) (t : Token)
    (h : scanStep sc (pre ++ rest) ⟨0, 0, [], []⟩ = .ok ⟨pre.length, 0, [t], []⟩) :
    ∃ r, Tokenize sc rest = .ok r ∧
      Tokenize sc (pre ++ rest) = .ok ⟨t :: r.tokens, r.failed, r.errors⟩ := by
  obtain ⟨r, hr⟩ := Tokenize_total sc rest
  refine ⟨r, hr, ?_⟩
  rw [Tokenize_append sc pre rest 0 [t] [] h, hr]
  simp [map_shiftError_zero]

theorem scanStep_dual (sc : Strconv) (c : Nat) (single dual : Token)
    (hc : (c, single, dual) ∈ equalVariants) (rest : Bytes) :
    scanStep sc (c :: 61 :: rest) ⟨0, 0, [], []⟩ = .ok ⟨2, 0, [dual], []⟩ := by
  simp only [equalVariants, List.mem_cons, Prod.mk.injEq, List.mem_nil_iff, or_false] at hc
  rcases hc with ⟨h1, h2, h3⟩ | ⟨h1, h2, h3⟩ | ⟨h1, h2, h3⟩ | ⟨h1, h2, h3⟩ <;>
    subst h1 h2 h3 <;>
    simp [scanStep, matchEqualVariants, index_zero, index_succ] <;> decide

theorem scanStep_single (sc : Strconv) (c : Nat) (single dual : Token)
    (hc : (c, single, dual) ∈ equalVariants) (rest : Bytes) (hr : rest.head? ≠ some 61) :
    scanStep sc (c :: rest) ⟨0, 0, [], []⟩ = .ok ⟨1, 0, [single], []⟩ := by
  simp only [equalVariants, List.mem_cons, Prod.mk.injEq, List.mem_nil_iff, or_false] at hc
  cases rest with
  | nil =>
    rcases hc with ⟨h1, h2, h3⟩ | ⟨h1, h2, h3⟩ | ⟨h1, h2, h3⟩ | ⟨h1, h2, h3⟩ <;>
      subst h1 h2 h3 <;>
      simp [scanStep, matchEqualVariants, index_zero] <;> decide
  | cons b r =>
    have hb : b ≠ 61 := by simpa using hr
    rcases hc with ⟨h1, h2, h3⟩ | ⟨h1, h2, h3⟩ | ⟨h1, h2, h3⟩ | ⟨h1, h2, h3⟩ <;>
      subst h1 h2 h3 <;>
      simp [scanStep, matchEqualVariants, index_zero, index_succ, hb] <;> decide

theorem scanStep_default (sc : Strconv) (b : Nat) (rest : Bytes) (hb : b ∉ switchBytes) :
    scanStep sc (b :: rest) ⟨0, 0, [], []⟩ =
      if 48 ≤ b ∧ b ≤ 57 then scanNumber sc (b :: rest) ⟨0, 0, [], []⟩ 1
      else if (97 ≤ b ∧ b ≤ 122) ∨ (65 ≤ b ∧ b ≤ 90) ∨ b = 95 then
        scanIdentifier (b :: rest) ⟨0, 0, [], []⟩ 1
      else .ok ⟨1, 0, [], [⟨1, "Unexpected character", byteToString b⟩]⟩ := by
  simp only [switchBytes, List.mem_cons, List.mem_nil_iff, or_false, not_or] at hb
  obtain ⟨h1, h2, h3, h4, h5, h6, h7, h8, h9, h10, h11, h12, h13, h14, h15, h16, h17, h18,
    h19, h20⟩ := hb
  unfold scanStep
  simp only [index_zero, h1, h2, h3, h4, h5, h6, h7, h8, h9, h10, h11, h12, h13, h14, h15,
    h16, h17, h18, h19, h20, if_false, or_self, Nat.zero_add, report, List.nil_append]

theorem identifierLoop_run (bs rest : Bytes) (budget : Nat) (hbs : ∀ x ∈ bs, identifierByte x)
    (hrest : ∀ x, rest.head? = some x → ¬ identifierByte x) (hn : bs.length ≤ budget) :
    identifierLoop (bs ++ rest) budget 0 = .ok bs.length := by
  induction bs generalizing budget with
  | nil =>
    have hc : identifierCond rest 0 = .ok false := by
      unfold identifierCond
      cases rest with
      | nil => simp
      | cons x xs =>
        have := hrest x rfl
        unfold identifierByte at this
        simp [index_zero, this]
    cases budget <;> simp [identifierLoop, hc]
  | cons x xs ih =>
    obtain ⟨n, rfl⟩ : ∃ n, budget = n + 1 := ⟨budget - 1, by simp at hn; omega⟩
    have hx := hbs x (by simp)
    unfold identifierByte at hx
    have hc : identifierCond (x :: xs ++ rest) 0 = .ok true := by
      unfold identifierCond
      simp [index_zero, hx]
    rw [identifierLoop, hc]
    have := identifierLoop_append_right [x] (xs ++ rest) n 0
    simp only [List.length_singleton, List.singleton_append, Nat.add_zero] at this
    simp only [List.cons_append, Nat.zero_add]
    rw [this, ih n (fun y hy => hbs y (by simp [hy])) (by simp at hn; omega)]
    simp [shiftCursor, Nat.add_comm]

theorem reserved_keyword (w : Bytes) (k : TokenType) (name : String)
    (h : (w, k, name) ∈ keywords) : reserved w = some ⟨k, name, w, none⟩ := by
  have hall : ∀ p ∈ keywords, reserved p.1 = some ⟨p.2.1, p.2.2, p.1, none⟩ := by decide
  exact hall _ h

theorem reserved_other (w : Bytes) (h : ∀ k name, (w, k, name) ∉ keywords) :
    reserved w = none := by
  unfold reserved
  rw [List.lookup_eq_none_iff]
  intro p hp
  have hmem : ∀ q ∈ reservedTable, q.1 ∈ keywords.map (fun e => e.1) := by decide
  obtain ⟨⟨w1, k, name⟩, hk, hw1⟩ := List.mem_map.1 (hmem p hp)
  simp only at hw1
  subst hw1
  have : w ≠ p.1 := by
    intro heq
    rw [← heq] at hk
    exact h k name hk
  simpa using this

theorem scanStep_word (sc : Strconv) (b : Nat) (bs rest : Bytes)
    (hb : (97 ≤ b ∧ b ≤ 122) ∨ (65 ≤ b ∧ b ≤ 90) ∨ b = 95)
    (hbs : ∀ x ∈ bs, identifierByte x)
    (hrest : ∀ x, rest.head? = some x → ¬ identifierByte x) :
    scanStep sc (b :: (bs ++ rest)) ⟨0, 0, [], []⟩ =
      .ok ⟨bs.length + 1, 0,
        [(reserved (b :: bs)).getD ⟨.IDENTIFIER, "IDENTIFIER", b :: bs, none⟩], []⟩ := by
  have hsw : b ∉ switchBytes := by
    simp only [switchBytes, List.mem_cons, List.mem_nil_iff, or_false, not_or]
    omega
  have hnd : ¬ (48 ≤ b ∧ b ≤ 57) := by omega
  rw [scanStep_default sc b _ hsw, if_neg hnd, if_pos hb]
  rw [scanIdentifier_eq _ _ _ Nat.one_pos]
  have hloop : identifierLoop (b :: (bs ++ rest)) ((b :: (bs ++ rest)).length - 1) 1 =
      .ok (bs.length + 1) := by
    have := identifierLoop_append_right [b] (bs ++ rest) ((b :: (bs ++ rest)).length - 1) 0
    simp only [List.length_singleton, List.singleton_append, Nat.add_zero] at this
    rw [this, identifierLoop_run bs rest _ hbs hrest (by simp)]
    simp [shiftCursor, Nat.add_comm]
  have hslice : slice (b :: (bs ++ rest)) 0 (bs.length + 1) = .ok (b :: bs) := by
    have := slice_prefix [] (b :: bs) rest
    simpa using this
  simp only [hloop, Nat.sub_self, hslice]
  cases reserved (b :: bs) with
  | none =>
    have h4 : tokens .IDENTIFIER = ⟨.IDENTIFIER, "IDENTIFIER", [], none⟩ := by decide
    simp [emit, h4]
  | some t => simp [emit]

theorem numberPass_stop (rest : Bytes) (hrest : ∀ x, rest.head? = some x → ¬ digitByte x) :
    numberPass rest 0 true = .ok none := by
  unfold numberPass
  cases rest with
  | nil => simp
  | cons x xs =>
    have := hrest x rfl
    unfold digitByte at this
    by_cases h46 : x = 46
    · simp [index_zero, h46]
    · simp [index_zero, this, h46]

theorem numberLoop_trailing_dot (ds rest : Bytes) (budget : Nat)
    (hds : ∀ x ∈ ds, digitByte x) (hrest : ∀ x, rest.head? = some x → ¬ digitByte x)
    (hn : ds.length + 1 ≤ budget) :
    numberLoop (ds ++ 46 :: rest) budget 0 false = .ok (ds.length + 1, true) := by
  induction ds generalizing budget with
  | nil =>
    obtain ⟨n, rfl⟩ : ∃ n, budget = n + 1 := ⟨budget - 1, by simp at hn; omega⟩
    have hp : numberPass (46 :: rest) 0 false = .ok (some (1, true)) := by
      simp [numberPass, index_zero]
    have := numberLoop_append_right [46] rest n 0 true
    simp only [List.length_singleton, List.singleton_append, Nat.add_zero] at this
    rw [List.nil_append, numberLoop, hp]
    simp only []
    rw [this]
    have hstop := numberPass_stop rest hrest
    cases n <;> simp [numberLoop, hstop, shiftPair]
  | cons x xs ih =>
    obtain ⟨n, rfl⟩ : ∃ n, budget = n + 1 := ⟨budget - 1, by simp at hn; omega⟩
    have hx := hds x (by simp)
    unfold digitByte at hx
    have hx46 : x ≠ 46 := by omega
    have hp : numberPass (x :: (xs ++ 46 :: rest)) 0 false = .ok (some (1, false)) := by
      simp [numberPass, index_zero, hx, hx46]
    have := numberLoop_append_right [x] (xs ++ 46 :: rest) n 0 false
    simp only [List.length_singleton, List.singleton_append, Nat.add_zero] at this
    rw [List.cons_append, numberLoop, hp]
    simp only []
    rw [this, ih n (fun y hy => hds y (by simp [hy])) (by simp at hn; omega)]
    simp [shiftPair, Nat.add_comm]

theorem index_append_length (pre rest : Bytes) (b : Nat) :
    index (pre ++ b :: rest) pre.length = .ok b := by
  have := index_append_right pre (b :: rest) 0
  rw [Nat.add_zero, index_zero] at this
  exact this

theorem scanStep_number_dot (sc : Strconv) (b : Nat) (ds rest : Bytes) (v : sc.Float64)
    (hb : digitByte b) (hds : ∀ x ∈ ds, digitByte x)
    (hv : sc.ParseFloat (b :: ds) = some v)
    (hrest : ∀ x, rest.head? = some x → ¬ digitByte x) :
    scanStep sc (b :: (ds ++ 46 :: rest)) ⟨0, 0, [], []⟩ =
      .ok ⟨ds.length + 1, 0, [⟨.NUMBER, "NUMBER", b :: ds, some (formatFloat sc v)⟩], []⟩ := by
  have hb1 := hb
  unfold digitByte at hb1
  have hsw : b ∉ switchBytes := by
    simp only [switchBytes, List.mem_cons, List.mem_nil_iff, or_false, not_or]
    omega
  rw [scanStep_default sc b _ hsw, if_pos hb1]
  rw [scanNumber_eq _ _ _ _ Nat.one_pos]
  have hloop : numberLoop (b :: (ds ++ 46 :: rest)) ((b :: (ds ++ 46 :: rest)).length - 1) 1
      false = .ok (ds.length + 2, true) := by
    have := numberLoop_append_right [b] (ds ++ 46 :: rest)
      ((b :: (ds ++ 46 :: rest)).length - 1) 0 false
    simp only [List.length_singleton, List.singleton_append, Nat.add_zero] at this
    rw [this, numberLoop_trailing_dot ds rest _ hds hrest (by simp)]
    simp [shiftPair]
    omega
  have hlast : index (b :: (ds ++ 46 :: rest)) (ds.length + 2 - 1) = .ok 46 := by
    have := index_append_length (b :: ds) rest 46
    simpa using this
  have hslice : slice (b :: (ds ++ 46 :: rest)) 0 (ds.length + 1) = .ok (b :: ds) := by
    have := slice_prefix [] (b :: ds) (46 :: rest)
    simpa using this
  have h4 : tokens .NUMBER = ⟨.NUMBER, "NUMBER", [], some []⟩ := by decide
  have h21 : ds.length + 2 - 1 = ds.length + 1 := by omega
  rw [h21] at hlast
  simp only [hloop, hlast, if_true, Nat.sub_self, Nat.add_sub_cancel, h21, hslice, hv, emit,
    h4, List.nil_append]

theorem scanStep_dot (sc : Strconv) (rest : Bytes) :
    scanStep sc (46 :: rest) ⟨0, 0, [], []⟩ = .ok ⟨1, 0, [⟨.DOT, "DOT", [46], none⟩], []⟩ := by
  have h4 : tokens .DOT = ⟨.DOT, "DOT", [46], none⟩ := by decide
  simp [scanStep, index_zero, emit, h4]

theorem Tokenize_number_dot_general (sc : Strconv) (b : Nat) (ds rest : Bytes) (v : sc.Float64)
    (hb : digitByte b) (hds : ∀ x ∈ ds, digitByte x)
    (hv : sc.ParseFloat (b :: ds) = some v)
    (hrest : ∀ x, rest.head? = some x → ¬ digitByte x) :
    ∃ r, Tokenize sc rest = .ok r ∧
      Tokenize sc (b :: (ds ++ 46 :: rest)) =
        .ok ⟨⟨.NUMBER, "NUMBER", b :: ds, some (formatFloat sc v)⟩ ::
          ⟨.DOT, "DOT", [46], none⟩ :: r.tokens, r.failed, r.errors⟩ := by
  obtain ⟨r, hr, h1⟩ := Tokenize_cons_token sc [46] rest _ (scanStep_dot sc rest)
  obtain ⟨r1, hr1, h2⟩ := Tokenize_cons_token sc (b :: ds) (46 :: rest) _
    (by simpa using scanStep_number_dot sc b ds rest v hb hds hv hrest)
  refine ⟨r, hr, ?_⟩
  simp only [List.singleton_append] at h1
  rw [h1] at hr1
  simp only [Except.ok.injEq] at hr1
  subst hr1
  simpa using h2

theorem scanStep_unexpected (sc : Strconv) (b : Nat) (rest : Bytes) (hsw : b ∉ switchBytes)
    (hd : ¬ digitByte b) (hl : ¬ ((97 ≤ b ∧ b ≤ 122) ∨ (65 ≤ b ∧ b ≤ 90) ∨ b = 95)) :
    scanStep sc (b :: rest) ⟨0, 0, [], []⟩ =
      .ok ⟨1, 0, [], [⟨1, "Unexpected character", byteToString b⟩]⟩ := by
  unfold digitByte at hd
  rw [scanStep_default sc b rest hsw, if_neg hd, if_neg hl]

theorem decimalAux_acc (budget n : Nat) (acc : Bytes) (h : n < budget) :
    decimalAux budget n acc = decimalAux budget n [] ++ acc := by
  induction budget generalizing n acc with
  | zero => omega
  | succ b ih =>
    rw [decimalAux, decimalAux]
    by_cases h10 : n < 10
    · simp [h10]
    · have hlt : n / 10 < b := by omega
      rw [if_neg h10, if_neg h10, ih (n / 10) _ hlt, ih (n / 10) [48 + n % 10] hlt]
      simp

theorem decimalAux_budget (b1 b2 n : Nat) (h1 : n < b1) (h2 : n < b2) :
    decimalAux b1 n [] = decimalAux b2 n [] := by
  induction b1 generalizing n b2 with
  | zero => omega
  | succ b ih =>
    obtain ⟨c, rfl⟩ : ∃ c, b2 = c + 1 := ⟨b2 - 1, by omega⟩
    rw [decimalAux, decimalAux]
    by_cases h10 : n < 10
    · simp [h10]
    · have hb : n / 10 < b := by omega
      have hc : n / 10 < c := by omega
      rw [if_neg h10, if_neg h10, decimalAux_acc b _ _ hb, decimalAux_acc c _ _ hc,
        ih c (n / 10) hb hc]

theorem decimal_lt (n : Nat) (h : n < 10) : decimal n = [48 + n] := by
  simp [decimal, decimalAux, h]

theorem decimal_ge (n : Nat) (h : 10 ≤ n) : decimal n = decimal (n / 10) ++ [48 + n % 10] := by
  have h10 : ¬ n < 10 := by omega
  unfold decimal
  rw [decimalAux, if_neg h10, decimalAux_acc _ _ _ (by omega),
    decimalAux_budget n (n / 10 + 1) (n / 10) (by omega) (by omega)]

theorem decimal_digits (n : Nat) : ∀ x ∈ decimal n, digitByte x := by
  induction n using Nat.strong_induction_on with
  | _ n ih =>
    by_cases h : n < 10
    · rw [decimal_lt n h]
      intro x hx
      simp only [List.mem_singleton] at hx
      unfold digitByte
      omega
    · rw [decimal_ge n (by omega)]
      intro x hx
      simp only [List.mem_append, List.mem_singleton] at hx
      rcases hx with hx | hx
      · exact ih (n / 10) (by omega) x hx
      · unfold digitByte
        omega

theorem decimal_ne_nil (n : Nat) : decimal n ≠ [] := by
  by_cases h : n < 10
  · rw [decimal_lt n h]; simp
  · rw [decimal_ge n (by omega)]; simp

theorem digitsValue_append (ds : Bytes) (x : Nat) :
    digitsValue (ds ++ [x]) = 10 * digitsValue ds + (x - 48) := by
  simp [digitsValue, List.foldl_append]

theorem digitsValue_decimal (n : Nat) : digitsValue (decimal n) = n := by
  induction n using Nat.strong_induction_on with
  | _ n ih =>
    by_cases h : n < 10
    · rw [decimal_lt n h]
      simp [digitsValue]
    · rw [decimal_ge n (by omega), digitsValue_append, ih (n / 10) (by omega)]
      omega

/-- The length of the decimal digits: `n < 10 ^ len`, and `10 ^ (len - 1) ≤ n` for `n ≠ 0`. -/
theorem decimal_length_lt (n : Nat) : n < 10 ^ (decimal n).length := by
  induction n using Nat.strong_induction_on with
  | _ n ih =>
    by_cases h : n < 10
    · rw [decimal_lt n h]
      simpa using h
    · rw [decimal_ge n (by omega)]
      have := ih (n / 10) (by omega)
      rw [List.length_append, List.length_singleton, Nat.pow_succ]
      omega

theorem decimal_length_le (n k : Nat) (hk : 0 < k) (h : n < 10 ^ k) :
    (decimal n).length ≤ k := by
  induction n using Nat.strong_induction_on generalizing k with
  | _ n ih =>
    by_cases h10 : n < 10
    · rw [decimal_lt n h10]
      simpa using hk
    · rw [decimal_ge n (by omega), List.length_append, List.length_singleton]
      obtain ⟨j, rfl⟩ : ∃ j, k = j + 1 := ⟨k - 1, by omega⟩
      have hj : 0 < j := by
        rcases Nat.eq_zero_or_pos j with h0 | h0
        · subst h0; simp at h; omega
        · exact h0
      have := ih (n / 10) (by omega) j hj (by rw [Nat.pow_succ] at h; omega)
      omega

theorem decimal_mul_ten (n : Nat) (h : 0 < n) : decimal (n * 10) = decimal n ++ [48] := by
  rw [decimal_ge (n * 10) (by omega)]
  simp

theorem decimal_mul_pow (n k : Nat) (h : 0 < n) :
    decimal (n * 10 ^ k) = decimal n ++ List.replicate k 48 := by
  induction k with
  | zero => simp
  | succ k ih =>
    rw [Nat.pow_succ, ← Nat.mul_assoc, decimal_mul_ten _ (Nat.mul_pos h (Nat.pow_pos (by omega))),
      ih, List.append_assoc]
    congr 1
    rw [List.replicate_succ']

theorem bytesIndex_digits (ds : Bytes) (h : ∀ x ∈ ds, digitByte x) : bytesIndex ds 46 = none := by
  apply bytesIndex_none
  intro x hx
  have := h x hx
  unfold digitByte at this
  omega

theorem bitsAux_lt (budget n : Nat) (h : n ≤ budget) : n < 2 ^ bitsAux budget n := by
  induction budget generalizing n with
  | zero =>
    have : n = 0 := by omega
    subst this
    simp [bitsAux]
  | succ b ih =>
    rw [bitsAux]
    by_cases h0 : n = 0
    · simp [h0]
    · rw [if_neg h0, Nat.pow_succ]
      have := ih (n / 2) (by omega)
      omega

theorem bitsAux_le (budget n k : Nat) (h : n < 2 ^ k) : bitsAux budget n ≤ k := by
  induction budget generalizing n k with
  | zero => simp [bitsAux]
  | succ b ih =>
    rw [bitsAux]
    by_cases h0 : n = 0
    · simp [h0]
    · rw [if_neg h0]
      obtain ⟨j, rfl⟩ : ∃ j, k = j + 1 := by
        refine ⟨k - 1, ?_⟩
        rcases Nat.eq_zero_or_pos k with hk | hk
        · subst hk; simp at h; omega
        · omega
      have := ih (n / 2) j (by rw [Nat.pow_succ] at h; omega)
      omega

theorem bits_lt (n : Nat) : n < 2 ^ bits n := bitsAux_lt n n (Nat.le_refl n)

theorem bits_le (n k : Nat) (h : n < 2 ^ k) : bits n ≤ k := bitsAux_le n n k h

theorem roundHalfEven_of_dvd (num den : Nat) (hd : 0 < den) (h : den ∣ num) :
    roundHalfEven num den = num / den := by
  unfold roundHalfEven
  have hr : num % den = 0 := Nat.mod_eq_zero_of_dvd h
  simp only [hr, Nat.mul_zero]
  rw [if_neg]
  omega

theorem parseDecimal_digits (ds : Bytes) (hne : ds ≠ []) (h : ∀ x ∈ ds, digitByte x) :
    parseDecimal ds = some (digitsValue ds, 0) := by
  have h1 : ds.takeWhile (fun b => decide (digitByte b)) = ds := by
    rw [List.takeWhile_eq_self_iff]
    intro x hx
    simpa using h x hx
  have h2 : ds.dropWhile (fun b => decide (digitByte b)) = [] := by
    rw [List.dropWhile_eq_nil_iff]
    intro x hx
    simpa using h x hx
  unfold parseDecimal
  simp only [h1, h2, if_neg hne]

/-- What `ParseFloat` gives for the decimal digits of a positive integer below `2 ^ 53`:
the float64 that is that integer. -/
theorem ParseFloat_decimal (n : Nat) (h0 : 0 < n) (h53 : n < 2 ^ 53) :
    ∃ f, ParseFloat (decimal n) = some f ∧ f.mant * 2 ^ f.expo = n * 2 ^ 1074 ∧
      f.expo ≤ 1074 ∧ f.mant ≠ 0 := by
  have hp := parseDecimal_digits (decimal n) (decimal_ne_nil n) (decimal_digits n)
  rw [digitsValue_decimal] at hp
  unfold ParseFloat
  rw [hp]
  simp only [Nat.pow_zero, Nat.div_one, Nat.one_mul]
  generalize hK : (1074 : Nat) = K
  generalize hnum : n * 2 ^ K = num
  have hnum_pos : 0 < num := by
    rw [← hnum]; exact Nat.mul_pos h0 (Nat.pow_pos (by omega))
  have hnum_lt : num < 2 ^ (53 + K) := by
    rw [← hnum, Nat.pow_add]
    exact Nat.mul_lt_mul_of_pos_right h53 (Nat.pow_pos (by omega))
  have hb1 := bits_le num (53 + K) hnum_lt
  have hb2 := bits_lt num
  generalize he : bits num - 53 = e at *
  have he1 : e ≤ K := by omega
  have hdvd : 2 ^ e ∣ num := by
    rw [← hnum]
    exact Dvd.dvd.mul_left (Nat.pow_dvd_pow 2 he1) n
  have hpos : 0 < 2 ^ e := Nat.pow_pos (by omega)
  rw [roundHalfEven_of_dvd num (2 ^ e) hpos hdvd]
  have hq : num / 2 ^ e < 2 ^ 53 := by
    apply Nat.div_lt_of_lt_mul
    rw [← Nat.pow_add]
    exact Nat.lt_of_lt_of_le hb2 (Nat.pow_le_pow_right (by omega) (by omega))
  have hne : num / 2 ^ e ≠ 2 ^ 53 := Nat.ne_of_lt hq
  have hle : ¬ 2045 < e := by omega
  refine ⟨⟨num / 2 ^ e, e⟩, by simp only [if_neg hne, if_neg hle], ?_, he1, ?_⟩
  · exact Nat.div_mul_cancel hdvd
  · intro hz
    have := Nat.div_mul_cancel hdvd
    simp only at hz
    rw [hz] at this
    omega

/-- The candidates for an integer `n` whose interval holds no other integer: with `nd`
digits there is one exactly when `n` ends in `l - nd` zeros, and it is `n` without them. -/
theorem shortestAt_integer (n d t lo hi l k nd : Nat) (incl : Bool) (hd : 0 < d)
    (ht : t = 10 ^ k) (hlo1 : lo < n * d * t) (hlo2 : (n - 1) * d * t < lo)
    (hhi : hi < (n + 1) * d * t) (hn : 0 < n) (hnd : nd ≤ l) :
    shortestAt (n * d * t) lo hi d incl (l + k) nd =
      if 10 ^ (l - nd) ∣ n then some (n / 10 ^ (l - nd)) else none := by
  have htpos : 0 < t := by rw [ht]; exact Nat.pow_pos (by omega)
  generalize hw : 10 ^ (l - nd) = w
  have hwpos : 0 < w := by rw [← hw]; exact Nat.pow_pos (by omega)
  have hu : 10 ^ (l + k - nd) = w * t := by
    rw [← hw, ht, ← Nat.pow_add]
    congr 1
    omega
  generalize hX : d * t = X
  have hXpos : 0 < X := by rw [← hX]; exact Nat.mul_pos hd htpos
  have hs : n * d * t = n * X := by rw [← hX, Nat.mul_assoc]
  have hdu : d * (w * t) = w * X := by rw [← hX]; ring
  have hc : n * X / (w * X) = n / w := Nat.mul_div_mul_right n w hXpos
  rw [hs] at hlo1 ⊢
  have hlo2' : (n - 1) * X < lo := by rw [← hX, ← Nat.mul_assoc]; exact hlo2
  have hhi' : hi < (n + 1) * X := by rw [← hX, ← Nat.mul_assoc]; exact hhi
  unfold shortestAt
  simp only [hu, hdu, hc]
  have hdown : n / w * (w * t) * d = (n / w * w) * X := by rw [← hX]; ring
  have hup : (n / w + 1) * (w * t) * d = ((n / w + 1) * w) * X := by rw [← hX]; ring
  rw [hdown, hup]
  have hupgt : n + 1 ≤ (n / w + 1) * w := by
    have := Nat.lt_mul_div_succ n hwpos
    rw [Nat.mul_comm] at this
    exact this
  have hupX : (n + 1) * X ≤ ((n / w + 1) * w) * X := Nat.mul_le_mul_right X hupgt
  have hnoup : ¬ (((n / w + 1) * w) * X < hi ∨ (incl = true ∧ ((n / w + 1) * w) * X = hi)) := by
    intro h
    rcases h with h | ⟨_, h⟩ <;> omega
  by_cases hdvd : w ∣ n
  · have hcw : n / w * w = n := Nat.div_mul_cancel hdvd
    rw [hcw, if_pos hdvd]
    have hok : lo < n * X ∨ (incl = true ∧ lo = n * X) := Or.inl hlo1
    rw [if_neg (fun h => hnoup h.2), if_pos hok]
  · have hcw : n / w * w ≤ n - 1 := by
      have h1 := Nat.div_mul_le_self n w
      have h2 : n / w * w ≠ n := by
        intro heq
        exact hdvd ⟨n / w, by rw [Nat.mul_comm]; exact heq.symm⟩
      omega
    have hdownX : (n / w * w) * X ≤ (n - 1) * X := Nat.mul_le_mul_right X hcw
    have hnodown : ¬ (lo < (n / w * w) * X ∨ (incl = true ∧ lo = (n / w * w) * X)) := by
      intro h
      rcases h with h | ⟨_, h⟩ <;> omega
    rw [if_neg hdvd, if_neg (fun h => hnodown h.1), if_neg hnodown, if_neg hnoup]

theorem shortest_integer (n d t lo hi l k : Nat) (incl : Bool) (hd : 0 < d)
    (ht : t = 10 ^ k) (hlo1 : lo < n * d * t) (hlo2 : (n - 1) * d * t < lo)
    (hhi : hi < (n + 1) * d * t) (hn : 0 < n) (j budget nd : Nat) (hj : nd + j = l)
    (hb : j < budget) :
    ∃ c nd1, shortest (n * d * t) lo hi d incl (l + k) budget nd = some (c, nd1) ∧
      nd1 ≤ l ∧ c * 10 ^ (l - nd1) = n := by
  induction j generalizing budget nd with
  | zero =>
    obtain ⟨b, rfl⟩ : ∃ b, budget = b + 1 := ⟨budget - 1, by omega⟩
    have hnd : nd = l := by omega
    subst hnd
    rw [shortest, shortestAt_integer n d t lo hi nd k nd incl hd ht hlo1 hlo2 hhi hn
      (Nat.le_refl _)]
    simp only [Nat.sub_self, Nat.pow_zero, Nat.one_dvd, if_true, Nat.div_one]
    exact ⟨n, nd, rfl, Nat.le_refl _, by simp⟩
  | succ j ih =>
    obtain ⟨b, rfl⟩ : ∃ b, budget = b + 1 := ⟨budget - 1, by omega⟩
    rw [shortest, shortestAt_integer n d t lo hi l k nd incl hd ht hlo1 hlo2 hhi hn (by omega)]
    by_cases hdvd : 10 ^ (l - nd) ∣ n
    · rw [if_pos hdvd]
      exact ⟨_, nd, rfl, by omega, Nat.div_mul_cancel hdvd⟩
    · rw [if_neg hdvd]
      exact ih b (nd + 1) (by omega) (by omega)

set_option exponentiation.threshold 2000 in
/-- What `FormatFloat` gives for a float64 that is a positive integer `n` of at most 17
digits, when the next float64 on either side is at most 1 away: the decimal digits of `n`. -/
theorem FormatFloat_integer (f : Float64) (n : Nat) (h0 : 0 < n)
    (hlen : (decimal n).length ≤ 17) (hval : f.mant * 2 ^ f.expo = n * 2 ^ 1074)
    (he : f.expo ≤ 1074) (hm : f.mant ≠ 0) : FormatFloat f = decimal n := by
  have hV : f.mant * 2 ^ (f.expo + 2) = n * 2 ^ 1076 := by
    have h1 : f.mant * 2 ^ (f.expo + 2) = f.mant * 2 ^ f.expo * 2 ^ 2 := by
      rw [Nat.pow_add, ← Nat.mul_assoc]
    have e : ∀ a b : Nat, b = a + 2 → n * 2 ^ b = n * 2 ^ a * 2 ^ 2 := by
      intro a b h
      subst h
      rw [Nat.pow_add, Nat.mul_assoc]
    have h2 : n * 2 ^ 1076 = n * 2 ^ 1074 * 2 ^ 2 := e 1074 1076 rfl
    exact h1.trans ((congrArg (fun x => x * 2 ^ 2) hval).trans h2.symm)
  have hh : 2 ^ (f.expo + 1) < 2 ^ 1076 := Nat.pow_lt_pow_right (by omega) (by omega)
  have ha : 2 ^ f.expo < 2 ^ 1076 := Nat.pow_lt_pow_right (by omega) (by omega)
  have hhpos : 0 < 2 ^ (f.expo + 1) := Nat.pow_pos (by omega)
  have hapos : 0 < 2 ^ f.expo := Nat.pow_pos (by omega)
  have hDpos : 0 < 2 ^ 1076 := Nat.pow_pos (by omega)
  unfold FormatFloat
  rw [if_neg hm]
  simp only [hV]
  generalize (2 : Nat) ^ 1076 = D at *
  generalize (2 : Nat) ^ (f.expo + 1) = h at *
  generalize (2 : Nat) ^ f.expo = a at *
  generalize hk : (400 : Nat) = k
  have hTpos : 0 < 10 ^ k := Nat.pow_pos (by omega)
  have hnD : D ≤ n * D := Nat.le_mul_of_pos_left D h0
  have hn1 : (n - 1) * D = n * D - D := Nat.sub_one_mul n D
  have hn2 : (n + 1) * D = n * D + D := Nat.succ_mul n D
  have hsd : n * D * 10 ^ k / D = n * 10 ^ k := by
    rw [Nat.mul_right_comm, Nat.mul_div_cancel _ hDpos]
  have hp : (decimal (n * D * 10 ^ k / D)).length = (decimal n).length + k := by
    rw [hsd, decimal_mul_pow n k h0, List.length_append, List.length_replicate]
  rw [hp]
  have hLpos : 0 < (decimal n).length := List.length_pos.2 (decimal_ne_nil n)
  have hhi : (n * D + h) * 10 ^ k < (n + 1) * D * 10 ^ k :=
    Nat.mul_lt_mul_of_pos_right (by omega) hTpos
  have key : ∀ lo, lo < n * D * 10 ^ k → (n - 1) * D * 10 ^ k < lo →
      (match shortest (n * D * 10 ^ k) lo ((n * D + h) * 10 ^ k) D (decide (f.mant % 2 = 0))
          ((decimal n).length + k) 17 1 with
        | none => []
        | some (c, nd) =>
          if k ≤ (decimal n).length + k - nd then
            decimal (c * 10 ^ ((decimal n).length + k - nd - k))
          else
            if trimRight (padLeft (k - ((decimal n).length + k - nd))
                (decimal (c % 10 ^ (k - ((decimal n).length + k - nd))))) = [] then
              decimal (c / 10 ^ (k - ((decimal n).length + k - nd)))
            else
              decimal (c / 10 ^ (k - ((decimal n).length + k - nd))) ++
                46 :: trimRight (padLeft (k - ((decimal n).length + k - nd))
                  (decimal (c % 10 ^ (k - ((decimal n).length + k - nd)))))) = decimal n := by
    intro lo hlo1 hlo2
    obtain ⟨c, nd1, hs, hnd1, hc⟩ := shortest_integer n D (10 ^ k) lo ((n * D + h) * 10 ^ k)
      (decimal n).length k (decide (f.mant % 2 = 0)) hDpos rfl hlo1 hlo2 hhi h0
      ((decimal n).length - 1) 17 1 (by omega) (by omega)
    rw [hs]
    simp only []
    rw [if_pos (by omega), show (decimal n).length + k - nd1 - k = (decimal n).length - nd1 by
      omega, hc]
  by_cases hpow : f.mant = 2 ^ 52 ∧ 0 < f.expo
  · simp only [if_pos hpow]
    exact key _ (Nat.mul_lt_mul_of_pos_right (by omega) hTpos)
      (Nat.mul_lt_mul_of_pos_right (by omega) hTpos)
  · simp only [if_neg hpow]
    exact key _ (Nat.mul_lt_mul_of_pos_right (by omega) hTpos)
      (Nat.mul_lt_mul_of_pos_right (by omega) hTpos)

theorem index_mem {s : Bytes} {i x : Nat} (h : index s i = .ok x) : x ∈ s := by
  unfold index at h
  cases hg : s[i]? with
  | none => rw [hg] at h; simp at h
  | some y =>
    rw [hg] at h
    simp only [Except.ok.injEq] at h
    subst h
    exact List.getElem?_mem hg

theorem numberLoop_digits (ds : Bytes) (budget : Nat) (flag : Bool)
    (hds : ∀ x ∈ ds, digitByte x) (hn : ds.length ≤ budget) :
    numberLoop ds budget 0 flag = .ok (ds.length, flag) := by
  induction ds generalizing budget with
  | nil => cases budget <;> simp [numberLoop, numberPass]
  | cons x xs ih =>
    obtain ⟨n, rfl⟩ : ∃ n, budget = n + 1 := ⟨budget - 1, by simp at hn; omega⟩
    have hx := hds x (by simp)
    unfold digitByte at hx
    have hx46 : x ≠ 46 := by omega
    have hp : numberPass (x :: xs) 0 flag = .ok (some (1, flag)) := by
      simp [numberPass, index_zero, hx, hx46]
    have := numberLoop_append_right [x] xs n 0 flag
    simp only [List.length_singleton, List.singleton_append, Nat.add_zero] at this
    rw [numberLoop, hp]
    simp only []
    rw [this, ih n (fun y hy => hds y (by simp [hy])) (by simp at hn; omega)]
    simp [shiftPair, Nat.add_comm]

theorem scanStep_digits (sc : Strconv) (b : Nat) (ds : Bytes) (v : sc.Float64)
    (hb : digitByte b) (hds : ∀ x ∈ ds, digitByte x) (hv : sc.ParseFloat (b :: ds) = some v) :
    scanStep sc (b :: ds) ⟨0, 0, [], []⟩ =
      .ok ⟨ds.length + 1, 0, [⟨.NUMBER, "NUMBER", b :: ds, some (formatFloat sc v)⟩], []⟩ := by
  have hb1 := hb
  unfold digitByte at hb1
  have hsw : b ∉ switchBytes := by
    simp only [switchBytes, List.mem_cons, List.mem_nil_iff, or_false, not_or]
    omega
  rw [scanStep_default sc b _ hsw, if_pos hb1]
  rw [scanNumber_eq _ _ _ _ Nat.one_pos]
  have hloop : numberLoop (b :: ds) ((b :: ds).length - 1) 1 false =
      .ok (ds.length + 1, false) := by
    have := numberLoop_append_right [b] ds ((b :: ds).length - 1) 0 false
    simp only [List.length_singleton, List.singleton_append, Nat.add_zero] at this
    rw [this, numberLoop_digits ds _ false hds (by simp)]
    simp [shiftPair, Nat.add_comm]
  obtain ⟨last, hlast⟩ := index_of_lt (show ds.length + 1 - 1 < (b :: ds).length by simp)
  have hl46 : last ≠ 46 := by
    have hmem := index_mem hlast
    have : digitByte last := by
      simp only [List.mem_cons] at hmem
      rcases hmem with h | h
      · rw [h]; exact hb
      · exact hds _ h
    unfold digitByte at this
    omega
  have hslice : slice (b :: ds) 0 (ds.length + 1) = .ok (b :: ds) := by
    have := slice_prefix [] (b :: ds) []
    simpa using this
  have h4 : tokens .NUMBER = ⟨.NUMBER, "NUMBER", [], some []⟩ := by decide
  simp only [hloop, hlast, if_neg hl46, Nat.sub_self, hslice, hv, emit, h4, List.nil_append]

theorem Tokenize_digits (sc : Strconv) (b : Nat) (ds : Bytes) (v : sc.Float64)
    (hb : digitByte b) (hds : ∀ x ∈ ds, digitByte x) (hv : sc.ParseFloat (b :: ds) = some v) :
    Tokenize sc (b :: ds) =
      .ok ⟨[⟨.NUMBER, "NUMBER", b :: ds, some (formatFloat sc v)⟩, ⟨.EOF, "EOF", [], none⟩],
        false, []⟩ := by
  have := Tokenize_append sc (b :: ds) [] 0 _ []
    (by simpa using scanStep_digits sc b ds v hb hds hv)
  rw [List.append_nil] at this
  rw [this]
  rfl

/-- With Go's `strconv`, the decimal digits of an integer below `2 ^ 53` give one `NUMBER`
token whose literal is the digits followed by `.0`. -/
theorem Tokenize_decimal (n : Nat) (h53 : n < 2 ^ 53) :
    Tokenize strconv (decimal n) =
      .ok ⟨[⟨.NUMBER, "NUMBER", decimal n, some (decimal n ++ str ".0")⟩,
        ⟨.EOF, "EOF", [], none⟩], false, []⟩ := by
  have hdig := decimal_digits n
  have hnodot : containsDot (decimal n) = false := by
    unfold containsDot
    rw [bytesIndex_digits _ hdig]
    rfl
  obtain ⟨b, ds, hbd⟩ : ∃ b ds, decimal n = b :: ds := by
    cases hd : decimal n with
    | nil => exact absurd hd (decimal_ne_nil n)
    | cons b ds => exact ⟨b, ds, rfl⟩
  have hb : digitByte b := hdig b (by rw [hbd]; simp)
  have hds : ∀ x ∈ ds, digitByte x := fun x hx => hdig x (by rw [hbd]; simp [hx])
  have hfmt : ∃ v : Float64, ParseFloat (decimal n) = some v ∧ FormatFloat v = decimal n := by
    rcases Nat.eq_zero_or_pos n with hz | hpos
    · subst hz
      exact ⟨⟨0, 0⟩, by decide!, by decide!⟩
    · obtain ⟨f, hf, hval, he, hm⟩ := ParseFloat_decimal n hpos h53
      have hlen : (decimal n).length ≤ 17 :=
        decimal_length_le n 17 (by omega) (Nat.lt_of_lt_of_le h53 (by decide))
      exact ⟨f, hf, FormatFloat_integer f n hpos hlen hval he hm⟩
  obtain ⟨v, hv, hfv⟩ := hfmt
  have hff : formatFloat strconv v = decimal n ++ str ".0" := by
    show (if (!containsDot (FormatFloat v)) = true then FormatFloat v ++ str ".0"
      else FormatFloat v) = _
    rw [hfv, hnodot]
    rfl
  rw [hbd] at hv hff ⊢
  rw [← hff]
  exact Tokenize_digits strconv b ds v hb hds hv

theorem matchEqualVariants_emits (Q : Token → Prop) (st : ScanState) (fc : Bytes) (c : Nat)
    (a b : Token) (ha : Q a) (hb : Q b) :
    EmitsOnly Q st
      (match matchEqualVariants st.parsedTokens fc c a b with
      | .error e => .error e
      | .ok (cursor, parsedTokens) =>
        .ok { st with cursor := cursor, parsedTokens := parsedTokens }) := by
  unfold matchEqualVariants
  intro st1 h1
  by_cases hc : c < fc.length
  · rw [if_pos hc] at h1
    cases hi : index fc c with
    | error e => rw [hi] at h1; simp at h1
    | ok x =>
      rw [hi] at h1
      by_cases hx : x = 61
      · simp only [hx, if_true, Except.ok.injEq] at h1
        subst h1
        exact Or.inr ⟨b, hb, rfl⟩
      · simp only [hx, if_false, Except.ok.injEq] at h1
        subst h1
        exact Or.inr ⟨a, ha, rfl⟩
  · simp only [if_neg hc, Except.ok.injEq] at h1
    subst h1
    exact Or.inr ⟨a, ha, rfl⟩

theorem scanString_emits (Q : Token → Prop) (fc : Bytes) (st : ScanState) (c : Nat)
    (hpos : 0 < c)
    (hstr : ∀ lexeme value,
      Q { tokens .STRING with lexeme := lexeme, literal := some value }) :
    EmitsOnly Q st (scanString fc st c) := by
  rw [scanString_eq _ _ _ hpos]
  intro st1 h1
  cases hs : sliceFrom fc c with
  | error e => rw [hs] at h1; simp at h1
  | ok tail =>
    rw [hs] at h1
    simp only [] at h1
    cases hi : bytesIndex tail 34 with
    | none =>
      rw [hi] at h1
      simp only [Except.ok.injEq] at h1
      subst h1
      exact Or.inl rfl
    | some i =>
      rw [hi] at h1
      simp only [] at h1
      cases h2 : slice fc c (c + i) with
      | error e => rw [h2] at h1; simp at h1
      | ok value =>
        rw [h2] at h1
        simp only [] at h1
        cases h3 : slice fc (c - 1) (c + i + 1) with
        | error e => rw [h3] at h1; simp at h1
        | ok vq =>
          rw [h3] at h1
          simp only [Except.ok.injEq] at h1
          subst h1
          exact Or.inr ⟨_, hstr vq value, rfl⟩

theorem scanNumber_emits (sc : Strconv) (Q : Token → Prop) (fc : Bytes) (st : ScanState)
    (c : Nat) (hpos : 0 < c)
    (hnum : ∀ lexeme v, sc.ParseFloat lexeme = some v →
      Q { tokens .NUMBER with lexeme := lexeme, literal := some (formatFloat sc v) }) :
    EmitsOnly Q st (scanNumber sc fc st c) := by
  rw [scanNumber_eq _ _ _ _ hpos]
  intro st1 h1
  cases hl : numberLoop fc (fc.length - c) c false with
  | error e => rw [hl] at h1; simp at h1
  | ok r =>
    obtain ⟨c1, d1⟩ := r
    rw [hl] at h1
    simp only [] at h1
    cases hi : index fc (c1 - 1) with
    | error e => rw [hi] at h1; simp at h1
    | ok last =>
      rw [hi] at h1
      simp only [] at h1
      cases h2 : slice fc (c - 1) (if last = 46 then c1 - 1 else c1) with
      | error e => rw [h2] at h1; simp at h1
      | ok lexeme =>
        rw [h2] at h1
        simp only [] at h1
        cases hp : sc.ParseFloat lexeme with
        | none =>
          rw [hp] at h1
          simp only [Except.ok.injEq] at h1
          subst h1
          exact Or.inl rfl
        | some v =>
          rw [hp] at h1
          simp only [Except.ok.injEq] at h1
          subst h1
          exact Or.inr ⟨_, hnum lexeme v hp, rfl⟩

theorem scanIdentifier_emits (Q : Token → Prop) (fc : Bytes) (st : ScanState) (c : Nat)
    (hpos : 0 < c)
    (hres : ∀ text t, reserved text = some t → Q t)
    (hid : ∀ text, Q { tokens .IDENTIFIER with lexeme := text }) :
    EmitsOnly Q st (scanIdentifier fc st c) := by
  rw [scanIdentifier_eq _ _ _ hpos]
  intro st1 h1
  cases hl : identifierLoop fc (fc.length - c) c with
  | error e => rw [hl] at h1; simp at h1
  | ok c1 =>
    rw [hl] at h1
    simp only [] at h1
    cases h2 : slice fc (c - 1) c1 with
    | error e => rw [h2] at h1; simp at h1
    | ok text =>
      rw [h2] at h1
      simp only [] at h1
      cases hr : reserved text with
      | none =>
        rw [hr] at h1
        simp only [Except.ok.injEq] at h1
        subst h1
        exact Or.inr ⟨_, hid text, rfl⟩
      | some t =>
        rw [hr] at h1
        simp only [Except.ok.injEq] at h1
        subst h1
        exact Or.inr ⟨t, hres text t hr, rfl⟩

/-- Every token that an iteration of the scan loop appends is a token of the table
`tokens` other than the four templates, a string token, a number token whose lexeme
`ParseFloat` reads, a reserved word or an identifier token. -/
theorem scanStep_emits (sc : Strconv) (fc : Bytes) (st : ScanState) (Q : Token → Prop)
    (hfixed : ∀ k, k ≠ .NUMBER → k ≠ .STRING → k ≠ .IDENTIFIER → k ≠ .EOF → Q (tokens k))
    (hstr : ∀ lexeme value,
      Q { tokens .STRING with lexeme := lexeme, literal := some value })
    (hnum : ∀ lexeme v, sc.ParseFloat lexeme = some v →
      Q { tokens .NUMBER with lexeme := lexeme, literal := some (formatFloat sc v) })
    (hres : ∀ text t, reserved text = some t → Q t)
    (hid : ∀ text, Q { tokens .IDENTIFIER with lexeme := text }) :
    EmitsOnly Q st (scanStep sc fc st) := by
  unfold scanStep
  cases index fc st.cursor with
  | error e => intro st1 h1; simp at h1
  | ok token =>
    simp only []
    by_cases h : token = 10
    · rw [if_pos h]
      intro st1 h1
      simp only [Except.ok.injEq] at h1
      subst h1
      exact Or.inl rfl
    rw [if_neg h]
    clear h
    by_cases h : token = 32 ∨ token = 13 ∨ token = 9
    · rw [if_pos h]
      intro st1 h1
      simp only [Except.ok.injEq] at h1
      subst h1
      exact Or.inl rfl
    rw [if_neg h]
    clear h
    by_cases h : token = 40
    · rw [if_pos h]
      intro st1 h1
      simp only [Except.ok.injEq] at h1
      subst h1
      exact Or.inr ⟨_, hfixed .LEFT_PAREN (by decide) (by decide) (by decide) (by decide), rfl⟩
    rw [if_neg h]
    clear h
    by_cases h : token = 41
    · rw [if_pos h]
      intro st1 h1
      simp only [Except.ok.injEq] at h1
      subst h1
      exact Or.inr ⟨_, hfixed .RIGHT_PAREN (by decide) (by decide) (by decide) (by decide), rfl⟩
    rw [if_neg h]
    clear h
    by_cases h : token = 123
    · rw [if_pos h]
      intro st1 h1
      simp only [Except.ok.injEq] at h1
      subst h1
      exact Or.inr ⟨_, hfixed .LEFT_BRACE (by decide) (by decide) (by decide) (by decide), rfl⟩
    rw [if_neg h]
    clear h
    by_cases h : token = 125
    · rw [if_pos h]
      intro st1 h1
      simp only [Except.ok.injEq] at h1
      subst h1
      exact Or.inr ⟨_, hfixed .RIGHT_BRACE (by decide) (by decide) (by decide) (by decide), rfl⟩
    rw [if_neg h]
    clear h
    by_cases h : token = 44
    · rw [if_pos h]
      intro st1 h1
      simp only [Except.ok.injEq] at h1
      subst h1
      exact Or.inr ⟨_, hfixed .COMMA (by decide) (by decide) (by decide) (by decide), rfl⟩
    rw [if_neg h]
    clear h
    by_cases h : token = 46
    · rw [if_pos h]
      intro st1 h1
      simp only [Except.ok.injEq] at h1
      subst h1
      exact Or.inr ⟨_, hfixed .DOT (by decide) (by decide) (by decide) (by decide), rfl⟩
    rw [if_neg h]
    clear h
    by_cases h : token = 45
    · rw [if_pos h]
      intro st1 h1
      simp only [Except.ok.injEq] at h1
      subst h1
      exact Or.inr ⟨_, hfixed .MINUS (by decide) (by decide) (by decide) (by decide), rfl⟩
    rw [if_neg h]
    clear h
    by_cases h : token = 43
    · rw [if_pos h]
      intro st1 h1
      simp only [Except.ok.injEq] at h1
      subst h1
      exact Or.inr ⟨_, hfixed .PLUS (by decide) (by decide) (by decide) (by decide), rfl⟩
    rw [if_neg h]
    clear h
    by_cases h : token = 59
    · rw [if_pos h]
      intro st1 h1
      simp only [Except.ok.injEq] at h1
      subst h1
      exact Or.inr ⟨_, hfixed .SEMICOLON (by decide) (by decide) (by decide) (by decide), rfl⟩
    rw [if_neg h]
    clear h
    by_cases h : token = 42
    · rw [if_pos h]
      intro st1 h1
      simp only [Except.ok.injEq] at h1
      subst h1
      exact Or.inr ⟨_, hfixed .STAR (by decide) (by decide) (by decide) (by decide), rfl⟩
    rw [if_neg h]
    clear h
    by_cases h : token = 61
    · rw [if_pos h]
      exact matchEqualVariants_emits Q st _ _ _ _
        (hfixed .EQUAL (by decide) (by decide) (by decide) (by decide))
        (hfixed .EQUAL_EQUAL (by decide) (by decide) (by decide) (by decide))
    rw [if_neg h]
    clear h
    by_cases h : token = 33
    · rw [if_pos h]
      exact matchEqualVariants_emits Q st _ _ _ _
        (hfixed .BANG (by decide) (by decide) (by decide) (by decide))
        (hfixed .BANG_EQUAL (by decide) (by decide) (by decide) (by decide))
    rw [if_neg h]
    clear h
    by_cases h : token = 60
    · rw [if_pos h]
      exact matchEqualVariants_emits Q st _ _ _ _
        (hfixed .LESS (by decide) (by decide) (by decide) (by decide))
        (hfixed .LESS_EQUAL (by decide) (by decide) (by decide) (by decide))
    rw [if_neg h]
    clear h
    by_cases h : token = 62
    · rw [if_pos h]
      exact matchEqualVariants_emits Q st _ _ _ _
        (hfixed .GREATER (by decide) (by decide) (by decide) (by decide))
        (hfixed .GREATER_EQUAL (by decide) (by decide) (by decide) (by decide))
    rw [if_neg h]
    clear h
    by_cases h : token = 47
    · rw [if_pos h]
      by_cases hc : st.cursor + 1 < fc.length
      · rw [if_pos hc]
        cases index fc (st.cursor + 1) with
        | error e => intro st1 h1; simp at h1
        | ok next =>
          simp only []
          by_cases hn : next = 47
          · rw [if_pos hn]
            cases sliceFrom fc (st.cursor + 1) with
            | error e => intro st1 h1; simp at h1
            | ok tail =>
              simp only []
              cases bytesIndex tail 10 with
              | none =>
                intro st1 h1
                simp only [Except.ok.injEq] at h1
                subst h1
                exact Or.inl rfl
              | some i =>
                intro st1 h1
                simp only [Except.ok.injEq] at h1
                subst h1
                exact Or.inl rfl
          · rw [if_neg hn]
            intro st1 h1
            simp only [Except.ok.injEq] at h1
            subst h1
            exact Or.inr ⟨_, hfixed .SLASH (by decide) (by decide) (by decide) (by decide), rfl⟩
      · rw [if_neg hc]
        intro st1 h1
        simp only [Except.ok.injEq] at h1
        subst h1
        exact Or.inr ⟨_, hfixed .SLASH (by decide) (by decide) (by decide) (by decide), rfl⟩
    rw [if_neg h]
    clear h
    by_cases h : token = 34
    · rw [if_pos h]
      exact scanString_emits Q fc st _ (Nat.succ_pos _) hstr
    rw [if_neg h]
    clear h
    by_cases h : 48 ≤ token ∧ token ≤ 57
    · rw [if_pos h]
      exact scanNumber_emits sc Q fc st _ (Nat.succ_pos _) hnum
    rw [if_neg h]
    clear h
    by_cases h : (97 ≤ token ∧ token ≤ 122) ∨ (65 ≤ token ∧ token ≤ 90) ∨ token = 95
    · rw [if_pos h]
      exact scanIdentifier_emits Q fc st _ (Nat.succ_pos _) hres hid
    rw [if_neg h]
    clear h
    intro st1 h1
    simp only [Except.ok.injEq] at h1
    subst h1
    exact Or.inl rfl

theorem scan_tokens (sc : Strconv) (fc : Bytes) (Q : Token → Prop)
    (hfixed : ∀ k, k ≠ .NUMBER → k ≠ .STRING → k ≠ .IDENTIFIER → k ≠ .EOF → Q (tokens k))
    (hstr : ∀ lexeme value,
      Q { tokens .STRING with lexeme := lexeme, literal := some value })
    (hnum : ∀ lexeme v, sc.ParseFloat lexeme = some v →
      Q { tokens .NUMBER with lexeme := lexeme, literal := some (formatFloat sc v) })
    (hres : ∀ text t, reserved text = some t → Q t)
    (hid : ∀ text, Q { tokens .IDENTIFIER with lexeme := text }) :
    ∃ st, scan sc fc = .ok st ∧ ∀ t ∈ st.parsedTokens, Q t := by
  obtain ⟨st, h1, h2, _⟩ := scanLoop_invariant sc fc (fun st => ∀ t ∈ st.parsedTokens, Q t)
    (by
      intro st st1 hP _ hs
      rcases scanStep_emits sc fc st Q hfixed hstr hnum hres hid st1 hs with h | ⟨t, ht, h⟩
      · rw [h]; exact hP
      · rw [h]
        intro t1 ht1
        simp only [List.mem_append, List.mem_singleton] at ht1
        rcases ht1 with ht1 | ht1
        · exact hP t1 ht1
        · rw [ht1]; exact ht)
    fc.length ⟨0, 0, [], []⟩ (by simp) (by intro t ht; simp at ht)
  exact ⟨st, h1, h2⟩

theorem bytesIndex_isSome (s : Bytes) (b : Nat) : (bytesIndex s b).isSome = true ↔ b ∈ s := by
  induction s with
  | nil => simp [bytesIndex]
  | cons x xs ih =>
    unfold bytesIndex
    by_cases hx : x = b
    · simp [hx]
    · have hx1 : ¬ b = x := fun h => hx h.symm
      simp [hx, hx1, ← ih]

theorem formatFloat_dot (sc : Strconv) (v : sc.Float64) : 46 ∈ formatFloat sc v := by
  unfold formatFloat
  by_cases h : containsDot (sc.FormatFloat v) = true
  · simp only [h, Bool.not_true, Bool.false_eq_true, if_false]
    exact (bytesIndex_isSome _ _).1 h
  · simp only [h, Bool.not_false, if_true]
    simp [str]

theorem formatFloat_eq (sc : Strconv) (v : sc.Float64) :
    formatFloat sc v =
      if 46 ∈ sc.FormatFloat v then sc.FormatFloat v else sc.FormatFloat v ++ str ".0" := by
  unfold formatFloat
  by_cases h : containsDot (sc.FormatFloat v) = true
  · have := (bytesIndex_isSome _ _).1 h
    simp [h, this]
  · have : 46 ∉ sc.FormatFloat v := fun hm => h ((bytesIndex_isSome _ _).2 hm)
    simp [h, this]

theorem Tokenize_number_tokens (sc : Strconv) (fc : Bytes) (r : Scanned)
    (h : Tokenize sc fc = .ok r) (t : Token) (ht : t ∈ r.tokens)
    (hk : t.tokenType = .NUMBER) :
    ∃ v, sc.ParseFloat t.lexeme = some v ∧ t.literal = some (formatFloat sc v) := by
  obtain ⟨st, h1, h2⟩ := scan_tokens sc fc
    (fun t => t.tokenType = .NUMBER →
      ∃ v, sc.ParseFloat t.lexeme = some v ∧ t.literal = some (formatFloat sc v))
    (by
      intro k h1 h2 h3 h4 hk
      exfalso
      revert hk
      cases k <;> first | exact absurd rfl h1 | decide)
    (by
      intro lexeme value hk
      exact absurd hk (by decide : (tokens TokenType.STRING).tokenType ≠ TokenType.NUMBER))
    (by intro lexeme v hv _; exact ⟨v, hv, rfl⟩)
    (by
      intro text t hr hk
      have hall : ∀ p ∈ reservedTable, p.2.tokenType ≠ .NUMBER := by decide
      exact absurd hk (hall _ (lookup_mem hr)))
    (by
      intro text hk
      exact absurd hk (by decide : (tokens TokenType.IDENTIFIER).tokenType ≠ TokenType.NUMBER))
  rw [Tokenize_eq, h1] at h
  simp only [Except.ok.injEq] at h
  subst h
  simp only [List.mem_append, List.mem_singleton] at ht
  rcases ht with ht | ht
  · exact h2 t ht hk
  · rw [ht] at hk
    exact absurd hk (by decide)

theorem scanStep_punctuation (sc : Strconv) (p : Nat) (t : Token) (hp : (p, t) ∈ punctuation)
    (rest : Bytes) : scanStep sc (p :: rest) ⟨0, 0, [], []⟩ = .ok ⟨1, 0, [t], []⟩ := by
  simp only [punctuation, List.mem_cons, Prod.mk.injEq, List.mem_nil_iff, or_false] at hp
  rcases hp with ⟨h1, h2⟩ | ⟨h1, h2⟩ | ⟨h1, h2⟩ | ⟨h1, h2⟩ | ⟨h1, h2⟩ | ⟨h1, h2⟩ | ⟨h1, h2⟩ |
    ⟨h1, h2⟩ | ⟨h1, h2⟩ | ⟨h1, h2⟩ <;>
    subst h1 h2 <;> simp [scanStep, index_zero, emit] <;> decide

theorem scanStep_slash (sc : Strconv) (rest : Bytes) (hr : rest.head? ≠ some 47) :
    scanStep sc (47 :: rest) ⟨0, 0, [], []⟩ = .ok ⟨1, 0, [⟨.SLASH, "SLASH", [47], none⟩], []⟩ := by
  have h4 : tokens .SLASH = ⟨.SLASH, "SLASH", [47], none⟩ := by decide
  cases rest with
  | nil => simp [scanStep, index_zero, emit, h4]
  | cons b r =>
    have hb : b ≠ 47 := by simpa using hr
    simp [scanStep, index_zero, index_succ, emit, h4, hb]

theorem Tokenize_literal_kinds (sc : Strconv) (fc : Bytes) :
    ∃ r, Tokenize sc fc = .ok r ∧
      ∀ t ∈ r.tokens, (t.literal ≠ none ↔ (t.tokenType = .STRING ∨ t.tokenType = .NUMBER)) := by
  obtain ⟨st, h1, h2⟩ := scan_tokens sc fc
    (fun t => t.literal ≠ none ↔ (t.tokenType = .STRING ∨ t.tokenType = .NUMBER))
    (by
      intro k h1 h2 h3 h4
      revert h1 h2 h3 h4
      cases k <;> decide)
    (by
      intro lexeme value
      have : (tokens TokenType.STRING).tokenType = TokenType.STRING := by decide
      simp [this])
    (by
      intro lexeme v _
      have : (tokens TokenType.NUMBER).tokenType = TokenType.NUMBER := by decide
      simp [this])
    (by
      intro text t hr
      have hall : ∀ p ∈ reservedTable,
          (p.2.literal ≠ none ↔ (p.2.tokenType = .STRING ∨ p.2.tokenType = .NUMBER)) := by
        decide
      exact hall _ (lookup_mem hr))
    (by
      intro text
      have h1 : (tokens TokenType.IDENTIFIER).tokenType = TokenType.IDENTIFIER := by decide
      have h2 : (tokens TokenType.IDENTIFIER).literal = none := by decide
      simp [h1, h2])
  refine ⟨⟨st.parsedTokens ++ [tokens .EOF], decide (st.errors ≠ []), st.errors⟩, ?_, ?_⟩
  · rw [Tokenize_eq, h1]
  · intro t ht
    simp only [List.mem_append, List.mem_singleton] at ht
    rcases ht with ht | ht
    · exact h2 t ht
    · rw [ht]; decide

theorem scanStep_one (sc : Strconv) (fc : Bytes) (st : ScanState) (hlt : st.cursor < fc.length) :
    ∃ st1, scanStep sc fc st = .ok st1 ∧ st.cursor < st1.cursor ∧ st1.cursor ≤ fc.length ∧
      ((st1.parsedTokens = st.parsedTokens ∧ st1.errors = st.errors) ∨
       (∃ t, st1.parsedTokens = st.parsedTokens ++ [t] ∧ st1.errors = st.errors) ∨
       (∃ e, st1.parsedTokens = st.parsedTokens ∧ st1.errors = st.errors ++ [e])) := by
  obtain ⟨st1, h0, c1, h1, h2, h3⟩ := scanStep_advance sc fc st hlt
  refine ⟨st1, h0, ?_⟩
  rcases h3 with h3 | h3 | ⟨t, _, h3⟩ | ⟨e, _, h3⟩ <;> subst h3
  · exact ⟨h1, h2, Or.inl ⟨rfl, rfl⟩⟩
  · exact ⟨h1, h2, Or.inl ⟨rfl, rfl⟩⟩
  · exact ⟨h1, h2, Or.inr (Or.inl ⟨t, rfl, rfl⟩)⟩
  · exact ⟨h1, h2, Or.inr (Or.inr ⟨e, rfl, rfl⟩)⟩

theorem scan_count (sc : Strconv) (fc : Bytes) :
    ∃ st, scan sc fc = .ok st ∧ st.parsedTokens.length + st.errors.length ≤ fc.length := by
  obtain ⟨st, h1, h2, _⟩ := scanLoop_invariant sc fc
    (fun st => st.parsedTokens.length + st.errors.length ≤ st.cursor ∧ st.cursor ≤ fc.length)
    (by
      intro st st1 hP hlt hs
      obtain ⟨st2, h0, h1, h2, h3⟩ := scanStep_one sc fc st hlt
      rw [hs] at h0
      simp only [Except.ok.injEq] at h0
      subst h0
      refine ⟨?_, h2⟩
      rcases h3 with ⟨h3, h4⟩ | ⟨t, h3, h4⟩ | ⟨e, h3, h4⟩ <;> rw [h3, h4] <;>
        (try simp only [List.length_append, List.length_singleton]) <;> omega)
    fc.length ⟨0, 0, [], []⟩ (by simp) (by simp)
  exact ⟨st, h1, by omega⟩

theorem numberLoop_run (s : Bytes) (budget : Nat) (flag : Bool) (hn : s.length ≤ budget) :
    ∃ n d, numberLoop s budget 0 flag = .ok (n, d) ∧ n ≤ s.length ∧
      RunShape flag d (s.take n) ∧ RunStop d (s.drop n) := by
  induction s generalizing budget flag with
  | nil =>
    refine ⟨0, flag, ?_, by simp, Or.inl ⟨rfl, by simp⟩, by intro x hx; simp at hx⟩
    cases budget <;> simp [numberLoop, numberPass]
  | cons x xs ih =>
    obtain ⟨n, rfl⟩ : ∃ n, budget = n + 1 := ⟨budget - 1, by simp at hn; omega⟩
    have hshift := fun flag1 => numberLoop_append_right [x] xs n 0 flag1
    simp only [List.length_singleton, List.singleton_append, Nat.add_zero] at hshift
    by_cases hx : digitByte x
    · have hx1 := hx
      unfold digitByte at hx1
      have hx46 : x ≠ 46 := by omega
      have hp : numberPass (x :: xs) 0 flag = .ok (some (1, flag)) := by
        simp [numberPass, index_zero, hx1, hx46]
      obtain ⟨m, d, h1, h2, h3, h4⟩ := ih n flag (by simp at hn; omega)
      refine ⟨m + 1, d, ?_, by simp; omega, ?_, by simpa using h4⟩
      · rw [numberLoop, hp]
        simp only []
        rw [hshift, h1]
        simp [shiftPair, Nat.add_comm]
      · rw [List.take_succ_cons]
        rcases h3 with ⟨h3, h5⟩ | ⟨h3, h5, a, b, h6, h7, h8⟩
        · refine Or.inl ⟨h3, ?_⟩
          intro y hy
          simp only [List.mem_cons] at hy
          rcases hy with hy | hy
          · rw [hy]; exact hx
          · exact h5 y hy
        · refine Or.inr ⟨h3, h5, x :: a, b, by rw [h6]; rfl, ?_, h8⟩
          intro y hy
          simp only [List.mem_cons] at hy
          rcases hy with hy | hy
          · rw [hy]; exact hx
          · exact h7 y hy
    · by_cases h46 : x = 46
      · subst h46
        cases flag with
        | true =>
          refine ⟨0, true, ?_, by simp, Or.inl ⟨rfl, by simp⟩, ?_⟩
          · simp [numberLoop, numberPass, index_zero]
          · intro y hy
            simp at hy
            subst hy
            exact ⟨hx, fun _ => rfl⟩
        | false =>
          have hp : numberPass (46 :: xs) 0 false = .ok (some (1, true)) := by
            simp [numberPass, index_zero]
          obtain ⟨m, d, h1, h2, h3, h4⟩ := ih n true (by simp at hn; omega)
          have hd : d = true ∧ ∀ y ∈ xs.take m, digitByte y := by
            rcases h3 with ⟨h3, h5⟩ | ⟨h3, _⟩
            · exact ⟨h3, h5⟩
            · exact absurd h3 (by decide)
          refine ⟨m + 1, d, ?_, by simp; omega, ?_, by simpa using h4⟩
          · rw [numberLoop, hp]
            simp only []
            rw [hshift, h1]
            simp [shiftPair, Nat.add_comm]
          · rw [List.take_succ_cons]
            exact Or.inr ⟨rfl, hd.1, [], xs.take m, rfl, by simp, hd.2⟩
      · refine ⟨0, flag, ?_, by simp, Or.inl ⟨rfl, by simp⟩, ?_⟩
        · have hx1 := hx
          unfold digitByte at hx1
          simp [numberLoop, numberPass, index_zero, hx1, h46]
        · intro y hy
          simp at hy
          subst hy
          exact ⟨hx, fun h => absurd h h46⟩

theorem index_last (lex post : Bytes) (last : Nat) (h : lex.getLast? = some last) :
    index (lex ++ post) (lex.length - 1) = .ok last := by
  obtain ⟨init, rfl⟩ := List.getLast?_eq_some_iff.1 h
  have := index_append_length init post last
  simpa using this

theorem scanNumber_of_loop (sc : Strconv) (lex post : Bytes) (c : Nat) (d : Bool) (last : Nat)
    (hloop : numberLoop (lex ++ post) ((lex ++ post).length - 1) 1 false = .ok (c, d))
    (hlast : index (lex ++ post) (c - 1) = .ok last)
    (hc : (if last = 46 then c - 1 else c) = lex.length) :
    scanNumber sc (lex ++ post) ⟨0, 0, [], []⟩ 1 =
      match sc.ParseFloat lex with
      | none => .ok ⟨lex.length, 0, [], [⟨1, "Invalid number", lex⟩]⟩
      | some v =>
        .ok ⟨lex.length, 0, [⟨.NUMBER, "NUMBER", lex, some (formatFloat sc v)⟩], []⟩ := by
  have hslice : slice (lex ++ post) 0 lex.length = .ok lex := by
    have := slice_prefix [] lex post
    simpa using this
  have h4 : tokens .NUMBER = ⟨.NUMBER, "NUMBER", [], some []⟩ := by decide
  rw [scanNumber_eq _ _ _ _ Nat.one_pos]
  simp only [hloop, hlast, hc, Nat.sub_self, hslice]
  cases sc.ParseFloat lex <;> simp [emit, report, h4]

theorem scanNumber_run (sc : Strconv) (b : Nat) (rest : Bytes) (hb : digitByte b) :
    ∃ lex post, b :: rest = lex ++ post ∧ NumberShape lex ∧ NumberEnd lex post ∧
      scanNumber sc (b :: rest) ⟨0, 0, [], []⟩ 1 =
        match sc.ParseFloat lex with
        | none => .ok ⟨lex.length, 0, [], [⟨1, "Invalid number", lex⟩]⟩
        | some v =>
          .ok ⟨lex.length, 0, [⟨.NUMBER, "NUMBER", lex, some (formatFloat sc v)⟩], []⟩ := by
  obtain ⟨n, d, h1, h2, h3, h4⟩ := numberLoop_run rest rest.length false (Nat.le_refl _)
  have hloop : numberLoop (b :: rest) ((b :: rest).length - 1) 1 false = .ok (n + 1, d) := by
    have := numberLoop_append_right [b] rest rest.length 0 false
    simp only [List.length_singleton, List.singleton_append, Nat.add_zero] at this
    have hl : (b :: rest).length - 1 = rest.length := by simp
    rw [hl, this, h1]
    simp [shiftPair, Nat.add_comm]
  have hsplit : rest = rest.take n ++ rest.drop n := (List.take_append_drop n rest).symm
  have hlen : (rest.take n).length = n := by simp [h2]
  have hdig46 : ∀ x, digitByte x → x ≠ 46 := by
    intro x hx
    unfold digitByte at hx
    omega
  generalize rest.take n = run at hsplit hlen h3
  generalize rest.drop n = post at hsplit h4
  subst hsplit
  rcases h3 with ⟨h3, h5⟩ | ⟨_, h3, a, b1, h5, h6, h7⟩
  · subst h3
    have hall : ∀ x ∈ b :: run, digitByte x := by
      intro x hx
      simp only [List.mem_cons] at hx
      rcases hx with hx | hx
      · rw [hx]; exact hb
      · exact h5 x hx
    obtain ⟨last, hl⟩ : ∃ last, (b :: run).getLast? = some last := by
      cases h : (b :: run).getLast? with
      | none => simp at h
      | some x => exact ⟨x, rfl⟩
    have hlast := index_last (b :: run) post last hl
    have hmem : last ∈ b :: run := List.mem_of_getLast?_eq_some hl
    refine ⟨b :: run, post, rfl, ⟨b :: run, [], by simp, hall, by simp, Or.inl rfl⟩, ?_, ?_⟩
    · refine ⟨fun x hx => (h4 x hx).1, fun hx => ?_⟩
      exact absurd ((h4 46 hx).2 rfl) (by decide)
    · refine scanNumber_of_loop sc (b :: run) post (n + 1) false last hloop ?_ ?_
      · simpa [hlen] using hlast
      · rw [if_neg (hdig46 last (hall last hmem))]
        simp [hlen]
  · subst h3 h5
    have halla : ∀ x ∈ b :: a, digitByte x := by
      intro x hx
      simp only [List.mem_cons] at hx
      rcases hx with hx | hx
      · rw [hx]; exact hb
      · exact h6 x hx
    rcases List.eq_nil_or_concat b1 with hb1 | ⟨init, x, hb1⟩
    · subst hb1
      have heq : b :: (a ++ [46] ++ post) = (b :: a) ++ 46 :: post := by simp
      rw [heq] at hloop ⊢
      have hlast := index_append_length (b :: a) post 46
      refine ⟨b :: a, 46 :: post, rfl, ⟨b :: a, [], by simp, halla, by simp, Or.inl rfl⟩, ?_, ?_⟩
      · refine ⟨fun x hx => ?_, fun _ => Or.inr fun x hx => (h4 x hx).1⟩
        simp at hx
        subst hx
        decide
      · refine scanNumber_of_loop sc (b :: a) (46 :: post) (n + 1) true 46 hloop ?_ ?_
        · simp at hlen
          subst hlen
          simpa using hlast
        · simp at hlen
          subst hlen
          simp
    · rw [List.concat_eq_append] at hb1
      subst hb1
      have hx : digitByte x := h7 x (by simp)
      have heq : b :: (a ++ 46 :: (init ++ [x]) ++ post) =
          (b :: (a ++ 46 :: (init ++ [x]))) ++ post := by
        simp
      rw [heq] at hloop ⊢
      have hlast := index_last (b :: (a ++ 46 :: (init ++ [x]))) post x (by
        have : b :: (a ++ 46 :: (init ++ [x])) = (b :: (a ++ 46 :: init)) ++ [x] := by simp
        rw [this, List.getLast?_append_of_ne_nil _ (List.cons_ne_nil x [])]
        rfl)
      refine ⟨b :: (a ++ 46 :: (init ++ [x])), post, rfl,
        ⟨b :: a, init ++ [x], by simp, halla, h7, Or.inr ⟨by simp, by simp⟩⟩, ?_, ?_⟩
      · exact ⟨fun y hy => (h4 y hy).1, fun _ => Or.inl (by simp)⟩
      · refine scanNumber_of_loop sc _ post (n + 1) true x hloop ?_ ?_
        · simp at hlen
          subst hlen
          simpa using hlast
        · rw [if_neg (hdig46 x hx)]
          simp at hlen
          subst hlen
          simp

theorem split_run (p : Nat → Prop) [DecidablePred p] (l : Bytes) :
    ∃ a b, l = a ++ b ∧ (∀ x ∈ a, p x) ∧ ∀ x, b.head? = some x → ¬ p x := by
  induction l with
  | nil => exact ⟨[], [], rfl, by simp, by simp⟩
  | cons x xs ih =>
    by_cases hx : p x
    · obtain ⟨a, b, h1, h2, h3⟩ := ih
      refine ⟨x :: a, b, by rw [h1]; rfl, ?_, h3⟩
      intro y hy
      simp only [List.mem_cons] at hy
      rcases hy with hy | hy
      · rw [hy]; exact hx
      · exact h2 y hy
    · refine ⟨[], x :: xs, rfl, by simp, ?_⟩
      intro y hy
      simp at hy
      subst hy
      exact hx

theorem HeadStep.token (s : Bytes) (c : Nat) (t : Token) (hc : 0 < c) (hl : t.lexeme = s.take c)
    (hle : c ≤ s.length) (hk : t.tokenType ≠ .NUMBER) : HeadStep s ⟨c, 0, [t], []⟩ :=
  ⟨hc, hle, Or.inr (Or.inl ⟨t, rfl, rfl, hl, fun h => absurd h hk⟩)⟩

theorem scanStep_head_switch (sc : Strconv) (b : Nat) (rest : Bytes) (hb : b ∈ switchBytes) :
    ∃ st1, scanStep sc (b :: rest) ⟨0, 0, [], []⟩ = .ok st1 ∧ HeadStep (b :: rest) st1 := by
  have hpunct : ∀ q ∈ punctuation, q.2.lexeme = [q.1] ∧ q.2.tokenType ≠ .NUMBER := by decide
  have hequal : ∀ q ∈ equalVariants, q.2.1.lexeme = [q.1] ∧ q.2.1.tokenType ≠ .NUMBER ∧
      q.2.2.lexeme = [q.1, 61] ∧ q.2.2.tokenType ≠ .NUMBER := by decide
  have space : ∀ x, x = 32 ∨ x = 9 ∨ x = 13 ∨ x = 10 →
      ∃ st1, scanStep sc (x :: rest) ⟨0, 0, [], []⟩ = .ok st1 ∧ HeadStep (x :: rest) st1 :=
    fun x hx => ⟨_, scanStep_space sc x rest hx, by simp [HeadStep]⟩
  have punct : ∀ x, x ∈ punctuation.map (fun q => q.1) →
      ∃ st1, scanStep sc (x :: rest) ⟨0, 0, [], []⟩ = .ok st1 ∧ HeadStep (x :: rest) st1 := by
    intro x hx
    obtain ⟨⟨x1, t⟩, ht, rfl⟩ := List.mem_map.1 hx
    refine ⟨_, scanStep_punctuation sc x1 t ht rest, ?_⟩
    exact HeadStep.token _ 1 t (by decide) (by simpa using (hpunct _ ht).1) (by simp)
      (hpunct _ ht).2
  have equal : ∀ x, x ∈ equalVariants.map (fun q => q.1) →
      ∃ st1, scanStep sc (x :: rest) ⟨0, 0, [], []⟩ = .ok st1 ∧ HeadStep (x :: rest) st1 := by
    intro x hx
    obtain ⟨⟨x1, t1, t2⟩, ht, rfl⟩ := List.mem_map.1 hx
    obtain ⟨e1, e2, e3, e4⟩ := hequal _ ht
    by_cases hr : rest.head? = some 61
    · obtain ⟨r, rfl⟩ : ∃ r, rest = 61 :: r := by
        cases rest with
        | nil => simp at hr
        | cons y r => simp at hr; exact ⟨r, by rw [hr]⟩
      refine ⟨_, scanStep_dual sc x1 t1 t2 ht r, ?_⟩
      exact HeadStep.token _ 2 t2 (by decide) (by simpa using e3) (by simp) e4
    · refine ⟨_, scanStep_single sc x1 t1 t2 ht rest hr, ?_⟩
      exact HeadStep.token _ 1 t1 (by decide) (by simpa using e1) (by simp) e2
  simp only [switchBytes, List.mem_cons, List.mem_nil_iff, or_false] at hb
  rcases hb with h | h | h | h | h | h | h | h | h | h | h | h | h | h | h | h | h | h | h | h
  · exact space b (by omega)
  · exact space b (by omega)
  · exact space b (by omega)
  · exact space b (by omega)
  · subst h; exact punct _ (by decide)
  · subst h; exact punct _ (by decide)
  · subst h; exact punct _ (by decide)
  · subst h; exact punct _ (by decide)
  · subst h; exact punct _ (by decide)
  · subst h; exact punct _ (by decide)
  · subst h; exact punct _ (by decide)
  · subst h; exact punct _ (by decide)
  · subst h; exact punct _ (by decide)
  · subst h; exact punct _ (by decide)
  · subst h; exact equal _ (by decide)
  · subst h; exact equal _ (by decide)
  · subst h; exact equal _ (by decide)
  · subst h; exact equal _ (by decide)
  · subst h
    by_cases hr : rest.head? = some 47
    · obtain ⟨r, rfl⟩ : ∃ r, rest = 47 :: r := by
        cases rest with
        | nil => simp at hr
        | cons y r => simp at hr; exact ⟨r, by rw [hr]⟩
      obtain ⟨c, tail, h1, h2, h3⟩ := split_run (fun x => x ≠ 10) r
      subst h1
      have htail : tail = [] ∨ ∃ r1, tail = 10 :: r1 := by
        cases tail with
        | nil => exact Or.inl rfl
        | cons y r1 =>
          have := h3 y rfl
          simp only [ne_eq, not_not] at this
          exact Or.inr ⟨r1, by rw [this]⟩
      refine ⟨_, scanStep_comment sc c tail h2 htail, ?_⟩
      simp [HeadStep]
    · refine ⟨_, scanStep_slash sc rest hr, ?_⟩
      exact HeadStep.token _ 1 _ (by decide) (by simp) (by simp) (by decide)
  · subst h
    obtain ⟨s, tail, h1, h2, h3⟩ := split_run (fun x => x ≠ 34) rest
    subst h1
    cases tail with
    | nil =>
      rw [List.append_nil]
      exact ⟨_, scanStep_unterminated sc s h2, by simp [HeadStep]⟩
    | cons y r =>
      have := h3 y rfl
      simp only [ne_eq, not_not] at this
      subst this
      refine ⟨_, scanStep_string sc s r h2, ?_⟩
      refine HeadStep.token _ _ _ (by omega) ?_ (by simp) (by simp)
      have : 34 :: (s ++ 34 :: r) = (34 :: (s ++ [34])) ++ r := by simp
      rw [this, List.take_left' (by simp)]

theorem scanStep_head (sc : Strconv) (b : Nat) (rest : Bytes) :
    ∃ st1, scanStep sc (b :: rest) ⟨0, 0, [], []⟩ = .ok st1 ∧ HeadStep (b :: rest) st1 := by
  by_cases hsw : b ∈ switchBytes
  · exact scanStep_head_switch sc b rest hsw
  rw [scanStep_default sc b rest hsw]
  by_cases hd : 48 ≤ b ∧ b ≤ 57
  · rw [if_pos hd]
    obtain ⟨lex, post, h1, h2, h3, h4⟩ := scanNumber_run sc b rest hd
    have hpos : 0 < lex.length := by
      obtain ⟨ds1, ds2, h5, _, _, h6⟩ := h2
      have : 0 < ds1.length := List.length_pos.2 h5
      rcases h6 with h6 | ⟨_, h6⟩ <;> rw [h6] <;> first | (simp; omega) | simp
    rw [h4, h1]
    cases sc.ParseFloat lex with
    | none =>
      refine ⟨_, rfl, hpos, by simp, Or.inr (Or.inr ⟨_, rfl, rfl, fun _ => ?_⟩)⟩
      simp only [List.take_left' rfl, List.drop_left' rfl]
      exact ⟨trivial, h2, h3⟩
    | some v =>
      refine ⟨_, rfl, hpos, by simp, Or.inr (Or.inl ⟨_, rfl, rfl, ?_, fun _ => ?_⟩)⟩
      · simp only [List.take_left' rfl]
      · simp only [List.drop_left' rfl]
        exact ⟨h2, h3⟩
  · rw [if_neg hd]
    by_cases hl : (97 ≤ b ∧ b ≤ 122) ∨ (65 ≤ b ∧ b ≤ 90) ∨ b = 95
    · rw [if_pos hl]
      obtain ⟨bs, tail, h1, h2, h3⟩ := split_run identifierByte rest
      subst h1
      have hstep := scanStep_word sc b bs tail hl h2 h3
      rw [scanStep_default sc b _ hsw, if_neg hd, if_pos hl] at hstep
      refine ⟨_, hstep, ?_⟩
      have htable : ∀ q ∈ reservedTable, q.2.lexeme = q.1 ∧ q.2.tokenType ≠ .NUMBER := by
        decide
      have htake : (b :: (bs ++ tail)).take (bs.length + 1) = b :: bs := by
        have : b :: (bs ++ tail) = (b :: bs) ++ tail := by simp
        rw [this, List.take_left' (by simp)]
      cases hres : reserved (b :: bs) with
      | none =>
        exact HeadStep.token _ _ _ (by omega) (by rw [htake]; rfl) (by simp) (by simp)
      | some t =>
        have := htable _ (lookup_mem hres)
        exact HeadStep.token _ _ _ (by omega) (by rw [htake]; exact this.1) (by simp) this.2
    · rw [if_neg hl]
      refine ⟨_, rfl, by simp, by simp, Or.inr (Or.inr ⟨_, rfl, rfl, fun h => ?_⟩)⟩
      exact absurd h (by simp)

theorem scanStep_at (sc : Strconv) (fc : Bytes) (st : ScanState) (hlt : st.cursor < fc.length) :
    ∃ st2, HeadStep (fc.drop st.cursor) st2 ∧
      scanStep sc fc st =
        .ok (frame st.cursor st.currentLine st.parsedTokens st.errors st2) := by
  obtain ⟨b, rest, hdrop⟩ : ∃ b rest, fc.drop st.cursor = b :: rest := by
    cases h : fc.drop st.cursor with
    | nil =>
      have := congrArg List.length h
      simp at this
      omega
    | cons b rest => exact ⟨b, rest, rfl⟩
  obtain ⟨st2, h1, h2⟩ := scanStep_head sc b rest
  have hframe := scanStep_frame sc (fc.take st.cursor) (fc.drop st.cursor) st.currentLine
    st.parsedTokens st.errors ⟨0, 0, [], []⟩
  have hlen : (fc.take st.cursor).length = st.cursor := by
    simp
    omega
  rw [List.take_append_drop, hlen, frame_zero, hdrop, h1] at hframe
  refine ⟨st2, by rw [hdrop]; exact h2, ?_⟩
  exact hframe

theorem weave_append (gaps lexemes : List Bytes) (g l : Bytes)
    (h : gaps.length = lexemes.length) :
    weave (gaps ++ [g]) (lexemes ++ [l]) = weave gaps lexemes ++ g ++ l := by
  induction gaps generalizing lexemes with
  | nil =>
    cases lexemes with
    | nil => simp [weave]
    | cons x xs => simp at h
  | cons y ys ih =>
    cases lexemes with
    | nil => simp at h
    | cons x xs =>
      simp only [List.length_cons, Nat.add_right_cancel_iff] at h
      simp [weave, ih xs h]

theorem weave_infix (gaps lexemes : List Bytes) (h : gaps.length = lexemes.length) :
    ∀ l ∈ lexemes, l <:+: weave gaps lexemes := by
  induction gaps generalizing lexemes with
  | nil =>
    cases lexemes with
    | nil => simp
    | cons x xs => simp at h
  | cons y ys ih =>
    cases lexemes with
    | nil => simp
    | cons x xs =>
      simp only [List.length_cons, Nat.add_right_cancel_iff] at h
      intro l hl
      simp only [List.mem_cons] at hl
      rcases hl with hl | hl
      · subst hl
        exact ⟨y, weave ys xs, by simp [weave]⟩
      · obtain ⟨a, b, hab⟩ := ih xs h l hl
        exact ⟨y ++ x ++ a, b, by simp [weave, ← hab]⟩

theorem weave_sublist (gaps lexemes : List Bytes) (h : gaps.length = lexemes.length) :
    lexemes.flatten.Sublist (weave gaps lexemes) := by
  induction gaps generalizing lexemes with
  | nil =>
    cases lexemes with
    | nil => simp [weave]
    | cons x xs => simp at h
  | cons y ys ih =>
    cases lexemes with
    | nil => simp
    | cons x xs =>
      simp only [List.length_cons, Nat.add_right_cancel_iff] at h
      simp only [weave, List.flatten_cons, List.append_assoc]
      exact (List.sublist_append_right y _).trans
        (List.Sublist.append_left (List.Sublist.append (List.Sublist.refl x) (ih xs h)) y)

theorem scan_weave (sc : Strconv) (fc : Bytes) :
    ∃ st, scan sc fc = .ok st ∧ ∃ gaps tail, gaps.length = st.parsedTokens.length ∧
      fc = weave gaps (st.parsedTokens.map (fun t => t.lexeme)) ++ tail := by
  obtain ⟨st, h1, h2, h3⟩ := scanLoop_invariant sc fc
    (fun st => st.cursor ≤ fc.length ∧ ∃ gaps tail, gaps.length = st.parsedTokens.length ∧
      fc.take st.cursor = weave gaps (st.parsedTokens.map (fun t => t.lexeme)) ++ tail)
    (by
      intro st st1 hP hlt hs
      obtain ⟨_, gaps, tail, hg, hw⟩ := hP
      obtain ⟨st2, ⟨hpos, hle, hout⟩, hstep⟩ := scanStep_at sc fc st hlt
      rw [hs] at hstep
      simp only [Except.ok.injEq] at hstep
      subst hstep
      have hle1 : st.cursor + st2.cursor ≤ fc.length := by
        simp only [List.length_drop] at hle
        omega
      have htake : fc.take (st.cursor + st2.cursor) =
          fc.take st.cursor ++ (fc.drop st.cursor).take st2.cursor := List.take_add _ _ _
      refine ⟨hle1, ?_⟩
      simp only [frame]
      rw [htake, hw]
      rcases hout with ⟨h4, _⟩ | ⟨t, h4, _, h5, _⟩ | ⟨e, h4, _⟩
      · exact ⟨gaps, tail ++ (fc.drop st.cursor).take st2.cursor, by simp [h4, hg],
          by simp [h4]⟩
      · refine ⟨gaps ++ [tail], [], by simp [h4, hg], ?_⟩
        rw [h4, List.map_append, List.map_singleton,
          weave_append _ _ _ _ (by simpa using hg), h5]
        simp
      · exact ⟨gaps, tail ++ (fc.drop st.cursor).take st2.cursor, by simp [h4, hg],
          by simp [h4]⟩)
    fc.length ⟨0, 0, [], []⟩ (by simp) ⟨by simp, [], [], rfl, by simp [weave]⟩
  obtain ⟨_, gaps, tail, hg, hw⟩ := h2
  rw [List.take_of_length_le h3] at hw
  exact ⟨st, h1, gaps, tail, hg, hw⟩

theorem NumberShape.dots (l : Bytes) (h : NumberShape l) :
    l ≠ [] ∧ l.head? ≠ some 46 ∧ l.getLast? ≠ some 46 ∧ l.count 46 ≤ 1 ∧
      ∀ x ∈ l, digitByte x ∨ x = 46 := by
  obtain ⟨ds1, ds2, h1, h2, h3, h4⟩ := h
  have hd : ∀ x, digitByte x → x ≠ 46 := by
    intro x hx
    unfold digitByte at hx
    omega
  have hcount : ∀ ds : Bytes, (∀ x ∈ ds, digitByte x) → ds.count 46 = 0 := by
    intro ds hds
    exact List.count_eq_zero.2 fun hm => hd 46 (hds 46 hm) rfl
  have hlast : ∀ ds : Bytes, ds ≠ [] → (∀ x ∈ ds, digitByte x) → ds.getLast? ≠ some 46 := by
    intro ds hne hds hl
    exact hd 46 (hds 46 (List.mem_of_getLast?_eq_some hl)) rfl
  have hhead : ds1.head? ≠ some 46 := by
    intro hh
    exact hd 46 (h2 46 (List.mem_of_mem_head? hh)) rfl
  rcases h4 with h4 | ⟨h5, h4⟩
  · subst h4
    exact ⟨h1, hhead, hlast _ h1 h2, by rw [hcount _ h2]; omega, fun x hx => Or.inl (h2 x hx)⟩
  · subst h4
    refine ⟨by simp, ?_, ?_, ?_, ?_⟩
    · cases ds1 with
      | nil => exact absurd rfl h1
      | cons y ys => simpa using hhead
    · have : ds1 ++ 46 :: ds2 = (ds1 ++ [46]) ++ ds2 := by simp
      rw [this, List.getLast?_append_of_ne_nil _ h5]
      exact hlast _ h5 h3
    · rw [List.count_append, List.count_cons, hcount _ h2, hcount _ h3]
      simp
    · intro x hx
      simp only [List.mem_append, List.mem_cons] at hx
      rcases hx with hx | hx | hx
      · exact Or.inl (h2 x hx)
      · exact Or.inr hx
      · exact Or.inl (h3 x hx)

theorem scanStep_number (sc : Strconv) (fc : Bytes) (st : ScanState)
    (hlt : st.cursor < fc.length) :
    ∃ st1, scanStep sc fc st = .ok st1 ∧ st.cursor < st1.cursor ∧ st1.cursor ≤ fc.length ∧
      (∀ t, st1.parsedTokens = st.parsedTokens ++ [t] → t.tokenType = .NUMBER →
        fc.drop st.cursor = t.lexeme ++ fc.drop st1.cursor ∧ NumberShape t.lexeme ∧
          NumberEnd t.lexeme (fc.drop st1.cursor)) ∧
      (∀ e, st1.errors = st.errors ++ [e] → e.message = "Invalid number" →
        fc.drop st.cursor = e.lexeme ++ fc.drop st1.cursor ∧ NumberShape e.lexeme ∧
          NumberEnd e.lexeme (fc.drop st1.cursor)) ∧
      (st1.parsedTokens = st.parsedTokens ∨ ∃ t, st1.parsedTokens = st.parsedTokens ++ [t]) ∧
      (st1.errors = st.errors ∨ ∃ e, st1.errors = st.errors ++ [e]) := by
  obtain ⟨st2, ⟨hpos, hle, hout⟩, hstep⟩ := scanStep_at sc fc st hlt
  refine ⟨_, hstep, by simp only [frame]; omega, ?_, ?_⟩
  · simp only [frame, List.length_drop] at hle ⊢
    omega
  have hsplit : ∀ lex, lex = (fc.drop st.cursor).take st2.cursor →
      fc.drop st.cursor = lex ++ fc.drop (st.cursor + st2.cursor) := by
    intro lex hlex
    rw [hlex, ← List.drop_drop, List.take_append_drop]
  simp only [frame]
  rw [← List.drop_drop]
  rw [← List.drop_drop] at hsplit
  rcases hout with ⟨h4, h5⟩ | ⟨t, h4, h5, h6, h7⟩ | ⟨e, h4, h5, h6⟩
  · rw [h4, h5]
    refine ⟨fun t ht => ?_, fun e he => ?_, Or.inl (by simp), Or.inl (by simp)⟩
    · simp at ht
    · simp at he
  · rw [h4, h5]
    refine ⟨fun t1 ht hk => ?_, fun e he => ?_, Or.inr ⟨t, rfl⟩, Or.inl (by simp)⟩
    · have := List.append_cancel_left ht
      simp only [List.cons.injEq, and_true] at this
      subst this
      exact ⟨hsplit _ h6, h7 hk⟩
    · simp at he
  · rw [h4, h5]
    refine ⟨fun t ht => ?_, fun e1 he hm => ?_, Or.inl (by simp), Or.inr ⟨_, rfl⟩⟩
    · simp at ht
    · have := List.append_cancel_left he
      simp only [List.map_cons, List.map_nil, List.cons.injEq, and_true] at this
      subst this
      obtain ⟨h8, h9⟩ := h6 hm
      exact ⟨hsplit _ h8, h9⟩

theorem scan_numbers (sc : Strconv) (fc : Bytes) :
    ∃ st, scan sc fc = .ok st ∧
      (∀ t ∈ st.parsedTokens, t.tokenType = .NUMBER → NumberIn fc t.lexeme) ∧
      (∀ e ∈ st.errors, e.message = "Invalid number" → NumberIn fc e.lexeme) := by
  obtain ⟨st, h1, h2, _⟩ := scanLoop_invariant sc fc
    (fun st => (∀ t ∈ st.parsedTokens, t.tokenType = .NUMBER → NumberIn fc t.lexeme) ∧
      (∀ e ∈ st.errors, e.message = "Invalid number" → NumberIn fc e.lexeme))
    (by
      intro st st1 hP hlt hs
      obtain ⟨st2, h0, _, _, h3, h4, h5, h6⟩ := scanStep_number sc fc st hlt
      rw [hs] at h0
      simp only [Except.ok.injEq] at h0
      subst h0
      have hin : ∀ l, fc.drop st.cursor = l ++ fc.drop st1.cursor ∧ NumberShape l ∧
          NumberEnd l (fc.drop st1.cursor) → NumberIn fc l := by
        rintro l ⟨h7, h8, h9⟩
        refine ⟨h8, fc.take st.cursor, fc.drop st1.cursor, ?_, h9⟩
        rw [List.append_assoc, ← h7, List.take_append_drop]
      constructor
      · rcases h5 with h5 | ⟨t, h5⟩
        · rw [h5]; exact hP.1
        · intro t1 ht1 hk
          rw [h5] at ht1
          simp only [List.mem_append, List.mem_singleton] at ht1
          rcases ht1 with ht1 | ht1
          · exact hP.1 t1 ht1 hk
          · subst ht1
            exact hin _ (h3 _ h5 hk)
      · rcases h6 with h6 | ⟨e, h6⟩
        · rw [h6]; exact hP.2
        · intro e1 he1 hm
          rw [h6] at he1
          simp only [List.mem_append, List.mem_singleton] at he1
          rcases he1 with he1 | he1
          · exact hP.2 e1 he1 hm
          · subst he1
            exact hin _ (h4 _ h6 hm))
    fc.length ⟨0, 0, [], []⟩ (by simp) ⟨by simp, by simp⟩
  exact ⟨st, h1, h2⟩

theorem LineStep.plain (s : Bytes) (c : Nat) (ts : List Token) (h : 10 ∉ s.take c) :
    LineStep s ⟨c, 0, ts, []⟩ :=
  ⟨Or.inl rfl, Or.inr ⟨rfl, Or.inl h⟩⟩

theorem scanStep_head_lines_switch (sc : Strconv) (b : Nat) (rest : Bytes)
    (hb : b ∈ switchBytes) :
    ∃ st1, scanStep sc (b :: rest) ⟨0, 0, [], []⟩ = .ok st1 ∧ LineStep (b :: rest) st1 := by
  have hpunct : ∀ q ∈ punctuation, q.1 ≠ 10 := by decide
  have hequal : ∀ q ∈ equalVariants, q.1 ≠ 10 := by decide
  have space : ∀ x, x = 32 ∨ x = 9 ∨ x = 13 →
      ∃ st1, scanStep sc (x :: rest) ⟨0, 0, [], []⟩ = .ok st1 ∧ LineStep (x :: rest) st1 := by
    intro x hx
    have hx10 : x ≠ 10 := by omega
    refine ⟨_, scanStep_space sc x rest (by omega), ?_⟩
    rw [if_neg hx10]
    exact LineStep.plain _ _ _ (by simpa using Ne.symm hx10)
  have punct : ∀ x, x ∈ punctuation.map (fun q => q.1) →
      ∃ st1, scanStep sc (x :: rest) ⟨0, 0, [], []⟩ = .ok st1 ∧ LineStep (x :: rest) st1 := by
    intro x hx
    obtain ⟨⟨x1, t⟩, ht, rfl⟩ := List.mem_map.1 hx
    refine ⟨_, scanStep_punctuation sc x1 t ht rest, ?_⟩
    exact LineStep.plain _ _ _ (by simpa using Ne.symm (hpunct _ ht))
  have equal : ∀ x, x ∈ equalVariants.map (fun q => q.1) →
      ∃ st1, scanStep sc (x :: rest) ⟨0, 0, [], []⟩ = .ok st1 ∧ LineStep (x :: rest) st1 := by
    intro x hx
    obtain ⟨⟨x1, t1, t2⟩, ht, rfl⟩ := List.mem_map.1 hx
    have hx10 := hequal _ ht
    by_cases hr : rest.head? = some 61
    · obtain ⟨r, rfl⟩ : ∃ r, rest = 61 :: r := by
        cases rest with
        | nil => simp at hr
        | cons y r => simp at hr; exact ⟨r, by rw [hr]⟩
      refine ⟨_, scanStep_dual sc x1 t1 t2 ht r, ?_⟩
      exact LineStep.plain _ _ _ (by simpa using Ne.symm hx10)
    · refine ⟨_, scanStep_single sc x1 t1 t2 ht rest hr, ?_⟩
      exact LineStep.plain _ _ _ (by simpa using Ne.symm hx10)
  simp only [switchBytes, List.mem_cons, List.mem_nil_iff, or_false] at hb
  rcases hb with h | h | h | h | h | h | h | h | h | h | h | h | h | h | h | h | h | h | h | h
  · subst h
    exact ⟨_, scanStep_space sc 10 rest (by decide), Or.inl rfl, Or.inl ⟨rfl, rfl, rfl⟩⟩
  · exact space b (by omega)
  · exact space b (by omega)
  · exact space b (by omega)
  · subst h; exact punct _ (by decide)
  · subst h; exact punct _ (by decide)
  · subst h; exact punct _ (by decide)
  · subst h; exact punct _ (by decide)
  · subst h; exact punct _ (by decide)
  · subst h; exact punct _ (by decide)
  · subst h; exact punct _ (by decide)
  · subst h; exact punct _ (by decide)
  · subst h; exact punct _ (by decide)
  · subst h; exact punct _ (by decide)
  · subst h; exact equal _ (by decide)
  · subst h; exact equal _ (by decide)
  · subst h; exact equal _ (by decide)
  · subst h; exact equal _ (by decide)
  · subst h
    by_cases hr : rest.head? = some 47
    · obtain ⟨r, rfl⟩ : ∃ r, rest = 47 :: r := by
        cases rest with
        | nil => simp at hr
        | cons y r => simp at hr; exact ⟨r, by rw [hr]⟩
      obtain ⟨c, tail, h1, h2, h3⟩ := split_run (fun x => x ≠ 10) r
      subst h1
      have htail : tail = [] ∨ ∃ r1, tail = 10 :: r1 := by
        cases tail with
        | nil => exact Or.inl rfl
        | cons y r1 =>
          have := h3 y rfl
          simp only [ne_eq, not_not] at this
          exact Or.inr ⟨r1, by rw [this]⟩
      refine ⟨_, scanStep_comment sc c tail h2 htail, LineStep.plain _ _ _ ?_⟩
      have : 47 :: 47 :: (c ++ tail) = (47 :: 47 :: c) ++ tail := by simp
      rw [this, List.take_left' (by simp)]
      intro hm
      simp only [List.mem_cons] at hm
      rcases hm with hm | hm | hm
      · exact absurd hm (by decide)
      · exact absurd hm (by decide)
      · exact h2 10 hm rfl
    · refine ⟨_, scanStep_slash sc rest hr, LineStep.plain _ _ _ (by simp)⟩
  · subst h
    obtain ⟨s, tail, h1, h2, h3⟩ := split_run (fun x => x ≠ 34) rest
    subst h1
    cases tail with
    | nil =>
      rw [List.append_nil]
      refine ⟨_, scanStep_unterminated sc s h2, Or.inr ⟨_, rfl, rfl, ?_⟩,
        Or.inr ⟨rfl, Or.inr (Or.inr (by simp))⟩⟩
      exact ⟨34, s, rfl, Or.inr (Or.inr ⟨rfl, rfl, fun hm => h2 34 hm rfl⟩)⟩
    | cons y r =>
      have := h3 y rfl
      simp only [ne_eq, not_not] at this
      subst this
      refine ⟨_, scanStep_string sc s r h2, Or.inl rfl,
        Or.inr ⟨rfl, Or.inr (Or.inl ⟨_, rfl, rfl, ?_⟩)⟩⟩
      have : 34 :: (s ++ 34 :: r) = (34 :: (s ++ [34])) ++ r := by simp
      rw [this, List.take_left' (by simp)]

theorem scanStep_head_lines (sc : Strconv) (b : Nat) (rest : Bytes) :
    ∃ st1, scanStep sc (b :: rest) ⟨0, 0, [], []⟩ = .ok st1 ∧ LineStep (b :: rest) st1 := by
  by_cases hsw : b ∈ switchBytes
  · exact scanStep_head_lines_switch sc b rest hsw
  have hb10 : b ≠ 10 := by
    intro h
    exact hsw (by rw [h]; decide)
  rw [scanStep_default sc b rest hsw]
  by_cases hd : 48 ≤ b ∧ b ≤ 57
  · rw [if_pos hd]
    obtain ⟨lex, post, h1, h2, h3, h4⟩ := scanNumber_run sc b rest hd
    have hnl : 10 ∉ lex := by
      intro hm
      rcases (NumberShape.dots lex h2).2.2.2.2 10 hm with h | h
      · unfold digitByte at h
        omega
      · exact absurd h (by decide)
    rw [h4, h1]
    cases sc.ParseFloat lex with
    | none =>
      refine ⟨_, rfl, Or.inr ⟨_, rfl, rfl, ?_⟩, Or.inr ⟨rfl, Or.inl ?_⟩⟩
      · exact ⟨b, rest, h1.symm, Or.inr (Or.inl ⟨rfl, hd, ⟨post, rfl⟩⟩)⟩
      · simp only [List.take_left' rfl]
        exact hnl
    | some v =>
      refine ⟨_, rfl, Or.inl rfl, Or.inr ⟨rfl, Or.inl ?_⟩⟩
      simp only [List.take_left' rfl]
      exact hnl
  · rw [if_neg hd]
    by_cases hl : (97 ≤ b ∧ b ≤ 122) ∨ (65 ≤ b ∧ b ≤ 90) ∨ b = 95
    · rw [if_pos hl]
      obtain ⟨bs, tail, h1, h2, h3⟩ := split_run identifierByte rest
      subst h1
      have hstep := scanStep_word sc b bs tail hl h2 h3
      rw [scanStep_default sc b _ hsw, if_neg hd, if_pos hl] at hstep
      refine ⟨_, hstep, LineStep.plain _ _ _ ?_⟩
      have : b :: (bs ++ tail) = (b :: bs) ++ tail := by simp
      rw [this, List.take_left' (by simp)]
      intro hm
      simp only [List.mem_cons] at hm
      rcases hm with hm | hm
      · exact hb10 hm.symm
      · have := h2 10 hm
        unfold identifierByte at this
        omega
    · rw [if_neg hl]
      refine ⟨_, rfl, Or.inr ⟨_, rfl, rfl, ?_⟩, Or.inr ⟨rfl, Or.inl ?_⟩⟩
      · refine ⟨b, rest, rfl, Or.inl ⟨rfl, rfl, hsw, ?_⟩⟩
        unfold identifierByte
        omega
      · simpa using Ne.symm hb10

theorem scanStep_at_lines (sc : Strconv) (fc : Bytes) (st : ScanState)
    (hlt : st.cursor < fc.length) :
    ∃ st2, HeadStep (fc.drop st.cursor) st2 ∧ LineStep (fc.drop st.cursor) st2 ∧
      scanStep sc fc st =
        .ok (frame st.cursor st.currentLine st.parsedTokens st.errors st2) := by
  obtain ⟨b, rest, hdrop⟩ : ∃ b rest, fc.drop st.cursor = b :: rest := by
    cases h : fc.drop st.cursor with
    | nil =>
      have := congrArg List.length h
      simp at this
      omega
    | cons b rest => exact ⟨b, rest, rfl⟩
  obtain ⟨st2, h1, h2⟩ := scanStep_head sc b rest
  obtain ⟨st3, h3, h4⟩ := scanStep_head_lines sc b rest
  rw [h1] at h3
  simp only [Except.ok.injEq] at h3
  subst h3
  have hframe := scanStep_frame sc (fc.take st.cursor) (fc.drop st.cursor) st.currentLine
    st.parsedTokens st.errors ⟨0, 0, [], []⟩
  have hlen : (fc.take st.cursor).length = st.cursor := by
    simp
    omega
  rw [List.take_append_drop, hlen, frame_zero, hdrop, h1] at hframe
  rw [hdrop]
  exact ⟨st2, h2, h4, hframe⟩

theorem scan_lines (sc : Strconv) (fc : Bytes) :
    ∃ st, scan sc fc = .ok st ∧
      ((∀ t ∈ st.parsedTokens, t.tokenType = .STRING → 10 ∉ t.lexeme) →
        ∃ positions : List Nat, positions.length = st.errors.length ∧
          positions.Pairwise (fun p q => p < q) ∧
          ∀ q ∈ st.errors.zip positions, ErrorAt fc q.1 q.2) := by
  obtain ⟨st, h1, h2, _⟩ := scanLoop_invariant sc fc
    (fun st => st.cursor ≤ fc.length ∧
      ((∀ t ∈ st.parsedTokens, t.tokenType = .STRING → 10 ∉ t.lexeme) →
        (st.currentLine = (fc.take st.cursor).count 10 ∨ fc.length ≤ st.cursor) ∧
        ∃ positions : List Nat, positions.length = st.errors.length ∧
          (∀ p ∈ positions, p < st.cursor) ∧
          positions.Pairwise (fun p q => p < q) ∧
          ∀ q ∈ st.errors.zip positions, ErrorAt fc q.1 q.2))
    (by
      intro st st1 hP hlt hs
      obtain ⟨st2, ⟨hpos, hle, hout⟩, ⟨herr, hline⟩, hstep⟩ := scanStep_at_lines sc fc st hlt
      rw [hs] at hstep
      simp only [Except.ok.injEq] at hstep
      subst hstep
      have hle1 : st.cursor + st2.cursor ≤ fc.length := by
        simp only [List.length_drop] at hle
        omega
      refine ⟨hle1, fun hstr => ?_⟩
      simp only [frame] at hstr ⊢
      obtain ⟨hcl, positions, hlen, hlt1, hpw, hall⟩ :=
        hP.2 (fun t ht => hstr t (List.mem_append_left _ ht))
      have hcl1 : st.currentLine = (fc.take st.cursor).count 10 := by
        rcases hcl with hcl | hcl
        · exact hcl
        · omega
      have htake : fc.take (st.cursor + st2.cursor) =
          fc.take st.cursor ++ (fc.drop st.cursor).take st2.cursor := List.take_add _ _ _
      constructor
      · rcases hline with ⟨h3, h4, h5⟩ | ⟨h3, h4 | ⟨t, h4, h5, h6⟩ | h4⟩
        · left
          have : (fc.drop st.cursor).take st2.cursor = [10] := by
            rw [h4]
            cases hd : fc.drop st.cursor with
            | nil => rw [hd] at h5; simp at h5
            | cons x xs =>
              rw [hd] at h5
              simp only [List.head?_cons, Option.some.injEq] at h5
              simp [h5]
          rw [htake, List.count_append, this, h3, hcl1]
          simp
        · left
          rw [htake, List.count_append, List.count_eq_zero.2 h4, h3, hcl1]
        · left
          have : 10 ∉ (fc.drop st.cursor).take st2.cursor := by
            rw [← h6]
            exact hstr t (by rw [h4]; simp) h5
          rw [htake, List.count_append, List.count_eq_zero.2 this, h3, hcl1]
        · right
          simp only [List.length_drop] at h4
          omega
      · rcases herr with h3 | ⟨e, h3, h4, b, rest, h5, h6⟩
        · rw [h3]
          refine ⟨positions, by simpa using hlen, fun p hp => ?_, hpw, by simpa using hall⟩
          have := hlt1 p hp
          omega
        · rw [h3]
          refine ⟨positions ++ [st.cursor], by simp [hlen], fun p hp => ?_, ?_, ?_⟩
          · simp only [List.mem_append, List.mem_singleton] at hp
            rcases hp with hp | hp
            · have := hlt1 p hp
              omega
            · omega
          · rw [List.pairwise_append]
            refine ⟨hpw, by simp, fun p hp q hq => ?_⟩
            simp only [List.mem_singleton] at hq
            rw [hq]
            exact hlt1 p hp
          · intro q hq
            rw [List.map_singleton, List.zip_append hlen.symm] at hq
            simp only [List.mem_append, List.zip_cons_cons, List.zip_nil_right,
              List.mem_singleton] at hq
            rcases hq with hq | hq
            · exact hall q hq
            · rw [hq]
              refine ⟨?_, b, rest, h5, ?_⟩
              · simp only [shiftError, h4, hcl1]
                omega
              · exact h6)
    fc.length ⟨0, 0, [], []⟩ (by simp)
    ⟨by simp, fun _ => ⟨Or.inl (by simp), [], rfl, by simp, by simp, by simp⟩⟩
  refine ⟨st, h1, fun hstr => ?_⟩
  obtain ⟨_, positions, hlen, _, hpw, hall⟩ := h2.2 hstr
  exact ⟨positions, hlen, hpw, hall⟩

theorem AdvanceFrom.ok {fc : Bytes} {st : ScanState} {c : Nat} {r : Except Fault ScanState}
    (h : AdvanceFrom fc st c r) : ∃ st1, r = .ok st1 := by
  obtain ⟨st1, h1, _⟩ := h
  exact ⟨st1, h1⟩

theorem scanStep_suffix (sc : Strconv) (fc : Bytes) (st : ScanState) :
    scanStep sc fc st =
      frameResult st.cursor st.currentLine st.parsedTokens st.errors
        (scanStep sc (fc.drop st.cursor) ⟨0, 0, [], []⟩) := by
  by_cases hlt : st.cursor ≤ fc.length
  · have hframe := scanStep_frame sc (fc.take st.cursor) (fc.drop st.cursor) st.currentLine
      st.parsedTokens st.errors ⟨0, 0, [], []⟩
    have hlen : (fc.take st.cursor).length = st.cursor := by
      simp
      omega
    rw [List.take_append_drop, hlen, frame_zero] at hframe
    exact hframe
  · have h1 : index fc st.cursor = .error .indexOutOfRange := by
      simp only [index]
      rw [List.getElem?_eq_none (by omega)]
    have h2 : fc.drop st.cursor = [] := List.drop_eq_nil_of_le (by omega)
    rw [h2]
    unfold scanStep
    rw [h1]
    rfl

theorem scanStep_lexeme (sc : Strconv) (fc : Bytes) (st : ScanState)
    (hlt : st.cursor < fc.length) :
    ∃ st1, scanStep sc fc st = .ok st1 ∧ st.cursor < st1.cursor ∧ st1.cursor ≤ fc.length ∧
      ((st1.parsedTokens = st.parsedTokens ∧ SkippedAt sc fc st.cursor st1.cursor) ∨
        ∃ t, st1.parsedTokens = st.parsedTokens ++ [t] ∧
          EmittedAt sc fc t st.cursor st1.cursor) := by
  obtain ⟨b, rest, hdrop⟩ : ∃ b rest, fc.drop st.cursor = b :: rest := by
    cases h : fc.drop st.cursor with
    | nil =>
      have := congrArg List.length h
      simp at this
      omega
    | cons b rest => exact ⟨b, rest, rfl⟩
  obtain ⟨st2, hinner, hhead⟩ := scanStep_head sc b rest
  rw [← hdrop] at hinner hhead
  obtain ⟨hpos, hle, hout⟩ := hhead
  have hstep : scanStep sc fc st =
      .ok (frame st.cursor st.currentLine st.parsedTokens st.errors st2) := by
    rw [scanStep_suffix, hinner]
    rfl
  have hle1 : st.cursor + st2.cursor ≤ fc.length := by
    simp only [List.length_drop] at hle
    omega
  refine ⟨_, hstep, by simp only [frame]; omega, by simpa only [frame] using hle1, ?_⟩
  simp only [frame]
  have hskip : st2.parsedTokens = [] →
      SkippedAt sc fc st.cursor (st.cursor + st2.cursor) := by
    intro h5
    refine ⟨by omega, hle1, ?_⟩
    intro st' hst'
    have := scanStep_suffix sc fc st'
    rw [hst', hinner] at this
    refine ⟨_, this, by simp only [frame], ?_⟩
    simp only [frame]
    rw [h5]
    simp
  rcases hout with ⟨h5, _⟩ | ⟨t, h5, _, h6, _⟩ | ⟨e, h5, _⟩
  · left
    exact ⟨by rw [h5]; simp, hskip h5⟩
  · right
    refine ⟨t, by rw [h5], by omega, hle1, ?_, ?_, ?_⟩
    · rw [h6, ← List.drop_drop, List.take_append_drop]
    · rw [h6]
      congr 1
      omega
    · intro st' hst'
      have := scanStep_suffix sc fc st'
      rw [hst', hinner] at this
      refine ⟨_, this, by simp only [frame], ?_⟩
      simp only [frame]
      rw [h5]
  · left
    exact ⟨by rw [h5]; simp, hskip h5⟩

theorem Skips.snoc {sc : Strconv} {fc : Bytes} {p q r : Nat} (h : Skips sc fc p q)
    (hs : SkippedAt sc fc q r) : Skips sc fc p r := by
  induction h with
  | refl p => exact Skips.step _ _ _ hs (Skips.refl _)
  | step p q1 r1 h1 _ ih => exact Skips.step _ _ _ h1 (ih hs)

theorem Scans.skip {sc : Strconv} {fc : Bytes} {p q r : Nat} {ts : List Token}
    {spans : List (Nat × Nat)} (h : Scans sc fc p ts spans q) (hs : SkippedAt sc fc q r) :
    Scans sc fc p ts spans r := by
  induction ts generalizing p spans with
  | nil =>
    cases spans with
    | nil => exact Skips.snoc h hs
    | cons s ss => exact absurd h (by simp [Scans])
  | cons t ts ih =>
    cases spans with
    | nil => exact absurd h (by simp [Scans])
    | cons s ss =>
      obtain ⟨h1, h2, h3⟩ := h
      exact ⟨h1, h2, ih h3⟩

theorem Scans.emit {sc : Strconv} {fc : Bytes} {p q r : Nat} {ts : List Token}
    {spans : List (Nat × Nat)} {t : Token} (h : Scans sc fc p ts spans q)
    (he : EmittedAt sc fc t q r) :
    Scans sc fc p (ts ++ [t]) (spans ++ [(q, r)]) r := by
  induction ts generalizing p spans with
  | nil =>
    cases spans with
    | nil => exact ⟨h, he, Skips.refl _⟩
    | cons s ss => exact absurd h (by simp [Scans])
  | cons t1 ts ih =>
    cases spans with
    | nil => exact absurd h (by simp [Scans])
    | cons s ss =>
      obtain ⟨h1, h2, h3⟩ := h
      exact ⟨h1, h2, ih h3⟩

theorem scan_spans (sc : Strconv) (fc : Bytes) :
    ∃ st, scan sc fc = .ok st ∧
      ∃ spans : List (Nat × Nat), spans.length = st.parsedTokens.length ∧
        spans.Pairwise (fun a b => a.2 ≤ b.1) ∧
        (∀ q ∈ st.parsedTokens.zip spans, EmittedAt sc fc q.1 q.2.1 q.2.2) ∧
        Scans sc fc 0 st.parsedTokens spans fc.length := by
  obtain ⟨st, h1, h2, h3⟩ := scanLoop_invariant sc fc
    (fun st => st.cursor ≤ fc.length ∧
      ∃ spans : List (Nat × Nat), spans.length = st.parsedTokens.length ∧
        (∀ a ∈ spans, a.2 ≤ st.cursor) ∧
        spans.Pairwise (fun a b => a.2 ≤ b.1) ∧
        (∀ q ∈ st.parsedTokens.zip spans, EmittedAt sc fc q.1 q.2.1 q.2.2) ∧
        Scans sc fc 0 st.parsedTokens spans st.cursor)
    (by
      intro st st1 hP hlt hs
      obtain ⟨_, spans, hlen, hle, hpw, hall, hscan⟩ := hP
      obtain ⟨st2, h0, h4, h5, h6⟩ := scanStep_lexeme sc fc st hlt
      rw [hs] at h0
      simp only [Except.ok.injEq] at h0
      subst h0
      refine ⟨h5, ?_⟩
      rcases h6 with ⟨h6, h7⟩ | ⟨t, h6, h7⟩
      · rw [h6]
        refine ⟨spans, hlen, fun a ha => ?_, hpw, hall, Scans.skip hscan h7⟩
        have := hle a ha
        omega
      · rw [h6]
        refine ⟨spans ++ [(st.cursor, st1.cursor)], by simp [hlen], fun a ha => ?_, ?_, ?_,
          Scans.emit hscan h7⟩
        · simp only [List.mem_append, List.mem_singleton] at ha
          rcases ha with ha | ha
          · have := hle a ha
            omega
          · rw [ha]
        · rw [List.pairwise_append]
          refine ⟨hpw, by simp, fun a ha b hb => ?_⟩
          simp only [List.mem_singleton] at hb
          rw [hb]
          exact hle a ha
        · intro q hq
          rw [List.zip_append hlen.symm] at hq
          simp only [List.mem_append, List.zip_cons_cons, List.zip_nil_right,
            List.mem_singleton] at hq
          rcases hq with hq | hq
          · exact hall q hq
          · rw [hq]
            exact h7)
    fc.length ⟨0, 0, [], []⟩ (by simp)
    ⟨by simp, [], rfl, by simp, by simp, by simp, Skips.refl 0⟩
  obtain ⟨hle, spans, hlen, _, hpw, hall, hscan⟩ := h2
  have hcur : st.cursor = fc.length := by omega
  rw [hcur] at hscan
  exact ⟨st, h1, spans, hlen, hpw, hall, hscan⟩

/-! ## The claims -/

/-- C1. For every input, `Tokenize` returns a token sequence; the sequence is not empty, its
last element is the end-of-input token (kind `EOF`, empty lexeme, no literal), and no
element before the last has kind `EOF`, whether or not errors were recorded. -/
theorem Tokenize_ends_with_one_EOF (sc : Strconv) (fileContents : Bytes) :
    ∃ r, Tokenize sc fileContents = .ok r ∧ r.tokens ≠ [] ∧
      r.tokens.getLast? = some ⟨.EOF, "EOF", [], none⟩ ∧
      ∀ t ∈ r.tokens.dropLast, t.tokenType ≠ .EOF := by
  obtain ⟨st, h1, h2, _⟩ := scan_total sc fileContents
  refine ⟨_, by rw [Tokenize_eq, h1], ?_, ?_, ?_⟩
  · simp
  · show (st.parsedTokens ++ [tokens .EOF]).getLast? = _
    rw [List.getLast?_append_of_ne_nil _ (by simp), List.getLast?_singleton]
    rfl
  · simpa using h2

/-- C2. For every input, `Tokenize` reports failure (a non-nil `error`) exactly when the
slice of lexing errors that its scan loop accumulated is not empty. -/
theorem Tokenize_failed_iff_errors (sc : Strconv) (fileContents : Bytes) :
    ∃ st r, scanLoop sc fileContents fileContents.length ⟨0, 0, [], []⟩ = .ok st ∧
      Tokenize sc fileContents = .ok r ∧ r.errors = st.errors ∧
      (r.failed = true ↔ st.errors ≠ []) := by
  obtain ⟨st, h1, _, _⟩ := scan_total sc fileContents
  refine ⟨st, _, h1, by rw [Tokenize_eq, h1], rfl, ?_⟩
  simp

/-- C3. For every input made up only of whitespace bytes and line comments, `Tokenize`
returns exactly the one-element token sequence `[EOF]`, reports success and records no
error. -/
theorem Tokenize_blank (sc : Strconv) (fileContents : Bytes) (h : Blank fileContents) :
    Tokenize sc fileContents = .ok ⟨[⟨.EOF, "EOF", [], none⟩], false, []⟩ := by
  induction h with
  | nil => rfl
  | space b rest hb _ ih =>
    have := Tokenize_append sc [b] rest _ [] [] (scanStep_space sc b rest hb)
    rw [ih] at this
    exact this
  | comment c rest hc hr _ ih =>
    have := Tokenize_append sc (47 :: 47 :: c) rest 0 [] []
      (scanStep_comment sc c rest hc hr)
    rw [ih] at this
    simpa using this

/-- C3, at the input of a space, a comment that holds a quote and a non-ASCII byte, a newline
and a second comment that runs to the end of the input. -/
theorem Tokenize_blank_witness :
    Tokenize ⟨Bytes, fun s => some s, fun s => s⟩ [32, 47, 47, 34, 233, 10, 47, 47, 120] =
      .ok ⟨[⟨.EOF, "EOF", [], none⟩], false, []⟩ :=
  Tokenize_blank _ _
    (.space 32 _ (Or.inl rfl)
      (.comment [34, 233] _ (by decide) (Or.inr ⟨_, rfl⟩)
        (.space 10 _ (by decide) (.comment [120] [] (by decide) (Or.inl rfl) .nil))))

/-- C4. For every byte string `s` without a quote byte and every remainder `rest`, the
tokens of `quote ++ s ++ quote ++ rest` are one `STRING` token, whose lexeme is `s` with both
quotes and whose literal is exactly `s`, followed by the tokens of `rest`; the scan of the
string records no error.  In particular `"foo"` in quotes gives that token, then `EOF`, and
no error. -/
theorem Tokenize_string (sc : Strconv) (s rest : Bytes) (h : ∀ x ∈ s, x ≠ 34) :
    (∃ r, Tokenize sc rest = .ok r ∧
      Tokenize sc (34 :: (s ++ 34 :: rest)) =
        .ok ⟨⟨.STRING, "STRING", 34 :: (s ++ [34]), some s⟩ :: r.tokens, r.failed, r.errors⟩) ∧
    Tokenize sc (str "\"foo\"") =
      .ok ⟨[⟨.STRING, "STRING", str "\"foo\"", some (str "foo")⟩, ⟨.EOF, "EOF", [], none⟩],
        false, []⟩ := by
  have key : ∀ s rest : Bytes, (∀ x ∈ s, x ≠ 34) → ∃ r, Tokenize sc rest = .ok r ∧
      Tokenize sc (34 :: (s ++ 34 :: rest)) =
        .ok ⟨⟨.STRING, "STRING", 34 :: (s ++ [34]), some s⟩ :: r.tokens, r.failed, r.errors⟩ := by
    intro s rest h
    obtain ⟨r, hr⟩ := Tokenize_total sc rest
    refine ⟨r, hr, ?_⟩
    have := Tokenize_append sc (34 :: (s ++ [34])) rest 0 _ []
      (by simpa using scanStep_string sc s rest h)
    simp only [List.cons_append, List.append_assoc, List.singleton_append,
      List.nil_append] at this
    rw [this, hr]
    simp [map_shiftError_zero]
  refine ⟨key s rest h, ?_⟩
  obtain ⟨r, hr, h2⟩ := key (str "foo") [] (by decide)
  have h0 : Tokenize sc [] = .ok ⟨[⟨.EOF, "EOF", [], none⟩], false, []⟩ := rfl
  rw [h0] at hr
  simp only [Except.ok.injEq] at hr
  subst hr
  exact h2

/-- C4 at the string `a`, newline, `b` in quotes followed by a semicolon. -/
theorem Tokenize_string_witness :
    (∃ r, Tokenize ⟨Bytes, fun s => some s, fun s => s⟩ [59] = .ok r ∧
      Tokenize ⟨Bytes, fun s => some s, fun s => s⟩ (34 :: ([97, 10, 98] ++ 34 :: [59])) =
        .ok ⟨⟨.STRING, "STRING", 34 :: ([97, 10, 98] ++ [34]), some [97, 10, 98]⟩ :: r.tokens,
          r.failed, r.errors⟩) ∧
    Tokenize ⟨Bytes, fun s => some s, fun s => s⟩ (str "\"foo\"") =
      .ok ⟨[⟨.STRING, "STRING", str "\"foo\"", some (str "foo")⟩, ⟨.EOF, "EOF", [], none⟩],
        false, []⟩ :=
  Tokenize_string _ [97, 10, 98] [59] (by decide)

/-- C5. For every input `ws ++ quote ++ r`, where `ws` holds only whitespace and newline
bytes and `r` holds no quote byte, `Tokenize` returns the token sequence `[EOF]`, reports
failure and records exactly one error: its message is "Unterminated string", its lexeme is
empty and its line is 1 plus the number of newline bytes of `ws`.  Nothing in `r` gives a
token or another error. -/
theorem Tokenize_unterminated_string (sc : Strconv) (ws r : Bytes)
    (hws : ∀ b ∈ ws, b = 32 ∨ b = 9 ∨ b = 13 ∨ b = 10) (hr : ∀ x ∈ r, x ≠ 34) :
    Tokenize sc (ws ++ 34 :: r) =
      .ok ⟨[⟨.EOF, "EOF", [], none⟩], true,
        [⟨1 + ws.count 10, "Unterminated string", []⟩]⟩ := by
  induction ws with
  | nil =>
    have := Tokenize_append sc (34 :: r) [] 0 [] _
      (by simpa using scanStep_unterminated sc r hr)
    simp only [List.append_nil] at this
    rw [List.nil_append, this]
    rfl
  | cons b ws ih =>
    have hb := hws b (by simp)
    have := Tokenize_append sc [b] (ws ++ 34 :: r) _ [] []
      (scanStep_space sc b (ws ++ 34 :: r) hb)
    rw [ih (fun x hx => hws x (by simp [hx]))] at this
    rw [List.cons_append]
    rw [show b :: (ws ++ 34 :: r) = [b] ++ (ws ++ 34 :: r) from rfl, this]
    by_cases h10 : b = 10
    · subst h10
      simp [shiftError, Nat.add_comm]
    · have : ¬ (10 = b) := fun h => h10 h.symm
      simp [shiftError, h10, List.count_cons, this]

/-- C5 at the input newline, space, newline, quote, `abc + 1`. -/
theorem Tokenize_unterminated_string_witness :
    Tokenize ⟨Bytes, fun s => some s, fun s => s⟩ ([10, 32, 10] ++ 34 :: str "abc + 1") =
      .ok ⟨[⟨.EOF, "EOF", [], none⟩], true, [⟨1 + 2, "Unterminated string", []⟩]⟩ :=
  Tokenize_unterminated_string _ [10, 32, 10] (str "abc + 1") (by decide) (by decide)

/-- C6. For each operator byte `c` of `=`, `!`, `<`, `>` and every remainder `rest`, the
result of `Tokenize` on `c`, `=`, `rest` is the combined token followed by the result on
`rest`, and when `rest` is empty or does not start with `=` the result on `c`, `rest` is
the single-character token followed by the result on `rest`.  In particular `!` gives
`[BANG, EOF]`, `!=` gives `[BANG_EQUAL, EOF]`, `<=` gives `[LESS_EQUAL, EOF]` and `>`
gives `[GREATER, EOF]`. -/
theorem Tokenize_equal_variants (sc : Strconv) (c : Nat) (single dual : Token)
    (hc : (c, single, dual) ∈ equalVariants) (rest : Bytes) :
    (∃ r, Tokenize sc rest = .ok r ∧
      Tokenize sc (c :: 61 :: rest) = .ok ⟨dual :: r.tokens, r.failed, r.errors⟩ ∧
      (rest.head? ≠ some 61 →
        Tokenize sc (c :: rest) = .ok ⟨single :: r.tokens, r.failed, r.errors⟩)) ∧
    Tokenize sc (str "!") =
      .ok ⟨[⟨.BANG, "BANG", str "!", none⟩, ⟨.EOF, "EOF", [], none⟩], false, []⟩ ∧
    Tokenize sc (str "!=") =
      .ok ⟨[⟨.BANG_EQUAL, "BANG_EQUAL", str "!=", none⟩, ⟨.EOF, "EOF", [], none⟩], false, []⟩ ∧
    Tokenize sc (str "<=") =
      .ok ⟨[⟨.LESS_EQUAL, "LESS_EQUAL", str "<=", none⟩, ⟨.EOF, "EOF", [], none⟩], false, []⟩ ∧
    Tokenize sc (str ">") =
      .ok ⟨[⟨.GREATER, "GREATER", str ">", none⟩, ⟨.EOF, "EOF", [], none⟩], false, []⟩ := by
  refine ⟨?_, rfl, rfl, rfl, rfl⟩
  obtain ⟨r, hr, h2⟩ := Tokenize_cons_token sc [c, 61] rest dual
    (scanStep_dual sc c single dual hc rest)
  refine ⟨r, hr, h2, fun hne => ?_⟩
  obtain ⟨r1, hr1, h1⟩ := Tokenize_cons_token sc [c] rest single
    (scanStep_single sc c single dual hc rest hne)
  rw [hr] at hr1
  simp only [Except.ok.injEq] at hr1
  subst hr1
  exact h1

/-- C6 at the operator `<` before the remainder `=1` and before the remainder `1`. -/
theorem Tokenize_equal_variants_witness :
    (∃ r, Tokenize ⟨Bytes, fun s => some s, fun s => s⟩ [49] = .ok r ∧
      Tokenize ⟨Bytes, fun s => some s, fun s => s⟩ (60 :: 61 :: [49]) =
        .ok ⟨⟨.LESS_EQUAL, "LESS_EQUAL", str "<=", none⟩ :: r.tokens, r.failed, r.errors⟩ ∧
      ([49].head? ≠ some 61 →
        Tokenize ⟨Bytes, fun s => some s, fun s => s⟩ (60 :: [49]) =
          .ok ⟨⟨.LESS, "LESS", str "<", none⟩ :: r.tokens, r.failed, r.errors⟩)) :=
  (Tokenize_equal_variants _ 60 _ _ (by decide) [49]).1

/-- C7. For every non-empty input that starts with an ASCII letter or an underscore and
holds only ASCII letters, digits and underscores, `Tokenize` returns exactly two tokens and
no error: the first token is the keyword token of the input when the input is one of the
sixteen reserved spellings, and else the `IDENTIFIER` token; its lexeme is the input and it
has no literal; the second token is `EOF`.  In particular `classify` gives `IDENTIFIER` and
`class` gives `CLASS`. -/
theorem Tokenize_word (sc : Strconv) (b : Nat) (bs : Bytes)
    (hb : (97 ≤ b ∧ b ≤ 122) ∨ (65 ≤ b ∧ b ≤ 90) ∨ b = 95)
    (hbs : ∀ x ∈ bs, identifierByte x) :
    (∃ tok, Tokenize sc (b :: bs) = .ok ⟨[tok, ⟨.EOF, "EOF", [], none⟩], false, []⟩ ∧
      tok.lexeme = b :: bs ∧ tok.literal = none ∧
      (∀ k name, (b :: bs, k, name) ∈ keywords → tok = ⟨k, name, b :: bs, none⟩) ∧
      ((∀ k name, (b :: bs, k, name) ∉ keywords) →
        tok = ⟨.IDENTIFIER, "IDENTIFIER", b :: bs, none⟩)) ∧
    Tokenize sc (str "classify") =
      .ok ⟨[⟨.IDENTIFIER, "IDENTIFIER", str "classify", none⟩, ⟨.EOF, "EOF", [], none⟩],
        false, []⟩ ∧
    Tokenize sc (str "class") =
      .ok ⟨[⟨.CLASS, "CLASS", str "class", none⟩, ⟨.EOF, "EOF", [], none⟩], false, []⟩ := by
  refine ⟨?_, rfl, rfl⟩
  have hstep := scanStep_word sc b bs [] hb hbs (by simp)
  have := Tokenize_append sc (b :: bs) [] 0 _ [] (by simpa using hstep)
  rw [List.append_nil] at this
  refine ⟨_, by rw [this]; rfl, ?_, ?_, ?_, ?_⟩
  · by_cases hk : ∃ k name, (b :: bs, k, name) ∈ keywords
    · obtain ⟨k, name, hk⟩ := hk
      rw [reserved_keyword _ k name hk]; rfl
    · rw [reserved_other _ (by simpa using hk)]; rfl
  · by_cases hk : ∃ k name, (b :: bs, k, name) ∈ keywords
    · obtain ⟨k, name, hk⟩ := hk
      rw [reserved_keyword _ k name hk]; rfl
    · rw [reserved_other _ (by simpa using hk)]; rfl
  · intro k name hk
    rw [reserved_keyword _ k name hk]; rfl
  · intro hk
    rw [reserved_other _ hk]; rfl

/-- C7 at the input `while`. -/
theorem Tokenize_word_witness :
    ∃ tok, Tokenize ⟨Bytes, fun s => some s, fun s => s⟩ (119 :: [104, 105, 108, 101]) =
        .ok ⟨[tok, ⟨.EOF, "EOF", [], none⟩], false, []⟩ ∧
      tok.lexeme = 119 :: [104, 105, 108, 101] ∧ tok.literal = none ∧
      (∀ k name, (119 :: [104, 105, 108, 101], k, name) ∈ keywords →
        tok = ⟨k, name, 119 :: [104, 105, 108, 101], none⟩) ∧
      ((∀ k name, (119 :: [104, 105, 108, 101], k, name) ∉ keywords) →
        tok = ⟨.IDENTIFIER, "IDENTIFIER", 119 :: [104, 105, 108, 101], none⟩) :=
  (Tokenize_word _ 119 [104, 105, 108, 101] (by decide) (by decide)).1

/-- C8. For every non-empty run of ASCII digits `d` that `ParseFloat` reads as a float64
and every remainder `rest` that is empty or does not start with a digit, the result of
`Tokenize` on `d`, `.`, `rest` is a `NUMBER` token with lexeme `d`, without the dot, then a
`DOT` token, then the result on `rest`.  In particular, with the functions of Go's
`strconv`, the input `123.` gives `NUMBER` with lexeme `123` and literal `123.0`, then
`DOT`, then `EOF`, and no error. -/
theorem Tokenize_number_dot (sc : Strconv) (b : Nat) (ds rest : Bytes) (v : sc.Float64)
    (hb : digitByte b) (hds : ∀ x ∈ ds, digitByte x)
    (hv : sc.ParseFloat (b :: ds) = some v)
    (hrest : ∀ x, rest.head? = some x → ¬ digitByte x) :
    (∃ r, Tokenize sc rest = .ok r ∧
      Tokenize sc (b :: (ds ++ 46 :: rest)) =
        .ok ⟨⟨.NUMBER, "NUMBER", b :: ds, some (formatFloat sc v)⟩ ::
          ⟨.DOT, "DOT", str ".", none⟩ :: r.tokens, r.failed, r.errors⟩) ∧
    Tokenize strconv (str "123.") =
      .ok ⟨[⟨.NUMBER, "NUMBER", str "123", some (str "123.0")⟩, ⟨.DOT, "DOT", str ".", none⟩,
        ⟨.EOF, "EOF", [], none⟩], false, []⟩ :=
  ⟨Tokenize_number_dot_general sc b ds rest v hb hds hv hrest, by decide!⟩

/-- C8 at the digits `42` before a dot and the remainder `.x`, with the functions of Go's
`strconv`. -/
theorem Tokenize_number_dot_witness :
    ∃ r, Tokenize strconv (46 :: str "x") = .ok r ∧
      Tokenize strconv (52 :: ([50] ++ 46 :: 46 :: str "x")) =
        .ok ⟨⟨.NUMBER, "NUMBER", 52 :: [50], some (str "42.0")⟩ ::
          ⟨.DOT, "DOT", str ".", none⟩ :: r.tokens, r.failed, r.errors⟩ := by
  have hf : formatFloat strconv (⟨5910974510923776, 1027⟩ : Float64) = str "42.0" := by
    decide!
  have hv : strconv.ParseFloat (52 :: [50]) = some (⟨5910974510923776, 1027⟩ : Float64) := by
    decide!
  have h := (Tokenize_number_dot strconv 52 [50] (46 :: str "x") ⟨5910974510923776, 1027⟩
    (by decide) (by decide) hv (by decide)).1
  rw [hf] at h
  exact h

/-- C9 as stated fails: the integer `36028797018963968 = 2 ^ 55` is a float64 and is
written without leading zeros, and the literal of its `NUMBER` token is not its digits
followed by `.0`, but the shortest digits that read back as the same float64, filled up
with a zero: `36028797018963970.0`. -/
theorem Tokenize_large_integer_literal :
    decimal 36028797018963968 = str "36028797018963968" ∧
    ParseFloat (str "36028797018963968") = some ⟨4503599627370496, 1077⟩ ∧
    4503599627370496 * 2 ^ 1077 = 36028797018963968 * 2 ^ 1074 ∧
    Tokenize strconv (str "36028797018963968") =
      .ok ⟨[⟨.NUMBER, "NUMBER", str "36028797018963968", some (str "36028797018963970.0")⟩,
        ⟨.EOF, "EOF", [], none⟩], false, []⟩ ∧
    str "36028797018963970.0" ≠ str "36028797018963968" ++ str ".0" := by
  refine ⟨by decide!, by decide!, by decide!, by decide!, by decide⟩

/-- C9, amended.  The literal of every `NUMBER` token is `formatFloat` of the float64 that
`ParseFloat` reads from its lexeme: the output of `FormatFloat`, with `.0` appended exactly
when that output holds no `.`; so the literal holds a decimal point.  With Go's `strconv`,
the decimal digits of an integer below `2 ^ 53` (as `3` and `123`) give the literal of
those digits followed by `.0`, and the input `123.456` gives the literal `123.456`. -/
theorem Tokenize_number_literal :
    (∀ (sc : Strconv) (fileContents : Bytes) (r : Scanned),
      Tokenize sc fileContents = .ok r → ∀ t ∈ r.tokens, t.tokenType = .NUMBER →
        ∃ v, sc.ParseFloat t.lexeme = some v ∧ t.literal = some (formatFloat sc v) ∧
          formatFloat sc v =
            (if 46 ∈ sc.FormatFloat v then sc.FormatFloat v
              else sc.FormatFloat v ++ str ".0") ∧
          46 ∈ formatFloat sc v) ∧
    (∀ n, n < 2 ^ 53 →
      Tokenize strconv (decimal n) =
        .ok ⟨[⟨.NUMBER, "NUMBER", decimal n, some (decimal n ++ str ".0")⟩,
          ⟨.EOF, "EOF", [], none⟩], false, []⟩) ∧
    Tokenize strconv (str "3") =
      .ok ⟨[⟨.NUMBER, "NUMBER", str "3", some (str "3.0")⟩, ⟨.EOF, "EOF", [], none⟩],
        false, []⟩ ∧
    Tokenize strconv (str "123") =
      .ok ⟨[⟨.NUMBER, "NUMBER", str "123", some (str "123.0")⟩, ⟨.EOF, "EOF", [], none⟩],
        false, []⟩ ∧
    Tokenize strconv (str "123.456") =
      .ok ⟨[⟨.NUMBER, "NUMBER", str "123.456", some (str "123.456")⟩,
        ⟨.EOF, "EOF", [], none⟩], false, []⟩ := by
  refine ⟨?_, Tokenize_decimal, by decide!, by decide!, by decide!⟩
  intro sc fc r h t ht hk
  obtain ⟨v, h1, h2⟩ := Tokenize_number_tokens sc fc r h t ht hk
  exact ⟨v, h1, h2, formatFloat_eq sc v, formatFloat_dot sc v⟩

/-- C9, amended, at the input `2.50 + 9007199254740991`, with Go's `strconv`: the literal of
the first `NUMBER` token, and the result on the digits of `2 ^ 53 - 1`. -/
theorem Tokenize_number_literal_witness :
    (∃ v, strconv.ParseFloat (str "2.50") = some v ∧
      (some (str "2.5") : Option Bytes) = some (formatFloat strconv v) ∧
      formatFloat strconv v =
        (if 46 ∈ strconv.FormatFloat v then strconv.FormatFloat v
          else strconv.FormatFloat v ++ str ".0") ∧
      46 ∈ formatFloat strconv v) ∧
    Tokenize strconv (decimal 9007199254740991) =
      .ok ⟨[⟨.NUMBER, "NUMBER", decimal 9007199254740991,
        some (decimal 9007199254740991 ++ str ".0")⟩, ⟨.EOF, "EOF", [], none⟩], false, []⟩ := by
  have hT : Tokenize strconv (str "2.50 + 9007199254740991") =
      .ok ⟨[⟨.NUMBER, "NUMBER", str "2.50", some (str "2.5")⟩,
        ⟨.PLUS, "PLUS", str "+", none⟩,
        ⟨.NUMBER, "NUMBER", str "9007199254740991", some (str "9007199254740991.0")⟩,
        ⟨.EOF, "EOF", [], none⟩], false, []⟩ := by decide!
  have h1 := Tokenize_number_literal.1 strconv _ _ hT
    ⟨.NUMBER, "NUMBER", str "2.50", some (str "2.5")⟩ (List.mem_cons_self _ _) rfl
  have h2 := Tokenize_number_literal.2.1 9007199254740991 (by decide)
  exact ⟨h1, h2⟩

/-- C10, as far as it holds, and where it fails.  For every byte `b` that the scan loop
does not recognise, the first error of `Tokenize` on `b`, `rest` has line 1, the message
"Unexpected character" and the lexeme `string(b)`: the byte itself when `b < 0x80`, and
else the two bytes of the UTF-8 encoding of the code point `b`.  So for the one-byte input
`0xE9` the lexeme is the two bytes `0xC3 0xA9`, not the source byte, and for the two bytes
`0xC3 0xA9` (an `é` in UTF-8) the lexemes of the two errors are `0xC3 0x83` and
`0xC2 0xA9`. -/
theorem Tokenize_unexpected_byte :
    (∀ (sc : Strconv) (b : Nat) (rest : Bytes), b ∉ switchBytes → ¬ digitByte b →
      ¬ ((97 ≤ b ∧ b ≤ 122) ∨ (65 ≤ b ∧ b ≤ 90) ∨ b = 95) →
      ∃ r, Tokenize sc (b :: rest) = .ok r ∧
        r.errors.head? = some ⟨1, "Unexpected character", byteToString b⟩ ∧
        (b < 128 → byteToString b = [b])) ∧
    Tokenize strconv [233] =
      .ok ⟨[⟨.EOF, "EOF", [], none⟩], true, [⟨1, "Unexpected character", [195, 169]⟩]⟩ ∧
    Tokenize strconv [195, 169] =
      .ok ⟨[⟨.EOF, "EOF", [], none⟩], true,
        [⟨1, "Unexpected character", [195, 131]⟩, ⟨1, "Unexpected character", [194, 169]⟩]⟩ := by
  refine ⟨?_, by decide!, by decide!⟩
  intro sc b rest hsw hd hl
  obtain ⟨r, hr⟩ := Tokenize_total sc rest
  have := Tokenize_append sc [b] rest 0 [] _ (scanStep_unexpected sc b rest hsw hd hl)
  rw [hr] at this
  refine ⟨_, this, rfl, fun h => by simp [byteToString, h]⟩

/-- C11. An unexpected character is recovered from locally: for every byte `b` that the scan
loop does not recognise and every remainder `rest`, the tokens of `Tokenize` on `b`, `rest`
are the tokens on `rest`, and its errors are one error for `b` followed by the errors on
`rest`, so there is exactly one error more. -/
theorem Tokenize_skips_unexpected_byte (sc : Strconv) (b : Nat) (rest : Bytes)
    (hsw : b ∉ switchBytes) (hd : ¬ digitByte b)
    (hl : ¬ ((97 ≤ b ∧ b ≤ 122) ∨ (65 ≤ b ∧ b ≤ 90) ∨ b = 95)) :
    ∃ r r1, Tokenize sc rest = .ok r ∧ Tokenize sc (b :: rest) = .ok r1 ∧
      r1.tokens = r.tokens ∧
      r1.errors = ⟨1, "Unexpected character", byteToString b⟩ :: r.errors ∧
      r1.errors.length = r.errors.length + 1 := by
  obtain ⟨r, hr⟩ := Tokenize_total sc rest
  have := Tokenize_append sc [b] rest 0 [] _ (scanStep_unexpected sc b rest hsw hd hl)
  rw [hr] at this
  refine ⟨r, _, hr, this, by simp, by simp [map_shiftError_zero], by simp⟩

/-- C11 at the byte `@` before the remainder `1 #`. -/
theorem Tokenize_skips_unexpected_byte_witness :
    ∃ r r1, Tokenize strconv (str "1 #") = .ok r ∧ Tokenize strconv (64 :: str "1 #") = .ok r1 ∧
      r1.tokens = r.tokens ∧
      r1.errors = ⟨1, "Unexpected character", byteToString 64⟩ :: r.errors ∧
      r1.errors.length = r.errors.length + 1 :=
  Tokenize_skips_unexpected_byte strconv 64 (str "1 #") (by decide) (by decide) (by decide)

/-- C12. The line of an error is one more than the number of newlines that the scan loop
has read as bytes of their own, and the newlines inside a string literal are not among
them. For every input `Tokenize` returns, and if no `STRING` token of the result holds a
newline, the errors stand at increasing offsets of the input, each error about the
construct that starts at its offset (the unrecognised byte, the first digit of the number,
the opening quote of the string without end) and with the line one more than the number of
newlines before that offset; on two newlines and `@` the error has line 3. But on a string
literal that holds a newline, then a newline, then `@`, where two newlines stand before the
`@` at offset 4 as well, the error of `@` has line 2. -/
theorem Tokenize_error_line (sc : Strconv) (fc : Bytes) :
    (∃ r, Tokenize sc fc = .ok r ∧
      ((∀ t ∈ r.tokens, t.tokenType = .STRING → 10 ∉ t.lexeme) →
        ∃ positions : List Nat, positions.length = r.errors.length ∧
          positions.Pairwise (fun p q => p < q) ∧
          ∀ q ∈ r.errors.zip positions,
            q.1.line = 1 + (fc.take q.2).count 10 ∧ Offends (fc.drop q.2) q.1)) ∧
    Tokenize sc (str "\n\n@") =
      .ok ⟨[⟨.EOF, "EOF", [], none⟩], true, [⟨3, "Unexpected character", str "@"⟩]⟩ ∧
    Tokenize sc (str "\"\n\"\n@") =
      .ok ⟨[⟨.STRING, "STRING", str "\"\n\"", some (str "\n")⟩, ⟨.EOF, "EOF", [], none⟩],
        true, [⟨2, "Unexpected character", str "@"⟩]⟩ ∧
    (str "\"\n\"\n@")[4]? = some 64 ∧
    ((str "\"\n\"\n@").take 4).count 10 = 2 := by
  refine ⟨?_, rfl, rfl, rfl, rfl⟩
  obtain ⟨st, h1, h2⟩ := scan_lines sc fc
  refine ⟨⟨st.parsedTokens ++ [tokens .EOF], decide (st.errors ≠ []), st.errors⟩, ?_, ?_⟩
  · rw [Tokenize_eq, h1]
  · intro hstr
    exact h2 (fun t ht => hstr t (List.mem_append_left _ ht))

/-- C13. For every input, `Tokenize` returns, and every token of its result has a literal
if and only if its kind is `STRING` or `NUMBER`; the input of two adjacent quotes gives a
`STRING` token whose literal is present and empty, and the input `0`, when `ParseFloat`
reads it, gives a `NUMBER` token whose literal is present: the formatted value of the
number read. -/
theorem Tokenize_literal_iff_string_or_number (sc : Strconv) (fc : Bytes) :
    (∃ r, Tokenize sc fc = .ok r ∧
      ∀ t ∈ r.tokens,
        (t.literal ≠ none ↔ (t.tokenType = .STRING ∨ t.tokenType = .NUMBER))) ∧
    Tokenize sc (str "\"\"") =
      .ok ⟨[⟨.STRING, "STRING", str "\"\"", some []⟩, ⟨.EOF, "EOF", [], none⟩], false, []⟩ ∧
    (∀ v, sc.ParseFloat (str "0") = some v →
      Tokenize sc (str "0") =
        .ok ⟨[⟨.NUMBER, "NUMBER", str "0", some (formatFloat sc v)⟩, ⟨.EOF, "EOF", [], none⟩],
          false, []⟩) := by
  refine ⟨Tokenize_literal_kinds sc fc, rfl, ?_⟩
  intro v hv
  exact Tokenize_digits sc 48 [] v (by decide) (by simp) hv

/-- C14. For every input `Tokenize` returns, and every token of the result before the last
has a span of the input, from a first to a second offset: the bytes of the span are the
lexeme of the token, and the token is what the iteration of the scan loop entered at the
first offset appends, leaving the cursor at the second offset; the spans do not overlap
and stand in the order of the tokens, and between them the cursor moves only by
iterations that append no token. So the input is a gap and the lexeme of the first token,
a gap and the lexeme of the second token, and so on: every lexeme is a contiguous part of
the input and the concatenation of the lexemes is a subsequence of the input. The last
token is `EOF` with the empty lexeme. At every iteration of the scan loop the token
appended, if any, has as lexeme the bytes from the cursor before to the cursor after. -/
theorem Tokenize_lexemes_verbatim (sc : Strconv) (fc : Bytes) :
    (∃ r, Tokenize sc fc = .ok r ∧
      (∃ spans : List (Nat × Nat), spans.length + 1 = r.tokens.length ∧
        spans.Pairwise (fun a b => a.2 ≤ b.1) ∧
        (∀ q ∈ r.tokens.zip spans,
          q.2.1 < q.2.2 ∧ q.2.2 ≤ fc.length ∧
          q.1.lexeme = (fc.drop q.2.1).take (q.2.2 - q.2.1) ∧
          EmittedAt sc fc q.1 q.2.1 q.2.2) ∧
        Scans sc fc 0 r.tokens.dropLast spans fc.length) ∧
      (∃ gaps, gaps.length = r.tokens.length ∧
        fc = weave gaps (r.tokens.map (fun t => t.lexeme))) ∧
      (∀ t ∈ r.tokens, t.lexeme <:+: fc) ∧
      (r.tokens.map (fun t => t.lexeme)).flatten.Sublist fc ∧
      r.tokens.getLast? = some ⟨.EOF, "EOF", [], none⟩) ∧
    (∀ st : ScanState, st.cursor < fc.length →
      ∃ st1, scanStep sc fc st = .ok st1 ∧ st.cursor < st1.cursor ∧
        st1.cursor ≤ fc.length ∧
        (st1.parsedTokens = st.parsedTokens ∨
          ∃ t, st1.parsedTokens = st.parsedTokens ++ [t] ∧
            t.lexeme = (fc.drop st.cursor).take (st1.cursor - st.cursor) ∧
            fc.drop st.cursor = t.lexeme ++ fc.drop st1.cursor)) := by
  constructor
  · obtain ⟨st, h1, gaps, tail, hg, hw⟩ := scan_weave sc fc
    obtain ⟨st', h1', spans, hlen, hpw, hall, hscan⟩ := scan_spans sc fc
    rw [h1] at h1'
    simp only [Except.ok.injEq] at h1'
    subst h1'
    have hlen1 : (gaps ++ [tail]).length =
        ((st.parsedTokens ++ [tokens .EOF]).map (fun t => t.lexeme)).length := by
      simp [hg]
    have hfc : fc = weave (gaps ++ [tail])
        ((st.parsedTokens ++ [tokens .EOF]).map (fun t => t.lexeme)) := by
      rw [List.map_append, List.map_singleton, weave_append _ _ _ _ (by simpa using hg)]
      have : (tokens .EOF).lexeme = [] := by decide
      rw [this, List.append_nil]
      exact hw
    refine ⟨⟨st.parsedTokens ++ [tokens .EOF], decide (st.errors ≠ []), st.errors⟩, ?_,
      ⟨spans, by simp [hlen], hpw, ?_, ?_⟩, ⟨gaps ++ [tail], by simp [hg], hfc⟩, ?_, ?_, ?_⟩
    · rw [Tokenize_eq, h1]
    · intro q hq
      have hz : (st.parsedTokens ++ [tokens .EOF]).zip spans = st.parsedTokens.zip spans := by
        have := @List.zip_append _ _ st.parsedTokens [tokens .EOF] spans [] hlen.symm
        simpa using this
      simp only [hz] at hq
      have := hall q hq
      exact ⟨this.1, this.2.1, this.2.2.2.1, this⟩
    · simpa using hscan
    · intro t ht
      have := weave_infix _ _ hlen1 t.lexeme (List.mem_map.2 ⟨t, ht, rfl⟩)
      rw [← hfc] at this
      exact this
    · have := weave_sublist _ _ hlen1
      rw [← hfc] at this
      exact this
    · rw [List.getLast?_append_of_ne_nil _ (List.cons_ne_nil _ _)]
      rfl
  · intro st hlt
    obtain ⟨st1, h0, h4, h5, h6⟩ := scanStep_lexeme sc fc st hlt
    refine ⟨st1, h0, h4, h5, ?_⟩
    rcases h6 with ⟨h6, _⟩ | ⟨t, h6, h7⟩
    · exact Or.inl h6
    · exact Or.inr ⟨t, h6, h7.2.2.2.1, h7.2.2.1⟩

/-- C15. For each punctuation byte `p` of `( ) { } , . - + ; *` and every remainder `rest`,
the result of `Tokenize` on `p`, `rest` is the token of `p` (its kind, the lexeme `p`, no
literal) followed by the result on `rest`; in particular the one-byte input `p` gives that
token, then `EOF`, and no error. -/
theorem Tokenize_punctuation (sc : Strconv) (p : Nat) (t : Token) (hp : (p, t) ∈ punctuation)
    (rest : Bytes) :
    (∃ r, Tokenize sc rest = .ok r ∧
      Tokenize sc (p :: rest) = .ok ⟨t :: r.tokens, r.failed, r.errors⟩) ∧
    Tokenize sc [p] = .ok ⟨[t, ⟨.EOF, "EOF", [], none⟩], false, []⟩ ∧
    t.lexeme = [p] ∧ t.literal = none := by
  have key : ∀ rest, ∃ r, Tokenize sc rest = .ok r ∧
      Tokenize sc (p :: rest) = .ok ⟨t :: r.tokens, r.failed, r.errors⟩ :=
    fun rest => Tokenize_cons_token sc [p] rest t (scanStep_punctuation sc p t hp rest)
  refine ⟨key rest, ?_, ?_⟩
  · obtain ⟨r, hr, h⟩ := key []
    have h0 : Tokenize sc [] = .ok ⟨[⟨.EOF, "EOF", [], none⟩], false, []⟩ := rfl
    rw [h0] at hr
    simp only [Except.ok.injEq] at hr
    subst hr
    exact h
  · have hall : ∀ q ∈ punctuation, q.2.lexeme = [q.1] ∧ q.2.literal = none := by decide
    exact hall _ hp

/-- C15 at the byte `;` before the remainder `.`. -/
theorem Tokenize_punctuation_witness :
    (∃ r, Tokenize strconv [46] = .ok r ∧
      Tokenize strconv (59 :: [46]) =
        .ok ⟨⟨.SEMICOLON, "SEMICOLON", str ";", none⟩ :: r.tokens, r.failed, r.errors⟩) ∧
    Tokenize strconv [59] =
      .ok ⟨[⟨.SEMICOLON, "SEMICOLON", str ";", none⟩, ⟨.EOF, "EOF", [], none⟩], false, []⟩ ∧
    (⟨.SEMICOLON, "SEMICOLON", str ";", none⟩ : Token).lexeme = [59] ∧
    (⟨.SEMICOLON, "SEMICOLON", str ";", none⟩ : Token).literal = none :=
  Tokenize_punctuation strconv 59 _ (by decide) [46]

/-- C16. For every byte string `c` without a newline and every remainder `rest`: the tokens
and the failure flag of `Tokenize` on `//`, `c`, newline, `rest` are those on `rest` (the
errors are those on `rest`, one line further down); `Tokenize` on `//`, `c` gives `[EOF]`
and no error; and when `rest` is empty or does not start with `/`, the result on `/`,
`rest` is a `SLASH` token followed by the result on `rest`. -/
theorem Tokenize_slash (sc : Strconv) (c rest : Bytes) (hc : ∀ x ∈ c, x ≠ 10) :
    (∃ r, Tokenize sc rest = .ok r ∧
      Tokenize sc (47 :: 47 :: (c ++ 10 :: rest)) =
        .ok ⟨r.tokens, r.failed, r.errors.map (shiftError 1)⟩ ∧
      (rest.head? ≠ some 47 →
        Tokenize sc (47 :: rest) =
          .ok ⟨⟨.SLASH, "SLASH", str "/", none⟩ :: r.tokens, r.failed, r.errors⟩)) ∧
    Tokenize sc (47 :: 47 :: c) = .ok ⟨[⟨.EOF, "EOF", [], none⟩], false, []⟩ := by
  obtain ⟨r, hr⟩ := Tokenize_total sc rest
  have hnl := Tokenize_append sc [10] rest _ [] [] (scanStep_space sc 10 rest (by decide))
  rw [hr] at hnl
  have hcm := Tokenize_append sc (47 :: 47 :: c) (10 :: rest) 0 [] []
    (scanStep_comment sc c (10 :: rest) hc (Or.inr ⟨rest, rfl⟩))
  simp only [List.singleton_append] at hnl
  rw [hnl] at hcm
  have hend := Tokenize_append sc (47 :: 47 :: c) [] 0 [] []
    (scanStep_comment sc c [] hc (Or.inl rfl))
  refine ⟨⟨r, hr, ?_, fun hne => ?_⟩, ?_⟩
  · simp only [map_shiftError_zero, List.cons_append] at hcm
    rw [hcm]
    simp
  · obtain ⟨r1, hr1, h1⟩ := Tokenize_cons_token sc [47] rest _ (scanStep_slash sc rest hne)
    rw [hr] at hr1
    simp only [Except.ok.injEq] at hr1
    subst hr1
    exact h1
  · have h0 : Tokenize sc [] = .ok ⟨[⟨.EOF, "EOF", [], none⟩], false, []⟩ := rfl
    rw [h0] at hend
    simpa using hend

/-- C16 at the comment text `a"é` before the remainder `/ @`. -/
theorem Tokenize_slash_witness :
    (∃ r, Tokenize strconv (str "/ @") = .ok r ∧
      Tokenize strconv (47 :: 47 :: ([97, 34, 195, 169] ++ 10 :: str "/ @")) =
        .ok ⟨r.tokens, r.failed, r.errors.map (shiftError 1)⟩ ∧
      ((str "/ @").head? ≠ some 47 →
        Tokenize strconv (47 :: str "/ @") =
          .ok ⟨⟨.SLASH, "SLASH", str "/", none⟩ :: r.tokens, r.failed, r.errors⟩)) ∧
    Tokenize strconv (47 :: 47 :: [97, 34, 195, 169]) =
      .ok ⟨[⟨.EOF, "EOF", [], none⟩], false, []⟩ :=
  Tokenize_slash strconv [97, 34, 195, 169] (str "/ @") (by decide)

/-- C17. For every token, `Token.String` is the kind name, a space, the lexeme, a space and
then the literal when there is one, `null` when there is none; a `STRING` token with a
present, empty literal is rendered with an empty last field; and every token of a result of
`Tokenize` whose kind is not `STRING` or `NUMBER` is rendered with the last field `null`. -/
theorem Token_String_format (sc : Strconv) (fc : Bytes) :
    (∀ t : Token, Token.String t =
      str t.tokenTypeName ++ str " " ++ t.lexeme ++ str " " ++
        (match t.literal with
         | some literal => literal
         | none => str "null")) ∧
    Token.String ⟨.STRING, "STRING", str "\"\"", some []⟩ = str "STRING \"\" " ∧
    (∃ r, Tokenize sc fc = .ok r ∧
      ∀ t ∈ r.tokens, t.tokenType ≠ .STRING → t.tokenType ≠ .NUMBER →
        Token.String t = str t.tokenTypeName ++ str " " ++ t.lexeme ++ str " null") := by
  refine ⟨?_, by decide, ?_⟩
  · intro t
    cases h : t.literal <;> simp [Token.String, h, str]
  · obtain ⟨r, hr, h⟩ := Tokenize_literal_kinds sc fc
    refine ⟨r, hr, fun t ht h1 h2 => ?_⟩
    have hn : t.literal = none := by
      by_contra hc
      rcases (h t ht).1 hc with h3 | h3
      · exact h1 h3
      · exact h2 h3
    simp [Token.String, hn]

/-- C18. For every input `Tokenize` returns, and the lexeme of every `NUMBER` token and of
every `Invalid number` error of its result is one or more digits, or one or more digits,
one dot and one or more digits (so it neither starts nor ends with a dot and holds at most
one dot), and it stands in the input before a text that does not start with a digit and
that starts with a dot only if the lexeme holds a dot or no digit follows that dot. The
same holds at each iteration of the scan loop, for the bytes from the cursor before it to
the cursor after it. -/
theorem Tokenize_number_lexeme_shape (sc : Strconv) (fc : Bytes) :
    (∃ r, Tokenize sc fc = .ok r ∧
      (∀ t ∈ r.tokens, t.tokenType = .NUMBER →
        NumberShape t.lexeme ∧ ∃ pre post, fc = pre ++ t.lexeme ++ post ∧
          NumberEnd t.lexeme post) ∧
      (∀ e ∈ r.errors, e.message = "Invalid number" →
        NumberShape e.lexeme ∧ ∃ pre post, fc = pre ++ e.lexeme ++ post ∧
          NumberEnd e.lexeme post)) ∧
    (∀ st : ScanState, st.cursor < fc.length →
      ∃ st1, scanStep sc fc st = .ok st1 ∧
        (∀ t, st1.parsedTokens = st.parsedTokens ++ [t] → t.tokenType = .NUMBER →
          fc.drop st.cursor = t.lexeme ++ fc.drop st1.cursor ∧ NumberShape t.lexeme ∧
            NumberEnd t.lexeme (fc.drop st1.cursor)) ∧
        (∀ e, st1.errors = st.errors ++ [e] → e.message = "Invalid number" →
          fc.drop st.cursor = e.lexeme ++ fc.drop st1.cursor ∧ NumberShape e.lexeme ∧
            NumberEnd e.lexeme (fc.drop st1.cursor))) ∧
    (∀ l, NumberShape l →
      l ≠ [] ∧ l.head? ≠ some 46 ∧ l.getLast? ≠ some 46 ∧ l.count 46 ≤ 1 ∧
        ∀ x ∈ l, digitByte x ∨ x = 46) := by
  refine ⟨?_, ?_, NumberShape.dots⟩
  · obtain ⟨st, h1, h2, h3⟩ := scan_numbers sc fc
    refine ⟨⟨st.parsedTokens ++ [tokens .EOF], decide (st.errors ≠ []), st.errors⟩, ?_, ?_, h3⟩
    · rw [Tokenize_eq, h1]
    · intro t ht hk
      simp only [List.mem_append, List.mem_singleton] at ht
      rcases ht with ht | ht
      · exact h2 t ht hk
      · rw [ht] at hk
        exact absurd hk (by decide)
  · intro st hlt
    obtain ⟨st1, h0, _, _, h3, h4, _⟩ := scanStep_number sc fc st hlt
    exact ⟨st1, h0, h3, h4⟩

/-- C19. For every input `Tokenize` returns a result and never a fault, where a fault is
any index or slice bound below 0 or beyond the length, and an exhausted loop budget.
Every iteration entered with the cursor inside the input returns a state, and so do the
string, number and identifier branches entered after the cursor has moved past the first
byte; `matchEqualVariants` returns for every cursor up to the length of the input; every
kind has an entry in the table `tokens`. The accesses that the source computes with `-1`
are within bounds: after the number loop the cursor `c1` is at least 1 and at most the
length, so the back-off read of `fileContents[c1-1]` returns a byte; when the closing quote
is found at `end` the slices `fileContents[start:start+end]` and
`fileContents[start-1:start+end+1]` return; the slice `fileContents[cursor:]` returns. The
same accesses with a bound of -1 are faults, and the string and number branches entered
with the cursor 0 do end in a fault. -/
theorem Tokenize_never_faults (sc : Strconv) (fc : Bytes) :
    (∃ r, Tokenize sc fc = .ok r) ∧
    (∀ st : ScanState, st.cursor < fc.length → ∃ st1, scanStep sc fc st = .ok st1) ∧
    (∀ (ts : List Token) (c : Nat) (a b : Token), c ≤ fc.length →
      ∃ r, matchEqualVariants ts fc c a b = .ok r) ∧
    (∀ k : TokenType, ∃ t, tokensTable.lookup k = some t ∧ tokens k = t) ∧
    (∀ (st : ScanState) (c : Nat), c < fc.length →
      (∃ st1, scanString fc st (c + 1) = .ok st1) ∧
      (∃ st1, scanIdentifier fc st (c + 1) = .ok st1) ∧
      (∀ b, index fc c = .ok b → digitByte b → ∃ st1, scanNumber sc fc st (c + 1) = .ok st1)) ∧
    (∀ c : Nat, c < fc.length →
      ∃ c1 d last, numberLoop fc (fc.length - (c + 1)) (c + 1) false = .ok (c1, d) ∧
        1 ≤ c1 ∧ c1 ≤ fc.length ∧ indexInt fc ((c1 : Int) - 1) = .ok last) ∧
    (∀ c end_ : Nat, c < fc.length → bytesIndex (fc.drop (c + 1)) 34 = some end_ →
      c + 1 + end_ + 1 ≤ fc.length ∧
      (∃ value, slice fc (c + 1) (c + 1 + end_) = .ok value) ∧
      ∃ valueWithQuotes,
        sliceInt fc (((c + 1 : Nat) : Int) - 1) (((c + 1 : Nat) : Int) + end_ + 1) =
          .ok valueWithQuotes) ∧
    (∀ c : Nat, c < fc.length → sliceFrom fc (c + 1) = .ok (fc.drop (c + 1))) ∧
    (∀ (s : Bytes) (hi : Int),
      indexInt s (-1) = .error .indexOutOfRange ∧
      sliceInt s (-1) hi = .error .sliceOutOfRange ∧
      index s s.length = .error .indexOutOfRange ∧
      slice s 0 (s.length + 1) = .error .sliceOutOfRange) ∧
    (∀ st : ScanState,
      scanString (str "\"\"") st 0 = .error .sliceOutOfRange ∧
      scanNumber sc (str "1") st 0 = .error .sliceOutOfRange) := by
  refine ⟨Tokenize_total sc fc, fun st h => scanStep_total sc fc st h, ?_, ?_, ?_, ?_, ?_, ?_,
    ?_, ?_⟩
  · intro ts c a b hc
    obtain ⟨c1, t, h, _⟩ := matchEqualVariants_spec ts fc c a b hc
    exact ⟨_, h⟩
  · intro k
    cases k <;> exact ⟨_, rfl, rfl⟩
  · intro st c hc
    refine ⟨(scanString_advance fc st c hc).ok, (scanIdentifier_advance fc st c hc).ok, ?_⟩
    intro b hb hd
    exact (scanNumber_advance sc fc st c b hc hb hd).ok
  · intro c hc
    obtain ⟨c1, d1, h1, h2, h3⟩ := numberLoop_total fc (fc.length - (c + 1)) (c + 1) false
      (Nat.le_refl _)
    have h4 := h3 (by omega)
    obtain ⟨last, hlast⟩ := index_of_lt (show c1 - 1 < fc.length by omega)
    refine ⟨c1, d1, last, h1, by omega, h4, ?_⟩
    rw [indexInt_pred _ _ (by omega)]
    exact hlast
  · intro c end_ hc hi
    have := bytesIndex_lt hi
    simp only [List.length_drop] at this
    refine ⟨by omega, ⟨_, slice_of_le (by omega) (by omega)⟩, ?_⟩
    have h1 : ((c + 1 : Nat) : Int) + end_ + 1 = ((c + 1 + end_ + 1 : Nat) : Int) := by
      push_cast
      rfl
    rw [h1, sliceInt_pred _ _ _ (Nat.succ_pos c)]
    exact ⟨_, slice_of_le (by omega) (by omega)⟩
  · intro c hc
    exact sliceFrom_of_le (by omega)
  · intro s hi
    refine ⟨rfl, ?_, ?_, ?_⟩
    · simp [sliceInt]
    · simp [index]
    · simp [slice]
  · intro st
    exact ⟨rfl, rfl⟩

/-- C20. Every iteration of the scan loop entered with the cursor inside the input returns
a state whose cursor is strictly greater and at most the length of the input, with the same
tokens and errors or exactly one token more or exactly one error more (on `1.` the number
branch backs off to cursor 1); `Tokenize` returns on every input, and the number of its
tokens less one plus the number of its errors is at most the length of the input. -/
theorem Tokenize_progress (sc : Strconv) (fc : Bytes) :
    (∀ st : ScanState, st.cursor < fc.length →
      ∃ st1, scanStep sc fc st = .ok st1 ∧ st.cursor < st1.cursor ∧
        st1.cursor ≤ fc.length ∧
        ((st1.parsedTokens = st.parsedTokens ∧ st1.errors = st.errors) ∨
         (∃ t, st1.parsedTokens = st.parsedTokens ++ [t] ∧ st1.errors = st.errors) ∨
         (∃ e, st1.parsedTokens = st.parsedTokens ∧ st1.errors = st.errors ++ [e]))) ∧
    (∃ st1, scanStep sc (str "1.") ⟨0, 0, [], []⟩ = .ok st1 ∧ st1.cursor = 1) ∧
    (∃ r, Tokenize sc fc = .ok r ∧ (r.tokens.length - 1) + r.errors.length ≤ fc.length) := by
  refine ⟨fun st h => scanStep_one sc fc st h, ?_, ?_⟩
  · cases h : sc.ParseFloat [49] with
    | none =>
      simp [scanStep, scanNumber_eq, numberLoop, numberPass, index, slice, str, h, report]
    | some v =>
      simp [scanStep, scanNumber_eq, numberLoop, numberPass, index, slice, str, h, emit]
  · obtain ⟨st, h1, h2⟩ := scan_count sc fc
    refine ⟨⟨st.parsedTokens ++ [tokens .EOF], decide (st.errors ≠ []), st.errors⟩, ?_, ?_⟩
    · rw [Tokenize_eq, h1]
    · simpa using h2

end Gox
